import Mathlib

/-!
# sqldb: a log-structured merge-tree key/value engine

A shallow embedding of the Go sources of `aixiasang/sqldb` (byte ordering,
memtable, write-ahead log, bloom filter, sorted-run writer and reader, and the
LSM engine) together with theorems about the embedded code.

Conventions of the embedding

* A Go `[]byte` is a `List (Fin 256)`; where the source distinguishes a nil
  slice from an empty one the argument is an `Option Bytes` (`none` is nil).
* Fixed-width unsigned integers are natural numbers reduced `% 2^w` at the
  places where the Go arithmetic wraps.
* A Go run-time panic (index out of range, division by zero) is the result
  `none` of an `Option`-valued function; a returned `error` is a `GoError`.
* The file system is a value of type `Disk`; the files of the WAL directory and
  of the SST directory are keyed by their base name, and the operating system
  performs every operation the directory contents allow (no I/O failure).
* The engine is run sequentially: a call, or one latch-protected section of
  the flush worker, at a time. The goroutines that guard the flush with the
  flag `compactionInProgress` are a transition system of their own, one atomic
  step of one goroutine at a time.
* The hash function of the bloom filter and the helper `utils.GetCapSize` are
  not part of the sources; they are the fields of the parameter `Env`.
* A tree of the library `github.com/google/btree` is the list of its items in
  ascending order of `Less`.
-/

namespace Sqldb

/-- One byte. -/
abbrev Byte := Fin 256

/-- A byte string, the contents of a Go `[]byte`. -/
abbrev Bytes := List Byte

/-! ## utils/compare.go -/

/-- Go `bytes.Compare`: lexicographic comparison of two byte strings,
`-1`, `0` or `1`. -/
def bytesCompare : Bytes → Bytes → Int
  | [], [] => 0
  | [], _ :: _ => -1
  | _ :: _, [] => 1
  | x :: xs, y :: ys =>
    if x < y then -1 else if y < x then 1 else bytesCompare xs ys

/-- `utils.CompareBytes`: first by length, then by content. -/
def CompareBytes (a b : Bytes) : Int :=
  if a.length < b.length then -1
  else if a.length > b.length then 1
  else bytesCompare a b

/-- `utils.LessThan`. -/
def LessThan (a b : Bytes) : Bool := decide (CompareBytes a b < 0)

/-- `utils.Equal`. -/
def Equal (a b : Bytes) : Bool := decide (CompareBytes a b = 0)

/-- `utils.GreaterThan`. -/
def GreaterThan (a b : Bytes) : Bool := decide (CompareBytes a b > 0)

/-- The sign of the lexicographic comparison of two byte strings, stated with
the lexicographic order of lists: `-1` when `a` comes first, `0` when the two
are equal, `1` otherwise. -/
def lexSign (a b : Bytes) : Int :=
  if List.Lex (· < ·) a b then -1 else if a = b then 0 else 1

/-- The byte string of an ASCII text. -/
def ascii (s : String) : Bytes := s.toList.map (fun c => Fin.ofNat c.toNat)

/-! ## Go run-time values shared by the packages -/

/-- The error values returned by the embedded functions. -/
inductive GoError where
  /-- `errors.New("key is nil")` of the memtable. -/
  | keyIsNil
  /-- `errors.New("key not found")` of the memtable. -/
  | keyNotFound
  /-- `fmt.Errorf("写入WAL失败: %v", err)` of `LSM.Put`. -/
  | walWriteFailed
  /-- `fmt.Errorf("写入内存表失败: %v", err)` of `LSM.Put`. -/
  | memtablePutFailed
  /-- `fmt.Errorf("更新索引失败: %v", err)` of `Wal.ReadAll`. -/
  | walReplayFailed
  /-- `fmt.Errorf("LSM已关闭")` of `LSM.Get`. -/
  | lsmClosed
  /-- `errors.New("index not found")` of the sorted-run reader. -/
  | indexNotFound
  /-- `errors.New("filter not found")` of the sorted-run reader. -/
  | filterNotFound
  /-- `fmt.Errorf("invalid path: %s", path)` of the path parsers. -/
  | invalidPath
  /-- `errors.New("invalid bloom filter")`. -/
  | invalidBloomFilter
  /-- `errors.New("bloom filter incomplete")`. -/
  | bloomFilterIncomplete
  /-- `io.EOF`. -/
  | eof
  /-- `io.ErrUnexpectedEOF`. -/
  | unexpectedEOF
  /-- `os.ErrClosed`: use of a closed file. -/
  | fileClosed
  /-- `os.ErrNotExist`: the file does not exist. -/
  | notExist
  /-- A negative offset passed to `ReadAt`. -/
  | negativeOffset
  /-- `errors.New("crc mismatch")` of the record decoders. -/
  | crcMismatch
  deriving DecidableEq, Repr

deriving instance DecidableEq for Except

/-- Big-endian encoding of `n` in `w` bytes (`binary.BigEndian.PutUintN`); the
value is truncated to `8 * w` bits. -/
def beBytes : Nat → Nat → Bytes
  | 0, _ => []
  | w + 1, n => Fin.ofNat (n / 256 ^ w) :: beBytes w n

/-- Big-endian value of a byte string (`binary.BigEndian.UintN`). -/
def beValue (b : Bytes) : Nat := b.foldl (fun acc x => acc * 256 + x.val) 0

/-- A Go slice expression `buf[lo:hi]` on a slice whose capacity is its
length; `none` is the run-time panic "slice bounds out of range". -/
def goSlice (buf : Bytes) (lo hi : Nat) : Option Bytes :=
  if lo ≤ hi ∧ hi ≤ buf.length then some ((buf.drop lo).take (hi - lo)) else none

/-- One bit step of the reflected CRC-32 division. -/
def crc32Bit (c : Nat) : Nat :=
  if c % 2 = 1 then (c / 2) ^^^ 0xEDB88320 else c / 2

/-- The CRC-32 register after one more byte. -/
def crc32Update (crc : Nat) (b : Byte) : Nat :=
  crc32Bit (crc32Bit (crc32Bit (crc32Bit (crc32Bit (crc32Bit (crc32Bit (crc32Bit
    (crc ^^^ b.val))))))))

/-- Go `crc32.ChecksumIEEE`: the CRC-32 checksum with the IEEE polynomial. -/
def crc32ChecksumIEEE (data : Bytes) : Nat :=
  (data.foldl crc32Update 0xFFFFFFFF) ^^^ 0xFFFFFFFF

/-! ## memtable/btree.go -/

/-- `KVItem`: a key and its value as stored in the tree. -/
structure KVItem where
  key : Bytes
  value : Bytes
  deriving DecidableEq, Repr

/-- `KVItem.Less`. -/
def KVItem.Less (i than : KVItem) : Bool := decide (CompareBytes i.key than.key < 0)

/-- `btree.BTree.ReplaceOrInsert` of `github.com/google/btree` on the ascending
list of the items of the tree: an item that is neither less nor greater than
`item` is replaced, otherwise `item` is inserted at its place. -/
def btreeReplaceOrInsert (item : KVItem) : List KVItem → List KVItem
  | [] => [item]
  | x :: rest =>
    if item.Less x then item :: x :: rest
    else if x.Less item then x :: btreeReplaceOrInsert item rest
    else item :: rest

/-- `btree.BTree.Get`: the stored item that is neither less nor greater than
`item`, if any. -/
def btreeGet (item : KVItem) (tree : List KVItem) : Option KVItem :=
  tree.find? (fun x => !item.Less x && !x.Less item)

/-- `btree.BTree.Delete`: removes the stored item equal to `item` and returns
it, if any. -/
def btreeDelete (item : KVItem) : List KVItem → Option KVItem × List KVItem
  | [] => (none, [])
  | x :: rest =>
    if !item.Less x && !x.Less item then (some x, rest)
    else ((btreeDelete item rest).1, x :: (btreeDelete item rest).2)

/-- `BTreeMemTable`: the items of the tree in ascending order. -/
structure BTreeMemTable where
  tree : List KVItem
  deriving DecidableEq, Repr

/-- `NewBTreeMemTable`. -/
def NewBTreeMemTable : BTreeMemTable := { tree := [] }

/-- `BTreeMemTable.Put`: the returned error is `none` for Go's nil. A nil value
is stored as the empty value (`append([]byte{}, value...)`). -/
def BTreeMemTable.Put (bt : BTreeMemTable) (key value : Option Bytes) :
    BTreeMemTable × Option GoError :=
  match key with
  | none => (bt, some .keyIsNil)
  | some k =>
    ({ tree := btreeReplaceOrInsert { key := k, value := value.getD [] } bt.tree }, none)

/-- `BTreeMemTable.Get`: on success the value is a fresh non-nil copy. -/
def BTreeMemTable.Get (bt : BTreeMemTable) (key : Option Bytes) : Except GoError Bytes :=
  match key with
  | none => .error .keyIsNil
  | some k =>
    match btreeGet { key := k, value := [] } bt.tree with
    | none => .error .keyNotFound
    | some item => .ok item.value

/-- `BTreeMemTable.Delete`. -/
def BTreeMemTable.Delete (bt : BTreeMemTable) (key : Option Bytes) :
    BTreeMemTable × Option GoError :=
  match key with
  | none => (bt, some .keyIsNil)
  | some k =>
    match btreeDelete { key := k, value := [] } bt.tree with
    | (none, _) => (bt, some .keyNotFound)
    | (some _, rest) => ({ tree := rest }, none)

/-- `BtreeIterator`: the snapshot taken by `newBtreeIterator` and the cursor. -/
structure BtreeIterator where
  KvItems : List KVItem
  currIndex : Int
  length : Nat
  deriving DecidableEq, Repr

/-- `BTreeMemTable.Iterator` (`newBtreeIterator`): `ForEach` visits the items in
ascending order. -/
def BTreeMemTable.Iterator (bt : BTreeMemTable) : BtreeIterator :=
  { KvItems := bt.tree, currIndex := -1, length := bt.tree.length }

/-- `BtreeIterator.First`. -/
def BtreeIterator.First (iter : BtreeIterator) : BtreeIterator :=
  { iter with currIndex := -1 }

/-- `BtreeIterator.Next`: the advanced iterator and the returned flag. -/
def BtreeIterator.Next (iter : BtreeIterator) : BtreeIterator × Bool :=
  ({ iter with currIndex := iter.currIndex + 1 }, decide (iter.currIndex + 1 < iter.length))

/-- `BtreeIterator.Key`; `none` is the index-out-of-range panic. -/
def BtreeIterator.Key (iter : BtreeIterator) : Option Bytes :=
  if 0 ≤ iter.currIndex then (iter.KvItems.get? iter.currIndex.toNat).map (·.key) else none

/-- `BtreeIterator.Value`; `none` is the index-out-of-range panic. -/
def BtreeIterator.Value (iter : BtreeIterator) : Option Bytes :=
  if 0 ≤ iter.currIndex then (iter.KvItems.get? iter.currIndex.toNat).map (·.value) else none

/-! ## The file system -/

/-- The regular files of one directory: base name and contents. -/
abbrev Dir := List (String × Bytes)

/-- The contents of the file `name`, if it exists. -/
def Dir.read (d : Dir) (name : String) : Option Bytes :=
  (d.find? (fun e => e.1 == name)).map (·.2)

/-- Replaces the contents of `name`, creating the file when it is missing
(`os.Create` followed by writes). -/
def Dir.write : Dir → String → Bytes → Dir
  | [], name, data => [(name, data)]
  | e :: rest, name, data =>
    if e.1 == name then (name, data) :: rest else e :: Dir.write rest name data

/-- Opens `name` with `O_CREATE` and without truncation: a missing file is
created empty, an existing one is left as it is. -/
def Dir.create (d : Dir) (name : String) : Dir :=
  match d.read name with
  | some _ => d
  | none => d.write name []

/-- Appends to `name` through an open handle; nothing of the directory changes
when the file has been unlinked. -/
def Dir.append (d : Dir) (name : String) (data : Bytes) : Dir :=
  match d.read name with
  | some old => d.write name (old ++ data)
  | none => d

/-- `os.Remove`. -/
def Dir.remove (d : Dir) (name : String) : Dir :=
  d.filter (fun e => !(e.1 == name))

/-- The data directory: the WAL directory and the SST directory. -/
structure Disk where
  walDir : Dir
  sstDir : Dir
  deriving DecidableEq, Repr

/-! ## config/config.go -/

/-- `config.Config`; the directory names are fixed by the `Disk`. -/
structure Config where
  BlockSize : Int
  AutoSync : Bool
  IsDebug : Bool
  MemTableCapSize : Int
  MaxLevel : Int
  deriving DecidableEq, Repr

/-- `config.NewConfig`. -/
def NewConfig : Config :=
  { BlockSize := 4096 / 4, AutoSync := false, IsDebug := false,
    MemTableCapSize := 4096, MaxLevel := 7 }

/-- `config.NewMemTableConstructor`. -/
def NewMemTableConstructor : BTreeMemTable := NewBTreeMemTable

/-- Code the engine calls that is not part of the repository sources. -/
structure Env where
  /-- The 64-bit hash `murmur3.New64WithSeed(seed)`, `Write(key)`, `Sum64()`
  of `github.com/spaolacci/murmur3`. -/
  murmur64 : Nat → Bytes → Nat
  /-- The helper `utils.GetCapSize`, called by `getUpperMemtableSize`. -/
  GetCapSize : Int → Int

/-! ## wal/record.go -/

/-- `RecordTypePut`. -/
def RecordTypePut : Nat := 0

/-- `RecordTypeDelete`. -/
def RecordTypeDelete : Nat := 1

/-- `wal.Record`. -/
structure Record where
  RecordType : Nat
  Key : Option Bytes
  Value : Option Bytes
  deriving DecidableEq, Repr

/-- `wal.NewRecord`. -/
def NewRecord (key value : Option Bytes) : Record :=
  match value with
  | none => { RecordType := RecordTypeDelete, Key := key, Value := none }
  | some v => { RecordType := RecordTypePut, Key := key, Value := some v }

/-- The bytes over which the checksum of a record is computed. -/
def Record.body (r : Record) : Bytes :=
  Fin.ofNat r.RecordType :: (beBytes 4 (r.Key.getD []).length ++
    beBytes 4 (r.Value.getD []).length ++ r.Key.getD [] ++ r.Value.getD [])

/-- `Record.Encode`. -/
def Record.Encode (r : Record) : Bytes :=
  r.body ++ beBytes 4 (crc32ChecksumIEEE r.body)

/-! ## wal/wal.go -/

/-- `wal.Wal`: the handle of an open WAL file. -/
structure Wal where
  filePath : String
  offset : Nat
  closed : Bool
  deriving DecidableEq, Repr

/-- `wal.NewWal`: opens the file for appending, creating it when missing. -/
def NewWal (dir : Dir) (filename : String) : Wal × Dir :=
  ({ filePath := filename, offset := 0, closed := false }, dir.create filename)

/-- `Wal.Write`. -/
def Wal.Write (w : Wal) (dir : Dir) (key value : Option Bytes) :
    Wal × Dir × Option GoError :=
  let encoded := (NewRecord key value).Encode
  if w.closed then (w, dir, some .fileClosed)
  else ({ w with offset := (w.offset + encoded.length) % 2 ^ 32 },
        dir.append w.filePath encoded, none)

/-- `Wal.Size`. -/
def Wal.Size (w : Wal) : Nat := w.offset

/-- `Wal.Close`. -/
def Wal.Close (w : Wal) : Wal × Option GoError :=
  if w.closed then (w, some .fileClosed) else ({ w with closed := true }, none)

/-- `Wal.Delete`: sync, close and unlink. -/
def Wal.Delete (w : Wal) (dir : Dir) : Wal × Dir × Option GoError :=
  if w.closed then (w, dir, some .fileClosed)
  else ({ w with closed := true }, dir.remove w.filePath, none)

/-- `binary.BigEndian.Uint32`; `none` is the panic on a slice shorter than four
bytes. -/
def beUint32 (b : Bytes) : Option Nat :=
  if b.length < 4 then none else some (beValue (b.take 4))

/-- The record loop of `Wal.ReadAll` on the bytes of the file, from `offset`:
the final offset, the memtable and the returned error. The arithmetic on
`offset` is that of `uint32`. `none` means that the call does not return: a
slice expression panics, or the loop does not end within `fuel` rounds. -/
def readAllLoop (buffer : Bytes) : Nat → Nat → BTreeMemTable →
    Option (Nat × BTreeMemTable × Option GoError)
  | 0, _, _ => none
  | fuel + 1, offset, memTable =>
    let n := buffer.length % 2 ^ 32
    if ¬ offset < n then some (offset, memTable, none)
    else if (offset + 9) % 2 ^ 32 > n then some (offset, memTable, none)
    else do
      let recordType ← buffer.get? offset
      let keyLength ← (goSlice buffer ((offset + 1) % 2 ^ 32) ((offset + 5) % 2 ^ 32)).bind beUint32
      let valueLength ← (goSlice buffer ((offset + 5) % 2 ^ 32) ((offset + 9) % 2 ^ 32)).bind beUint32
      if keyLength > 10 * 1024 * 1024 ∨ valueLength > 100 * 1024 * 1024 then
        some (offset, memTable, none)
      else
        let recordLength := (9 + keyLength + valueLength + 4) % 2 ^ 32
        if (offset + recordLength) % 2 ^ 32 > n then some (offset, memTable, none)
        else do
          let key ← goSlice buffer ((offset + 9) % 2 ^ 32) ((offset + 9 + keyLength) % 2 ^ 32)
          let value ← goSlice buffer ((offset + 9 + keyLength) % 2 ^ 32)
            ((offset + 9 + keyLength + valueLength) % 2 ^ 32)
          let _crc ← (goSlice buffer ((offset + 9 + keyLength + valueLength) % 2 ^ 32)
            ((offset + recordLength) % 2 ^ 32)).bind beUint32
          let _computedCrc ← (goSlice buffer offset
            ((offset + 9 + keyLength + valueLength) % 2 ^ 32)).map crc32ChecksumIEEE
          if recordType.val = RecordTypeDelete then
            readAllLoop buffer fuel ((offset + recordLength) % 2 ^ 32)
              (memTable.Delete (some key)).1
          else
            match memTable.Put (some key) (some value) with
            | (memTable', some _) => some (offset, memTable', some .walReplayFailed)
            | (memTable', none) =>
              readAllLoop buffer fuel ((offset + recordLength) % 2 ^ 32) memTable'

/-- `Wal.ReadAll`: replays the file of the handle into `memTable`. The offset
of the handle is set only when the call returns nil. -/
def Wal.ReadAll (w : Wal) (dir : Dir) (memTable : BTreeMemTable) :
    Option (Wal × BTreeMemTable × Option GoError) :=
  if w.closed then some (w, memTable, some .fileClosed)
  else
    let buffer := (dir.read w.filePath).getD []
    match readAllLoop buffer (buffer.length + 1) 0 memTable with
    | none => none
    | some (_, memTable', some err) => some (w, memTable', some err)
    | some (offset, memTable', none) => some ({ w with offset := offset }, memTable', none)

/-! ## utils/parse_path.go -/

/-- `strings.Split` with a one-character separator. -/
def stringsSplit (sep : Char) : List Char → List (List Char)
  | [] => [[]]
  | c :: cs =>
    if c = sep then [] :: stringsSplit sep cs
    else
      match stringsSplit sep cs with
      | [] => [[c]]
      | p :: ps => (c :: p) :: ps

/-- `strings.TrimSuffix`. -/
def stringsTrimSuffix (s suffix : List Char) : List Char :=
  if suffix.isSuffixOf s then s.take (s.length - suffix.length) else s

/-- The value of a non-empty string of decimal digits. -/
def parseDigits (s : List Char) : Option Nat :=
  if s = [] ∨ ¬ s.all Char.isDigit then none
  else some (s.foldl (fun acc c => acc * 10 + (c.toNat - 48)) 0)

/-- `strconv.Atoi` on a 64-bit platform: an optional sign and decimal digits,
within the range of `int`. -/
def strconvAtoi (s : List Char) : Option Int :=
  match s with
  | '-' :: rest =>
    (parseDigits rest).bind fun n => if n ≤ 2 ^ 63 then some (-(n : Int)) else none
  | '+' :: rest =>
    (parseDigits rest).bind fun n => if n < 2 ^ 63 then some (n : Int) else none
  | _ => (parseDigits s).bind fun n => if n < 2 ^ 63 then some (n : Int) else none

/-- `strconv.ParseUint(s, 10, 32)`. -/
def strconvParseUint32 (s : List Char) : Option Nat :=
  (parseDigits s).bind fun n => if n < 2 ^ 32 then some n else none

/-- `filepath.Base` with the separator `/`: the last element of the path,
after the trailing separators are dropped; `"."` for the empty path and `"/"`
for a path of separators only. -/
def filepathBase (path : List Char) : List Char :=
  if path = [] then ['.']
  else
    let stripped := (path.reverse.dropWhile (· = '/')).reverse
    let last := (stripped.reverse.takeWhile (· ≠ '/')).reverse
    if last = [] then ['/'] else last

/-- `utils.ParseSSTPath`. -/
def ParseSSTPath (path : String) : Except GoError (Int × Nat) :=
  match stringsSplit '_' (stringsTrimSuffix (filepathBase path.toList) ".sst".toList) with
  | [p0, p1] =>
    match strconvAtoi p0 with
    | none => .error .invalidPath
    | some level =>
      match strconvAtoi p1 with
      | none => .error .invalidPath
      | some seq => .ok (level, (seq % 2 ^ 32).toNat)
  | _ => .error .invalidPath

/-- `utils.ParseWalPath`. -/
def ParseWalPath (path : String) : Except GoError Nat :=
  match stringsSplit '.' (filepathBase path.toList) with
  | [p0, _] =>
    match strconvParseUint32 p0 with
    | none => .error .invalidPath
    | some fileId => .ok fileId
  | _ => .error .invalidPath

/-! ## filter/bloomfilter.go, filter/filter.go -/

/-- `filter.BloomFilter`: `m` bits, `k` hash functions, the bit array in words
of 64 bits, the number `n` of added elements and the seeds. -/
structure BloomFilter where
  m : Nat
  k : Nat
  bits : List Nat
  n : Nat
  seeds : List Nat
  deriving DecidableEq, Repr

/-- `defaultSeeds`. -/
def defaultSeeds : List Nat :=
  [0x47b6137b, 0x44974d91, 0x8824ad5b, 0xa2b7289d, 0x705495c7, 0x2df1424b, 0x9efc4947,
   0x5c6bfb31]

/-- `filter.NewBloomFilter`. -/
def NewBloomFilter (m k : Nat) : BloomFilter :=
  let m := if m = 0 then 1024 else m
  let k := if k = 0 then 3 else k
  { m := m
    k := k
    bits := List.replicate (((m + 63) % 2 ^ 64) / 64) 0
    n := 0
    seeds := (List.range k).map fun i =>
      if i < defaultSeeds.length then defaultSeeds.getD i 0
      else (defaultSeeds.getD (i % defaultSeeds.length) 0
        + (i / defaultSeeds.length * 7) % 2 ^ 32) % 2 ^ 32 }

/-- `config.NewFilterConstructor`. -/
def NewFilterConstructor : BloomFilter := NewBloomFilter 1024 3

/-- The loop of `BloomFilter.getHash` for the hash functions `i, i+1, ...`
(`count` of them); `none` is the panic of `bf.seeds[i]` out of range or of the
division by `bf.m = 0`. -/
def getHashLoop (env : Env) (bf : BloomFilter) (key : Bytes) : Nat → Nat → Option (List Nat)
  | 0, _ => some []
  | count + 1, i =>
    match bf.seeds.get? i with
    | none => none
    | some seed =>
      if bf.m = 0 then none
      else (getHashLoop env bf key count (i + 1)).map
        (fun hashes => (env.murmur64 seed key % 2 ^ 64) % bf.m :: hashes)

/-- `BloomFilter.getHash`. -/
def BloomFilter.getHash (env : Env) (bf : BloomFilter) (key : Bytes) : Option (List Nat) :=
  getHashLoop env bf key bf.k 0

/-- The loop of `BloomFilter.Add` over the hash values: sets bit `hash % 64`
of word `hash / 64`; `none` is the index-out-of-range panic. -/
def addLoop : List Nat → List Nat → Option (List Nat)
  | bits, [] => some bits
  | bits, hash :: hashes =>
    match bits.get? (hash / 64) with
    | none => none
    | some word => addLoop (bits.set (hash / 64) (word ||| (1 <<< (hash % 64)))) hashes

/-- `BloomFilter.Add`. -/
def BloomFilter.Add (env : Env) (bf : BloomFilter) (key : Bytes) : Option BloomFilter :=
  match bf.getHash env key with
  | none => none
  | some hashes =>
    match addLoop bf.bits hashes with
    | none => none
    | some bits => some { bf with bits := bits, n := (bf.n + 1) % 2 ^ 64 }

/-- The loop of `BloomFilter.Contains` over the hash values. -/
def containsLoop (bits : List Nat) : List Nat → Option Bool
  | [] => some true
  | hash :: hashes =>
    match bits.get? (hash / 64) with
    | none => none
    | some word =>
      if word &&& (1 <<< (hash % 64)) = 0 then some false else containsLoop bits hashes

/-- `BloomFilter.Contains`. -/
def BloomFilter.Contains (env : Env) (bf : BloomFilter) (key : Bytes) : Option Bool :=
  match bf.getHash env key with
  | none => none
  | some hashes => containsLoop bf.bits hashes

/-- `BloomFilter.Reset`. -/
def BloomFilter.Reset (bf : BloomFilter) : BloomFilter :=
  { bf with bits := bf.bits.map (fun _ => 0), n := 0 }

/-- `BloomFilter.Save`. -/
def BloomFilter.Save (bf : BloomFilter) : Bytes :=
  beBytes 8 bf.m ++ beBytes 8 bf.k ++ beBytes 8 bf.n
    ++ (bf.seeds.map (beBytes 4)).flatten ++ (bf.bits.map (beBytes 8)).flatten

/-- Reads up to `count` big-endian integers of `size` bytes each with
`binary.Read`: the values read, and the error that stopped the reading. -/
def readUints (size : Nat) : Nat → Bytes → List Nat × Option GoError
  | 0, _ => ([], none)
  | count + 1, data =>
    if data.length < size then
      ([], some (if data.length = 0 then GoError.eof else GoError.unexpectedEOF))
    else
      ((beValue (data.take size)) :: (readUints size count (data.drop size)).1,
        (readUints size count (data.drop size)).2)

/-- `BloomFilter.Load`: the fields are assigned one after the other, so an
error leaves the filter partly updated. -/
def BloomFilter.Load (bf : BloomFilter) (data : Bytes) : BloomFilter × Option GoError :=
  if data.length < 24 then (bf, some .invalidBloomFilter)
  else
    let m := beValue (data.take 8)
    let k := beValue ((data.drop 8).take 8)
    let n := beValue ((data.drop 16).take 8)
    let seedsRead := readUints 4 k (data.drop 24)
    let seeds := seedsRead.1 ++ List.replicate (k - seedsRead.1.length) 0
    match seedsRead.2 with
    | some err => ({ m := m, k := k, bits := bf.bits, n := n, seeds := seeds }, some err)
    | none =>
      let bitsLen := ((m + 63) % 2 ^ 64) / 64
      let bitsRead := readUints 8 bitsLen (data.drop (24 + 4 * k))
      let bits := bitsRead.1 ++ List.replicate (bitsLen - bitsRead.1.length) 0
      match bitsRead.2 with
      | some err =>
        ({ m := m, k := k, bits := bits, n := n, seeds := seeds },
          some (if err = .eof ∧ bitsRead.1.length > 0 then .bloomFilterIncomplete else err))
      | none => ({ m := m, k := k, bits := bits, n := n, seeds := seeds }, none)

/-! ## sstable/block.go, sstable/index.go -/

/-- `sstable.DataBlock`. -/
structure DataBlock where
  dataBuf : Bytes
  minKey : Bytes
  maxKey : Bytes
  deriving DecidableEq, Repr

/-- `NewDataBlock`. -/
def NewDataBlock : DataBlock := { dataBuf := [], minKey := [], maxKey := [] }

/-- `DataBlock.Add`. -/
def DataBlock.Add (d : DataBlock) (key value : Bytes) : DataBlock :=
  { dataBuf := d.dataBuf ++ (beBytes 4 key.length ++ beBytes 4 value.length ++ key ++ value)
    minKey := if d.minKey.length = 0 then key else d.minKey
    maxKey := key }

/-- `DataBlock.Size`. -/
def DataBlock.Size (d : DataBlock) : Nat := d.dataBuf.length

/-- `DataBlock.Clear`. -/
def DataBlock.Clear (_d : DataBlock) : DataBlock := { dataBuf := [], minKey := [], maxKey := [] }

/-- `sstable.Index`. -/
structure Index where
  minKey : Bytes
  maxKey : Bytes
  offset : Nat
  length : Nat
  deriving DecidableEq, Repr

/-- `Index.Encode`. -/
def Index.Encode (i : Index) : Bytes :=
  beBytes 4 i.minKey.length ++ beBytes 4 i.maxKey.length ++ beBytes 8 i.offset
    ++ beBytes 8 i.length ++ i.minKey ++ i.maxKey

/-- `BloomBlock.Add` on the buffer of the filter stream. -/
def BloomBlock.Add (bloomBuf : Bytes) (offset : Nat) (data : Bytes) : Bytes :=
  bloomBuf ++ (beBytes 8 offset ++ beBytes 4 data.length ++ data)

/-! ## sstable/sst_writer.go -/

/-- `sstable.SSTWriter`; `dest` is the contents of the destination file and
`filterBlock` the buffer of its `BloomBlock`. -/
structure SSTWriter where
  dest : Bytes
  dataBuf : Bytes
  indexBuf : Bytes
  filterBlock : Bytes
  block : DataBlock
  filter : BloomFilter
  conf : Config
  indexs : List Index
  deriving DecidableEq, Repr

/-- `NewSSTWriter`: the destination file is created empty. -/
def NewSSTWriter (conf : Config) : SSTWriter :=
  { dest := [], dataBuf := [], indexBuf := [], filterBlock := [], block := NewDataBlock,
    filter := NewFilterConstructor, conf := conf, indexs := [] }

/-- `SSTWriter.mustFlush`. -/
def SSTWriter.mustFlush (w : SSTWriter) : SSTWriter :=
  { w with
    dataBuf := w.dataBuf ++ w.block.dataBuf
    block := w.block.Clear
    indexs := w.indexs ++ [{ minKey := w.block.minKey, maxKey := w.block.maxKey,
                             offset := w.dataBuf.length % 2 ^ 64,
                             length := w.block.dataBuf.length % 2 ^ 64 }]
    filterBlock := BloomBlock.Add w.filterBlock (w.dataBuf.length % 2 ^ 64) w.filter.Save
    filter := w.filter.Reset }

/-- `SSTWriter.tryFlush`. -/
def SSTWriter.tryFlush (w : SSTWriter) : SSTWriter :=
  if (w.block.Size : Int) > w.conf.BlockSize then w.mustFlush else w

/-- `SSTWriter.writeKV`; `none` is a panic of `filter.Add`. -/
def SSTWriter.writeKV (env : Env) (w : SSTWriter) (key value : Bytes) : Option SSTWriter :=
  match w.filter.Add env key with
  | none => none
  | some filter => some ({ w with filter := filter, block := w.block.Add key value }).tryFlush

/-- The loop `for iter.Next()` of `SSTWriter.Write` over the items the
iterator yields. -/
def SSTWriter.writeItems (env : Env) : SSTWriter → List KVItem → Option SSTWriter
  | w, [] => some w
  | w, item :: items =>
    match w.writeKV env item.key item.value with
    | none => none
    | some w' => SSTWriter.writeItems env w' items

/-- The part of `SSTWriter.Write` after the loop: the last block, the index
stream, and the four parts of the file. -/
def SSTWriter.finish (w : SSTWriter) : SSTWriter :=
  let w1 := if w.block.Size > 0 then w.mustFlush else w
  let indexBuf := w1.indexBuf ++ (w1.indexs.map Index.Encode).flatten
  { w1 with
    indexBuf := indexBuf
    dest := w1.dest ++ w1.dataBuf ++ indexBuf ++ w1.filterBlock
      ++ beBytes 8 w1.dataBuf.length ++ beBytes 8 indexBuf.length
      ++ beBytes 8 w1.filterBlock.length }

/-- `SSTWriter.Write`. -/
def SSTWriter.Write (env : Env) (w : SSTWriter) (mem : BTreeMemTable) : Option SSTWriter :=
  (SSTWriter.writeItems env w mem.Iterator.KvItems).map SSTWriter.finish

/-! ## sstable/sst_reader.go -/

/-- `os.File.Read` into a buffer of `len` bytes at cursor `pos`: the buffer
(zero-filled after the bytes read) and the new cursor. A buffer of length zero
reads nothing; at the end of the file the error is `io.EOF`. -/
def fileRead (src : Bytes) (pos len : Nat) : Except GoError (Bytes × Nat) :=
  if len = 0 then .ok ([], pos)
  else if src.length ≤ pos then .error .eof
  else
    let got := (src.drop pos).take len
    .ok (got ++ List.replicate (len - got.length) 0, pos + got.length)

/-- `binary.Read` of one big-endian unsigned integer of `size` bytes at cursor
`pos` (through `io.ReadFull`): the value or the error, and the new cursor (a
short read consumes what is left of the file). -/
def binaryRead (src : Bytes) (pos size : Nat) : Except GoError Nat × Nat :=
  let got := (src.drop pos).take size
  if got.length = size then (.ok (beValue got), pos + size)
  else if got.length = 0 then (.error .eof, pos)
  else (.error .unexpectedEOF, pos + got.length)

/-- `os.File.Seek(int64(offset), io.SeekStart)` with the error ignored: a
negative offset leaves the cursor where it was. -/
def fileSeek (pos offset : Nat) : Nat :=
  if offset < 2 ^ 63 then offset else pos

/-- What a lookup returns: the value (`none` is nil), the found flag and the
error (`none` is nil). -/
abbrev GetResult := Option Bytes × Bool × Option GoError

/-- `sstable.SSTReader`: `src` is the contents of the open file, `pos` its
cursor, `filterMap` the map from block offset to filter blob (the first entry
of a key is the current one). -/
structure SSTReader where
  src : Bytes
  pos : Nat
  conf : Config
  indexs : List Index
  dataLength : Nat
  indexLength : Nat
  filterLength : Nat
  filterMap : List (Nat × Bytes)
  bloomFilter : BloomFilter
  deriving DecidableEq, Repr

/-- `SSTReader.readFooter`. -/
def SSTReader.readFooter (r : SSTReader) : Except GoError SSTReader :=
  if r.src.length < 24 then .error .negativeOffset
  else
    let footer := r.src.drop (r.src.length - 24)
    .ok { r with
          dataLength := beValue (footer.take 8)
          indexLength := beValue ((footer.drop 8).take 8)
          filterLength := beValue ((footer.drop 16).take 8) }

/-- The loop of `SSTReader.readIndexData`: the index entries and the cursor.
`none` is a slice panic (or the end of the fuel, which `src.length + 2`
rounds never reach since every round reads from the file). -/
def readIndexLoop (src : Bytes) (length : Nat) :
    Nat → Nat → Nat → List Index → Option (Except GoError (List Index × Nat))
  | 0, _, _, _ => none
  | fuel + 1, pos, currOffset, indexs =>
    if ¬ currOffset < length then some (.ok (indexs, pos))
    else
      match fileRead src pos 24 with
      | .error e => some (.error e)
      | .ok (buf, pos1) =>
        let minKeyLen := beValue (buf.take 4)
        let maxKeyLen := beValue ((buf.drop 4).take 4)
        let offset := beValue ((buf.drop 8).take 8)
        let len := beValue ((buf.drop 16).take 8)
        match fileRead src pos1 ((minKeyLen + maxKeyLen) % 2 ^ 32) with
        | .error e => some (.error e)
        | .ok (reminderData, pos2) =>
          match goSlice reminderData 0 minKeyLen,
                goSlice reminderData minKeyLen ((minKeyLen + maxKeyLen) % 2 ^ 32) with
          | some minKey, some maxKey =>
            readIndexLoop src length fuel pos2
              ((currOffset + 24 + minKeyLen + maxKeyLen) % 2 ^ 64)
              (indexs ++ [{ minKey := minKey, maxKey := maxKey, offset := offset,
                            length := len }])
          | _, _ => none

/-- `SSTReader.readIndex` (`readIndexData(r.dataLength, r.indexLength)`). -/
def SSTReader.readIndex (r : SSTReader) : Option (Except GoError SSTReader) :=
  match readIndexLoop r.src r.indexLength (r.src.length + 2) (fileSeek r.pos r.dataLength) 0 []
  with
  | none => none
  | some (.error e) => some (.error e)
  | some (.ok (indexs, pos)) => some (.ok { r with indexs := indexs, pos := pos })

/-- The loop of `SSTReader.readFilter`: the filter map and the cursor. -/
def readFilterLoop (src : Bytes) (filterLength : Nat) :
    Nat → Nat → Nat → List (Nat × Bytes) → Option (Except GoError (List (Nat × Bytes) × Nat))
  | 0, _, _, _ => none
  | fuel + 1, pos, currOffset, filterMap =>
    if ¬ currOffset < filterLength then some (.ok (filterMap, pos))
    else
      match binaryRead src pos 8 with
      | (.error .eof, pos1) => some (.ok (filterMap, pos1))
      | (.error e, _) => some (.error e)
      | (.ok offset, pos1) =>
        match binaryRead src pos1 4 with
        | (.error e, _) => some (.error e)
        | (.ok length, pos2) =>
          match fileRead src pos2 length with
          | .error e => some (.error e)
          | .ok (filterData, pos3) =>
            readFilterLoop src filterLength fuel pos3 ((currOffset + length + 12) % 2 ^ 64)
              ((offset, filterData) :: filterMap)

/-- `SSTReader.readFilter`. -/
def SSTReader.readFilter (r : SSTReader) : Option (Except GoError SSTReader) :=
  match readFilterLoop r.src r.filterLength (r.src.length + 2)
    (fileSeek r.pos ((r.dataLength + r.indexLength) % 2 ^ 64)) 0 r.filterMap with
  | none => none
  | some (.error e) => some (.error e)
  | some (.ok (filterMap, pos)) => some (.ok { r with filterMap := filterMap, pos := pos })

/-- `NewSSTReader` on the contents of the file, `none` when the file does not
exist. The outer `Option` of the result is `none` for a panic. -/
def NewSSTReader (file : Option Bytes) (conf : Config) : Option (Except GoError SSTReader) :=
  match file with
  | none => some (.error .notExist)
  | some src =>
    match SSTReader.readFooter
      { src := src, pos := 0, conf := conf, indexs := [], dataLength := 0, indexLength := 0,
        filterLength := 0, filterMap := [], bloomFilter := NewFilterConstructor } with
    | .error e => some (.error e)
    | .ok r1 =>
      match r1.readIndex with
      | none => none
      | some (.error e) => some (.error e)
      | some (.ok r2) => r2.readFilter

/-- The loop of `SSTReader.readData`: the result and the cursor. -/
def readDataLoop (src : Bytes) (length : Nat) (target : Bytes) :
    Nat → Nat → Nat → Option (GetResult × Nat)
  | 0, _, _ => none
  | fuel + 1, pos, currOffset =>
    if ¬ currOffset < length then some ((none, false, none), pos)
    else
      match binaryRead src pos 4 with
      | (.error .eof, pos1) => some ((none, false, none), pos1)
      | (.error e, pos1) => some ((none, false, some e), pos1)
      | (.ok keyLen, pos1) =>
        match binaryRead src pos1 4 with
        | (.error e, pos2) => some ((none, false, some e), pos2)
        | (.ok valueLen, pos2) =>
          match fileRead src pos2 keyLen with
          | .error e => some ((none, false, some e), pos2)
          | .ok (key, pos3) =>
            match fileRead src pos3 valueLen with
            | .error e => some ((none, false, some e), pos3)
            | .ok (value, pos4) =>
              if CompareBytes key target = 0 then some ((some value, true, none), pos4)
              else readDataLoop src length target fuel pos4
                ((currOffset + keyLen + valueLen) % 2 ^ 64)

/-- `SSTReader.readData`. -/
def SSTReader.readData (r : SSTReader) (offset length : Nat) (target : Bytes) :
    Option (GetResult × SSTReader) :=
  (readDataLoop r.src length target (r.src.length + 2) (fileSeek r.pos offset) 0).map
    fun res => (res.1, { r with pos := res.2 })

/-- `SSTReader.getIndex`: the first index entry whose range contains the key
under `bytes.Compare`. -/
def SSTReader.getIndex (r : SSTReader) (key : Bytes) : Except GoError Index :=
  match r.indexs.find? (fun index =>
      decide (bytesCompare key index.minKey ≥ 0) && decide (bytesCompare key index.maxKey ≤ 0))
  with
  | some index => .ok index
  | none => .error .indexNotFound

/-- `SSTReader.Get`: the result and the reader after the call (its filter
instance is overwritten by `Load`, its file cursor moves). -/
def SSTReader.Get (env : Env) (r : SSTReader) (key : Bytes) : Option (GetResult × SSTReader) :=
  match r.getIndex key with
  | .error e => some ((none, false, some e), r)
  | .ok index =>
    match (r.filterMap.find? (fun e => e.1 == index.offset)).map (·.2) with
    | none => some ((none, false, some .filterNotFound), r)
    | some data =>
      let r1 := { r with bloomFilter := (r.bloomFilter.Load data).1 }
      match r1.bloomFilter.Contains env key with
      | none => none
      | some false => some ((none, false, none), r1)
      | some true => r1.readData index.offset index.length key

/-! ## sstable/decode.go -/

/-- `binary.BigEndian.Uint64`; `none` is the panic on a slice shorter than
eight bytes. -/
def beUint64 (b : Bytes) : Option Nat :=
  if b.length < 8 then none else some (beValue (b.take 8))

/-- `binary.Read` of one big-endian unsigned integer of `size` bytes from a
`bytes.Buffer` with the unread bytes `buf`: the value or the error of
`io.ReadFull`, and the bytes left unread (a short read consumes the
buffer). -/
def bufferReadUint (buf : Bytes) (size : Nat) : Except GoError Nat × Bytes :=
  if buf.length < size then
    (.error (if buf.length = 0 then GoError.eof else GoError.unexpectedEOF), [])
  else (.ok (beValue (buf.take size)), buf.drop size)

/-- `bytes.Buffer.Next(n)`: the next `n` unread bytes, or all of them when
fewer are left, and the bytes left unread. -/
def bufferNext (buf : Bytes) (n : Nat) : Bytes × Bytes := (buf.take n, buf.drop n)

/-- `sstable.Decode`. -/
def sstable.Decode (data : Bytes) : Except GoError Index :=
  match bufferReadUint data 4 with
  | (.error e, _) => .error e
  | (.ok minKeyLen, b1) =>
    match bufferReadUint b1 4 with
    | (.error e, _) => .error e
    | (.ok maxKeyLen, b2) =>
      match bufferReadUint b2 8 with
      | (.error e, _) => .error e
      | (.ok offset, b3) =>
        match bufferReadUint b3 8 with
        | (.error e, _) => .error e
        | (.ok length, b4) =>
          let minKey := bufferNext b4 minKeyLen
          let maxKey := bufferNext minKey.2 maxKeyLen
          .ok { minKey := minKey.1, maxKey := maxKey.1, offset := offset, length := length }

/-- The loop `for buf.Len() > 0` of `sstable.DecodeStream` on the unread bytes
of the buffer; `none` is the panic of `binary.BigEndian.Uint32` or `Uint64` on
a short slice (the fuel `len + 1` is never used up, since every round
consumes at least one byte). -/
def sstable.decodeStreamLoop : Nat → Bytes → List Index → Option (List Index)
  | 0, _, _ => none
  | fuel + 1, buf, indexes =>
    if ¬ buf.length > 0 then some indexes
    else
      let n1 := bufferNext buf 4
      let n2 := bufferNext n1.2 4
      let n3 := bufferNext n2.2 8
      let n4 := bufferNext n3.2 8
      match beUint32 n1.1, beUint32 n2.1, beUint64 n3.1, beUint64 n4.1 with
      | some minKeyLen, some maxKeyLen, some offset, some length =>
        let minKey := bufferNext n4.2 minKeyLen
        let maxKey := bufferNext minKey.2 maxKeyLen
        sstable.decodeStreamLoop fuel maxKey.2
          (indexes ++ [{ minKey := minKey.1, maxKey := maxKey.1, offset := offset,
                         length := length }])
      | _, _, _, _ => none

/-- `sstable.DecodeStream` on a reader that yields the bytes `data` and then
`io.EOF`: the entries and the returned error. -/
def sstable.DecodeStream (data : Bytes) : Option (List Index × Option GoError) :=
  (sstable.decodeStreamLoop (data.length + 1) data []).map fun indexes => (indexes, none)

/-! ## wal/record.go: `DecodeStream` -/

/-- `bytes.Reader.Read(buf)` on a reader over `data` at position `pos`: the
buffer after the call (the bytes not overwritten keep their contents), the
count, the error and the new position. -/
def readerRead (data : Bytes) (pos : Nat) (buf : Bytes) : Bytes × Nat × Option GoError × Nat :=
  if data.length ≤ pos then (buf, 0, some .eof, pos)
  else
    let got := (data.drop pos).take buf.length
    (got ++ buf.drop got.length, got.length, none, pos + got.length)

/-- `io.ReadFull(bytes.NewBuffer(src), make([]byte, n))`: the `n` bytes read,
or `io.EOF` when `src` is empty and `io.ErrUnexpectedEOF` when it is too
short. -/
def readFullBuffer (src : Bytes) (n : Nat) : Except GoError Bytes :=
  if n = 0 then .ok []
  else if src.length = 0 then .error .eof
  else if src.length < n then .error .unexpectedEOF
  else .ok (src.take n)

/-- The loop of `wal.DecodeStream` on a reader over `data`; `buf` is the
header buffer of nine bytes, whose capacity is its length, `calls` the calls
of the callback so far. The result is the calls made and what the function
returns; `none` for the latter is a panic of a slice expression (or the end
of the fuel, which `len + 1` rounds never reach since every round reads at
least one byte). The sums `9+keyLength` and `9+keyLength+valueLength` are
computed in `uint32`. -/
def wal.decodeStreamLoop (callback : Bytes → Bytes → Option GoError) (data : Bytes) :
    Nat → Nat → Bytes → List (Bytes × Bytes) → List (Bytes × Bytes) × Option (Option GoError)
  | 0, _, _, calls => (calls, none)
  | fuel + 1, pos, buf, calls =>
    match readerRead data pos buf with
    | (_, n, some err, _) =>
      if err = .eof ∨ err = .unexpectedEOF ∨ n = 0 then (calls, some none)
      else (calls, some (some err))
    | (buf1, _, none, pos1) =>
      match goSlice buf1 1 5, goSlice buf1 5 9 with
      | some b15, some b59 =>
        match bufferReadUint b15 4 with
        | (.error e, _) => (calls, some (some e))
        | (.ok keyLength, _) =>
          match bufferReadUint b59 4 with
          | (.error e, _) => (calls, some (some e))
          | (.ok valueLength, _) =>
            match goSlice buf1 9 ((9 + keyLength) % 2 ^ 32) with
            | none => (calls, none)
            | some keySrc =>
              match readFullBuffer keySrc keyLength with
              | .error e => (calls, some (some e))
              | .ok key =>
                match goSlice buf1 ((9 + keyLength) % 2 ^ 32) buf1.length with
                | none => (calls, none)
                | some valueSrc =>
                  match readFullBuffer valueSrc valueLength with
                  | .error e => (calls, some (some e))
                  | .ok value =>
                    match goSlice buf1 ((9 + keyLength + valueLength) % 2 ^ 32) buf1.length with
                    | none => (calls, none)
                    | some crcSrc =>
                      match bufferReadUint crcSrc 4 with
                      | (.error e, _) => (calls, some (some e))
                      | (.ok expectCrc, _) =>
                        if crc32ChecksumIEEE (buf1 ++ key ++ value) ≠ expectCrc then
                          (calls, some (some .crcMismatch))
                        else
                          match callback key value with
                          | some e => (calls ++ [(key, value)], some (some e))
                          | none =>
                            wal.decodeStreamLoop callback data fuel pos1 buf1
                              (calls ++ [(key, value)])
      | _, _ => (calls, none)

/-- `wal.DecodeStream` on a reader over `data`: the calls of the callback, in
order, and what the function returns (`some none` is nil, `none` a panic). -/
def wal.DecodeStream (callback : Bytes → Bytes → Option GoError) (data : Bytes) :
    List (Bytes × Bytes) × Option (Option GoError) :=
  wal.decodeStreamLoop callback data (data.length + 1) 0 (List.replicate 9 0) []

/-! ## nodes.go -/

/-- `lsm.Node`. -/
structure Node where
  conf : Config
  reader : SSTReader
  level : Int
  seq : Nat
  deriving DecidableEq, Repr

/-- The base name `"<level>_<seq>.sst"` of a sorted-run file. -/
def sstName (level : Int) (seq : Nat) : String :=
  toString level ++ "_" ++ toString seq ++ ".sst"

/-- The path of the sorted-run file of a level and a seq in the directory
`dir`: `fmt.Sprintf("%s/%d_%d.sst", dir, level, seq)`, as `NewNode` and
`compactMemTables` build it. -/
def sstPath (dir : String) (level : Int) (seq : Nat) : String :=
  dir ++ "/" ++ sstName level seq

/-- The base name `"<id>.wal"` of a WAL file (`LSM.getWalPath`). -/
def walName (fileId : Nat) : String := toString fileId ++ ".wal"

/-- `NewNode`. -/
def NewNode (sstDir : Dir) (conf : Config) (level : Int) (seq : Nat) :
    Option (Except GoError Node) :=
  match NewSSTReader (sstDir.read (sstName level seq)) conf with
  | none => none
  | some (.error e) => some (.error e)
  | some (.ok reader) => some (.ok { conf := conf, reader := reader, level := level, seq := seq })

/-- `Node.Get`. -/
def Node.Get (env : Env) (n : Node) (key : Bytes) : Option (GetResult × Node) :=
  (n.reader.Get env key).map fun res => (res.1, { n with reader := res.2 })

/-! ## lsm.go -/

/-- `lsm.immutableMemtable`: a frozen memtable and the WAL that owns its
records (`none` is a nil handle). -/
structure immutableMemtable where
  memtable : BTreeMemTable
  wal : Option Wal
  deriving DecidableEq, Repr

/-- `lsm.LSM`: the structural fields of the engine. `levelId` holds the seq
counter of every level, `nodes` the node list of every level. The control
channels and the latch are not part of the sequential state. -/
structure LSM where
  conf : Config
  mutableMemtable : BTreeMemTable
  immutableMemtables : List immutableMemtable
  currWal : Option Wal
  walId : Nat
  levelId : List Nat
  nodes : List (List Node)
  isRunning : Bool
  closed : Bool
  deriving DecidableEq, Repr

/-- `LSM.getUpperMemtableSize`. -/
def LSM.getUpperMemtableSize (env : Env) (l : LSM) : Nat :=
  ((env.GetCapSize l.conf.MemTableCapSize) % 2 ^ 32).toNat

/-- `LSM.switchMemtable`: the rotation. Opening the new WAL always succeeds
on the modelled file system, so the fallback to the temporary directory is
never taken. -/
def LSM.switchMemtable (l : LSM) (disk : Disk) : LSM × Disk :=
  let walId := (l.walId + 1) % 2 ^ 32
  let opened := NewWal disk.walDir (walName walId)
  ({ l with
     immutableMemtables :=
       l.immutableMemtables ++ [{ memtable := l.mutableMemtable, wal := l.currWal }]
     mutableMemtable := NewMemTableConstructor
     walId := walId
     currWal := some opened.1 },
   { disk with walDir := opened.2 })

/-- `LSM.Put`: the engine and the disk after the call, and the returned
error. -/
def LSM.Put (env : Env) (l : LSM) (disk : Disk) (key value : Option Bytes) :
    LSM × Disk × Option GoError :=
  let logged : LSM × Disk × Option GoError :=
    match l.currWal with
    | none => (l, disk, none)
    | some w =>
      let res := w.Write disk.walDir key value
      ({ l with currWal := some res.1 }, { disk with walDir := res.2.1 }, res.2.2)
  match logged with
  | (l1, disk1, some _) => (l1, disk1, some .walWriteFailed)
  | (l1, disk1, none) =>
    match l1.mutableMemtable.Put key value with
    | (_, some _) => (l1, disk1, some .memtablePutFailed)
    | (memtable, none) =>
      let l2 := { l1 with mutableMemtable := memtable }
      match l2.currWal with
      | none => (l2, disk1, none)
      | some w =>
        if w.Size > l2.getUpperMemtableSize env then
          ((l2.switchMemtable disk1).1, (l2.switchMemtable disk1).2, none)
        else (l2, disk1, none)

/-- `LSM.Delete`. -/
def LSM.Delete (env : Env) (l : LSM) (disk : Disk) (key : Option Bytes) :
    LSM × Disk × Option GoError :=
  l.Put env disk key none

/-- The loop of `LSM.Get` over the frozen memtables, given in probing order. -/
def getImmutable (key : Option Bytes) : List immutableMemtable → Option Bytes
  | [] => none
  | im :: rest =>
    match im.memtable.Get key with
    | .ok value => some value
    | .error _ => getImmutable key rest

/-- The loop of `LSM.Get` over the nodes of one level, given in probing order:
the value of the first node that returns `found` without error, and the nodes
after the calls. -/
def getNodes (env : Env) (key : Bytes) : List Node → Option (Option (Option Bytes) × List Node)
  | [] => some (none, [])
  | node :: rest =>
    match node.Get env key with
    | none => none
    | some ((value, found, err), node') =>
      if err = none ∧ found = true then some (some value, node' :: rest)
      else
        match getNodes env key rest with
        | none => none
        | some (r, rest') => some (r, node' :: rest')

/-- The loop `for level, nodes := range l.nodes` of `LSM.Get`: level 0 is
probed from the last node to the first, the other levels in list order. -/
def getLevels (env : Env) (key : Bytes) :
    Nat → List (List Node) → Option (Option (Option Bytes) × List (List Node))
  | _, [] => some (none, [])
  | level, nodes :: rest =>
    let probed :=
      if level = 0 then
        (getNodes env key nodes.reverse).map fun r => (r.1, r.2.reverse)
      else getNodes env key nodes
    match probed with
    | none => none
    | some (some value, nodes') => some (some value, nodes' :: rest)
    | some (none, nodes') =>
      match getLevels env key (level + 1) rest with
      | none => none
      | some (r, rest') => some (r, nodes' :: rest')

/-- `LSM.Get`: the result, and the engine after the call (the readers that
were probed have moved their cursors and reloaded their filters). -/
def LSM.Get (env : Env) (l : LSM) (key : Option Bytes) : Option (GetResult × LSM) :=
  if l.closed then some ((none, false, some .lsmClosed), l)
  else
    match l.mutableMemtable.Get key with
    | .ok value => some ((some value, true, none), l)
    | .error _ =>
      match getImmutable key l.immutableMemtables.reverse with
      | some value => some ((some value, true, none), l)
      | none =>
        match getLevels env (key.getD []) 0 l.nodes with
        | none => none
        | some (some value, nodes) => some ((value, true, none), { l with nodes := nodes })
        | some (none, nodes) => some ((none, false, none), { l with nodes := nodes })

/-- `SSTReader.Close`. -/
def SSTReader.Close (r : SSTReader) : SSTReader :=
  { r with src := [], indexs := [], filterMap := [], dataLength := 0, indexLength := 0,
           filterLength := 0 }

/-- `LSM.Close`. -/
def LSM.Close (l : LSM) : LSM :=
  if l.closed then l
  else
    { l with
      closed := true
      isRunning := false
      currWal := l.currWal.map fun w => w.Close.1
      immutableMemtables := l.immutableMemtables.map fun im =>
        { im with wal := im.wal.map fun w => w.Close.1 }
      nodes := l.nodes.map fun nodes => nodes.map fun n => { n with reader := n.reader.Close } }

/-! ## load.go -/

/-- `lsm.tempSST`. -/
structure tempSST where
  level : Int
  seq : Nat
  path : String
  deriving DecidableEq, Repr

/-- The comparison of `sort.Slice` in `loadSST`, as a non-strict order. -/
def tempSSTLe (a b : tempSST) : Bool :=
  decide (a.level < b.level) || (decide (a.level = b.level) && decide (a.seq ≤ b.seq))

/-- The parsing loop of `loadSST` over the names of the directory. -/
def parseSSTFiles : List String → Except GoError (List tempSST)
  | [] => .ok []
  | name :: rest =>
    match ParseSSTPath name with
    | .error e => .error e
    | .ok (level, seq) =>
      match parseSSTFiles rest with
      | .error e => .error e
      | .ok files => .ok ({ level := level, seq := seq, path := name } :: files)

/-- The opening loop of `loadSST`: every run is opened and appended to the node
list of its level. `none` is a panic (of the reader, or of `l.nodes[level]`
out of range). -/
def openSSTFiles (sstDir : Dir) : LSM → List tempSST → Option (LSM × Option GoError)
  | l, [] => some (l, none)
  | l, sstFile :: rest =>
    match NewNode sstDir l.conf sstFile.level sstFile.seq with
    | none => none
    | some (.error e) => some (l, some e)
    | some (.ok node) =>
      if sstFile.level < 0 then none
      else
        match l.nodes.get? sstFile.level.toNat with
        | none => none
        | some nodes =>
          openSSTFiles sstDir
            { l with nodes := l.nodes.set sstFile.level.toNat (nodes ++ [node]) } rest

/-- `LSM.loadSST`. -/
def LSM.loadSST (l : LSM) (disk : Disk) : Option (LSM × Option GoError) :=
  match parseSSTFiles (disk.sstDir.map (·.1)) with
  | .error e => some (l, some e)
  | .ok sstFiles =>
    openSSTFiles disk.sstDir l (sstFiles.insertionSort (fun a b => tempSSTLe a b = true))

/-- The parsing loop of `loadWal` over the names of the directory. -/
def parseWalFiles : List String → Except GoError (List Nat)
  | [] => .ok []
  | name :: rest =>
    match ParseWalPath name with
    | .error e => .error e
    | .ok fileId =>
      match parseWalFiles rest with
      | .error e => .error e
      | .ok ids => .ok (fileId :: ids)

/-- The replay loop of `loadWal` over the sorted ids: the last WAL becomes the
current one with its memtable, every other one a frozen entry. -/
def replayWalFiles : LSM → Dir → List Nat → Option (LSM × Dir × Option GoError)
  | l, walDir, [] => some (l, walDir, none)
  | l, walDir, fileId :: rest =>
    let opened := NewWal walDir (walName fileId)
    match opened.1.ReadAll opened.2 NewMemTableConstructor with
    | none => none
    | some (_, _, some e) => some (l, opened.2, some e)
    | some (wal, curMemtable, none) =>
      match rest with
      | [] => some ({ l with currWal := some wal, mutableMemtable := curMemtable }, opened.2, none)
      | _ :: _ =>
        replayWalFiles
          { l with immutableMemtables :=
              l.immutableMemtables ++ [{ memtable := curMemtable, wal := some wal }] }
          opened.2 rest

/-- `LSM.loadWal`. -/
def LSM.loadWal (l : LSM) (disk : Disk) : Option (LSM × Disk × Option GoError) :=
  if disk.walDir.length = 0 then
    let opened := NewWal disk.walDir (walName l.walId)
    some ({ l with mutableMemtable := NewMemTableConstructor, currWal := some opened.1 },
          { disk with walDir := opened.2 }, none)
  else
    match parseWalFiles (disk.walDir.map (·.1)) with
    | .error e => some (l, disk, some e)
    | .ok walFileIds =>
      match replayWalFiles l disk.walDir (walFileIds.insertionSort (· ≤ ·)) with
      | none => none
      | some (l', walDir, err) => some (l', { disk with walDir := walDir }, err)

/-- `NewLSM`: the engine opened on the data directory `disk`. The errors of
`loadSST` and `loadWal` are only printed. -/
def NewLSM (conf : Config) (disk : Disk) : Option (LSM × Disk) :=
  let conf := if conf.MaxLevel ≤ 0 then { conf with MaxLevel := 7 } else conf
  let l : LSM :=
    { conf := conf
      mutableMemtable := NewMemTableConstructor
      immutableMemtables := []
      currWal := none
      walId := 0
      levelId := List.replicate conf.MaxLevel.toNat 0
      nodes := List.replicate conf.MaxLevel.toNat []
      isRunning := true
      closed := false }
  match l.loadSST disk with
  | none => none
  | some (l1, _) =>
    match l1.loadWal disk with
    | none => none
    | some (l2, disk2, _) => some (l2, disk2)

/-! ## compact.go -/

/-- The first latch-protected section of `compactMemTables`: the oldest frozen
entry is taken off the queue. -/
def LSM.popImmutable (l : LSM) : Option (immutableMemtable × LSM) :=
  match l.immutableMemtables with
  | [] => none
  | immutable :: rest => some (immutable, { l with immutableMemtables := rest })

/-- Deletes the WAL of a frozen entry, when it has one; the error is only
printed. -/
def deleteFrozenWal (immutable : immutableMemtable) (disk : Disk) : Disk :=
  match immutable.wal with
  | none => disk
  | some w => { disk with walDir := (w.Delete disk.walDir).2.1 }

/-- The second latch-protected section of `compactMemTables`:
`l.nodes[0] = append(l.nodes[0], node)`; `none` is the index panic. -/
def LSM.installNode (l : LSM) (node : Node) : Option LSM :=
  match l.nodes with
  | [] => none
  | level0 :: rest => some { l with nodes := (level0 ++ [node]) :: rest }

/-- The unlatched middle part of `compactMemTables` for a frozen entry that
holds data: the seq is drawn from the level-0 counter, the run is written and
closed, and a reader is opened on it. The result is the engine (with the
counter advanced), the disk, and the node, or no node when opening the run
failed and the file was removed. -/
def LSM.buildRun (env : Env) (l : LSM) (disk : Disk) (immutable : immutableMemtable) :
    Option (LSM × Disk × Option Node) :=
  match l.levelId with
  | [] => none
  | seq :: ids =>
    let l1 := { l with levelId := ((seq + 1) % 2 ^ 32) :: ids }
    match (NewSSTWriter l.conf).Write env immutable.memtable with
    | none => none
    | some writer =>
      let sstDir := disk.sstDir.write (sstName 0 seq) writer.dest
      match NewNode sstDir l.conf 0 seq with
      | none => none
      | some (.error _) =>
        some (l1, { disk with sstDir := sstDir.remove (sstName 0 seq) }, none)
      | some (.ok node) => some (l1, { disk with sstDir := sstDir }, some node)

/-- `LSM.compactMemTables`, run to its end without interleaving; `fuel` bounds
the depth of the recursive call, one level per frozen entry. -/
def LSM.compactMemTables (env : Env) : Nat → LSM → Disk → Option (LSM × Disk)
  | 0, _, _ => none
  | fuel + 1, l, disk =>
    match l.popImmutable with
    | none => some (l, disk)
    | some (immutable, l1) =>
      if immutable.memtable.Iterator.length = 0 then
        some (l1, deleteFrozenWal immutable disk)
      else
        match l1.buildRun env disk immutable with
        | none => none
        | some (l2, disk2, none) => some (l2, disk2)
        | some (l2, disk2, some node) =>
          match l2.installNode node with
          | none => none
          | some l3 =>
            let disk3 := deleteFrozenWal immutable disk2
            if l3.immutableMemtables.length > 0 then
              LSM.compactMemTables env fuel l3 disk3
            else some (l3, disk3)

/-- One flush as the worker runs it: `compactMemTables` with enough fuel for
the frozen entries of the queue. -/
def LSM.flush (env : Env) (l : LSM) (disk : Disk) : Option (LSM × Disk) :=
  l.compactMemTables env (l.immutableMemtables.length + 1) disk

/-! ## The goroutines of the flush worker -/

/-- Where a goroutine of the flush worker stands with respect to the guarded
call `if compactionInProgress.CompareAndSwap(false, true) { l.compactMemTables();
compactionInProgress.Store(false) }`: outside of it, inside the call of
`compactMemTables`, or between the return of the call and the `Store`. -/
inductive WorkerPc where
  | idle
  | compacting
  | returned
  deriving DecidableEq, Repr

/-- The two goroutines of an engine that call `compactMemTables`: the one that
runs `compactionWorker` (on a signal of `compactChan` and on the tick of one
second) and the helper it starts (every 500 ms). -/
inductive Thread where
  | worker
  | helper
  deriving DecidableEq, Repr

/-- An engine as the flush goroutines see it: the length of its frozen queue
and the places of its two goroutines. -/
structure EngineThreads where
  immCount : Nat
  worker : WorkerPc
  helper : WorkerPc
  deriving DecidableEq, Repr

/-- The place of a goroutine. -/
def EngineThreads.pc (eng : EngineThreads) : Thread → WorkerPc
  | .worker => eng.worker
  | .helper => eng.helper

/-- Moves a goroutine to a place. -/
def EngineThreads.setPc (eng : EngineThreads) (t : Thread) (pc : WorkerPc) : EngineThreads :=
  match t with
  | .worker => { eng with worker := pc }
  | .helper => { eng with helper := pc }

/-- A process: the package-level variable `compactionInProgress` and the
engines constructed so far. -/
structure Process where
  compactionInProgress : Bool
  engines : List EngineThreads
  deriving DecidableEq, Repr

/-- An atomic step of a goroutine of the process. -/
inductive SchedStep where
  /-- A call of `NewLSM`: `compactionInProgress.Store(false)`, and a new engine
  with its two goroutines. -/
  | newLSM
  /-- A `Put` on engine `e` that rotates: one more frozen entry. -/
  | rotate (e : Nat)
  /-- The worker of engine `e` receives from `compactChan` and executes
  `CompareAndSwap(false, true)`. -/
  | signal (e : Nat)
  /-- The tick of the worker, or a round of the helper, of engine `e`: the
  queue is not empty, the flag is read as false and `CompareAndSwap(false,
  true)` is executed. -/
  | poll (e : Nat) (t : Thread)
  /-- The first latch-protected section of `compactMemTables`, executed by a
  goroutine inside the call: the head of the frozen queue is taken off. -/
  | pop (e : Nat) (t : Thread)
  /-- The call of `compactMemTables` returns. -/
  | ret (e : Nat) (t : Thread)
  /-- `compactionInProgress.Store(false)` after the call. -/
  | store (e : Nat) (t : Thread)
  deriving DecidableEq, Repr

/-- The guarded entry: goroutine `t` of engine `e`, outside the guarded call,
executes `CompareAndSwap(false, true)`; when it succeeds the goroutine enters
`compactMemTables`, otherwise nothing changes. For a poll the queue must hold
an entry. -/
def Process.tryEnter (p : Process) (e : Nat) (t : Thread) (needFrozen : Bool) : Process :=
  match p.engines.get? e with
  | none => p
  | some eng =>
    if eng.pc t = .idle ∧ (needFrozen = true → eng.immCount > 0)
        ∧ p.compactionInProgress = false then
      { compactionInProgress := true, engines := p.engines.set e (eng.setPc t .compacting) }
    else p

/-- Runs one step; a step that is not enabled changes nothing. -/
def SchedStep.run (p : Process) : SchedStep → Process
  | .newLSM =>
    { compactionInProgress := false
      engines := p.engines ++ [{ immCount := 0, worker := .idle, helper := .idle }] }
  | .rotate e =>
    match p.engines.get? e with
    | none => p
    | some eng => { p with engines := p.engines.set e { eng with immCount := eng.immCount + 1 } }
  | .signal e => p.tryEnter e .worker false
  | .poll e t => p.tryEnter e t true
  | .pop e t =>
    match p.engines.get? e with
    | none => p
    | some eng =>
      if eng.pc t = .compacting then
        { p with engines := p.engines.set e { eng with immCount := eng.immCount - 1 } }
      else p
  | .ret e t =>
    match p.engines.get? e with
    | none => p
    | some eng =>
      if eng.pc t = .compacting then
        { p with engines := p.engines.set e (eng.setPc t .returned) }
      else p
  | .store e t =>
    match p.engines.get? e with
    | none => p
    | some eng =>
      if eng.pc t = .returned then
        { compactionInProgress := false, engines := p.engines.set e (eng.setPc t .idle) }
      else p

/-- Runs the steps of a schedule one after the other. -/
def runSchedule (p : Process) (steps : List SchedStep) : Process :=
  steps.foldl SchedStep.run p

/-- The process after `n` calls of `NewLSM` and nothing else. -/
def Process.fresh (n : Nat) : Process :=
  { compactionInProgress := false
    engines := List.replicate n { immCount := 0, worker := .idle, helper := .idle } }

/-- Two executions of `compactMemTables` on the same engine overlap: both
goroutines of an engine are inside the call. -/
def Process.overlap (p : Process) : Prop :=
  ∃ eng ∈ p.engines, eng.worker = .compacting ∧ eng.helper = .compacting

/-- The number of goroutines of the engines that are inside the guarded
call. -/
def busyCount : List EngineThreads → Nat
  | [] => 0
  | eng :: rest =>
    (if eng.worker = .idle then 0 else 1) + (if eng.helper = .idle then 0 else 1)
      + busyCount rest

/-- The invariant of the flag protocol: at most one goroutine is inside the
guarded call, and the flag is set while one is. -/
def Process.exclusive (p : Process) : Prop :=
  busyCount p.engines ≤ 1 ∧ (busyCount p.engines = 1 → p.compactionInProgress = true)

/-! ## Histories of filter calls -/

/-- A call of the mutating API of a filter. -/
inductive FilterOp where
  | Add (key : Bytes)
  | Reset
  deriving DecidableEq, Repr

/-- Runs one call on a filter; `none` is a panic of `Add`. -/
def FilterOp.run (env : Env) (bf : BloomFilter) : FilterOp → Option BloomFilter
  | .Add key => bf.Add env key
  | .Reset => some bf.Reset

/-- Runs a history of calls on a filter, one after the other; `none` when one
of them panics. -/
def runFilterOps (env : Env) : BloomFilter → List FilterOp → Option BloomFilter
  | bf, [] => some bf
  | bf, op :: ops =>
    match op.run env bf with
    | none => none
    | some bf' => runFilterOps env bf' ops

/-- The keys added by a history since its last `Reset`, or since the start
when it has none, given the keys `acc` added before the history. -/
def addedSinceReset (acc : List Bytes) : List FilterOp → List Bytes
  | [] => acc
  | .Add key :: ops => addedSinceReset (key :: acc) ops
  | .Reset :: ops => addedSinceReset [] ops

/-- The bit at position `h` of a bit array in words of 64 bits is set. -/
def bitSet (bits : List Nat) (h : Nat) : Prop :=
  ∃ w, bits.get? (h / 64) = some w ∧ w &&& (1 <<< (h % 64)) ≠ 0

/-- The shape the fields of a filter have after `NewBloomFilter`, as long as
the rounding of `m` up to words of 64 bits does not wrap: `m` bits, `k` seeds,
and one word for every 64 bits. -/
def BloomFilter.shaped (bf : BloomFilter) : Prop :=
  0 < bf.m ∧ bf.seeds.length = bf.k ∧ bf.bits.length = (bf.m + 63) / 64

/-- The fields of a filter hold values of their Go types, and the lengths of
the seeds and of the bit array are the ones `Load` computes from `m` and
`k`. -/
def BloomFilter.typed (bf : BloomFilter) : Prop :=
  bf.m < 2 ^ 64 ∧ bf.k < 2 ^ 64 ∧ bf.n < 2 ^ 64
    ∧ bf.seeds.length = bf.k ∧ bf.bits.length = ((bf.m + 63) % 2 ^ 64) / 64
    ∧ (∀ s ∈ bf.seeds, s < 2 ^ 32) ∧ (∀ w ∈ bf.bits, w < 2 ^ 64)

/-! ## Histories of memtable calls -/

/-- A call of the write API of a memtable; the key and the value may be nil. -/
inductive MemOp where
  | Put (key value : Option Bytes)
  | Delete (key : Option Bytes)
  deriving DecidableEq, Repr

/-- Runs one call on a memtable: the table after the call and the returned
error. -/
def MemOp.run (bt : BTreeMemTable) : MemOp → BTreeMemTable × Option GoError
  | .Put key value => bt.Put key value
  | .Delete key => bt.Delete key

/-- Runs a history of calls on a new memtable, whatever each call returns. -/
def runMemOps (ops : List MemOp) : BTreeMemTable :=
  ops.foldl (fun bt op => (op.run bt).1) NewBTreeMemTable

/-- The binding of every key after one more call, as the specification words
it: a `Put` binds its key to its value (the empty value for nil), a `Delete`
unbinds its key, a call with a nil key changes nothing. -/
def MemOp.effect (m : Bytes → Option Bytes) (op : MemOp) (k : Bytes) : Option Bytes :=
  match op with
  | .Put (some key) value => if k = key then some (value.getD []) else m k
  | .Delete (some key) => if k = key then none else m k
  | _ => m k

/-- The bindings a history of calls leaves, starting from no binding. -/
def bindings (ops : List MemOp) : Bytes → Option Bytes :=
  ops.foldl MemOp.effect (fun _ => none)

/-- The keys a memtable stores. -/
def BTreeMemTable.keys (bt : BTreeMemTable) : List Bytes := bt.tree.map KVItem.key

/-- The loop `for iter.Next()` of the callers of an iterator, with `iter.Key()`
and `iter.Value()` in its body: the pairs it visits and the iterator it
leaves. `none` is a panic of `Key` or `Value`, or a loop that does not end
within `fuel` rounds. -/
def iterate : Nat → BtreeIterator → Option (List (Bytes × Bytes) × BtreeIterator)
  | 0, _ => none
  | fuel + 1, iter =>
    if iter.Next.2 then do
      let key ← iter.Next.1.Key
      let value ← iter.Next.1.Value
      let rest ← iterate fuel iter.Next.1
      some ((key, value) :: rest.1, rest.2)
    else some ([], iter.Next.1)

/-- The items of a tree are in strictly ascending order. -/
def btreeSorted (t : List KVItem) : Prop := t.Pairwise (fun a b => a.Less b = true)

/-! ## Histories of calls -/

/-- A call of the write API with a non-nil key. -/
inductive Op where
  | Put (key : Bytes) (value : Option Bytes)
  | Delete (key : Bytes)
  deriving DecidableEq, Repr

/-- The key of a call. -/
def Op.key : Op → Bytes
  | .Put key _ => key
  | .Delete key => key

/-- The value a call is expected to leave for its key: the value of a `Put`
(empty for a nil value), the empty value for a `Delete`. -/
def Op.written : Op → Bytes
  | .Put _ value => value.getD []
  | .Delete _ => []

/-- Runs one call on the engine. -/
def Op.run (env : Env) (l : LSM) (disk : Disk) : Op → LSM × Disk × Option GoError
  | .Put key value => l.Put env disk (some key) value
  | .Delete key => l.Delete env disk (some key)

/-- Runs a history of calls, one after the other and with no flush in between;
`none` when one of the calls returns an error. -/
def runOps (env : Env) : LSM × Disk → List Op → Option (LSM × Disk)
  | s, [] => some s
  | s, op :: ops =>
    match op.run env s.1 s.2 with
    | (l, disk, none) => runOps env (l, disk) ops
    | (_, _, some _) => none

/-- The value written by the most recent call for `key` in a history, starting
from `init`; `none` when there is none. -/
def lastWritten (key : Bytes) (ops : List Op) (init : Option Bytes) : Option Bytes :=
  ops.foldl (fun acc op => if op.key = key then some op.written else acc) init

/-- What `Get` is expected to return for a key whose current value is `v`
(`none` when the key was never written). -/
def expectedGet : Option Bytes → GetResult
  | some v => (some v, true, none)
  | none => (none, false, none)

/-- The value the memtables of the engine hold for a key: the mutable
memtable first, then the frozen ones from the newest to the oldest. -/
def LSM.memLookup (l : LSM) (key : Option Bytes) : Option Bytes :=
  match l.mutableMemtable.Get key with
  | .ok value => some value
  | .error _ => getImmutable key l.immutableMemtables.reverse

/-- The current WAL handle of the engine, when there is one, is open. -/
def LSM.walOpen (l : LSM) : Prop := ∀ w, l.currWal = some w → w.closed = false

/-- `Close` followed by `NewLSM` with the same configuration: the new engine
is opened on the data directory as the closed one leaves it. -/
def reopen (l : LSM) (disk : Disk) : Option (LSM × Disk) :=
  NewLSM l.Close.conf disk

/-- The engine and the data directory of a session in which nothing has been
frozen or flushed: the mutable memtable `memTable`, the one WAL file `0.wal`
with contents `content`, no frozen entry and no run. -/
def unrotated (conf : Config) (memTable : BTreeMemTable) (content : Bytes) : LSM × Disk :=
  ({ conf := conf
     mutableMemtable := memTable
     immutableMemtables := []
     currWal := some { filePath := walName 0, offset := content.length % 2 ^ 32, closed := false }
     walId := 0
     levelId := List.replicate conf.MaxLevel.toNat 0
     nodes := List.replicate conf.MaxLevel.toNat []
     isRunning := true
     closed := false },
   { walDir := [(walName 0, content)], sstDir := [] })

/-- The record `Wal.Write` logs for a `Put` of a key and a non-nil value. -/
def putRecord (p : Bytes × Bytes) : Record := NewRecord (some p.1) (some p.2)

/-- The call `Put(key, value)` of a pair. -/
def putOp (p : Bytes × Bytes) : Op := Op.Put p.1 (some p.2)

/-! ## The probing order of `Get`, as the specification words it -/

/-- The answer of a memtable as a lookup result. -/
def memResult : Except GoError Bytes → GetResult
  | .ok value => (some value, true, none)
  | .error e => (none, false, some e)

/-- The answers of the sources of the engine for a key, in the order in which
the specification probes them: the mutable memtable, the frozen memtables from
the last enqueued to the first, the level-0 runs from the last appended to the
first, then the runs of the levels 1 and above in list order. An answer `none`
is a lookup that panics. -/
def probeOrder (env : Env) (l : LSM) (key : Option Bytes) : List (Option GetResult) :=
  [some (memResult (l.mutableMemtable.Get key))]
  ++ l.immutableMemtables.reverse.map (fun im => some (memResult (im.memtable.Get key)))
  ++ (l.nodes.headD []).reverse.map (fun n => (n.Get env (key.getD [])).map Prod.fst)
  ++ l.nodes.tail.flatten.map (fun n => (n.Get env (key.getD [])).map Prod.fst)

/-- The first hit among the answers: an answer that is found without error is
returned, an answer that is not found or an error is skipped, and
`(nil, false, nil)` is returned when no answer is a hit. A lookup that panics
ends the call. -/
def firstHit : List (Option GetResult) → Option GetResult
  | [] => some (none, false, none)
  | none :: _ => none
  | some (value, found, err) :: rest =>
    if err = none ∧ found = true then some (value, true, none) else firstHit rest

/-! ## Replay, as the specification words it -/

/-- Applying one record to a memtable: `Delete(key)` with the result ignored
for a record of type Delete, `Put(key, value)` for every other record. -/
def Record.apply (memTable : BTreeMemTable) (r : Record) : BTreeMemTable :=
  if r.RecordType % 256 = RecordTypeDelete then (memTable.Delete (some (r.Key.getD []))).1
  else (memTable.Put (some (r.Key.getD [])) (some (r.Value.getD []))).1

/-- The contents of a WAL file that holds the given records. -/
def walBytes (records : List Record) : Bytes := (records.map Record.Encode).flatten

/-- The bytes of a record as a file may hold them: the header, the key and the
value, followed by the checksum field `crc`, which need not be the checksum of
the bytes before it. -/
def Record.stored (r : Record) (crc : Nat) : Bytes := r.body ++ beBytes 4 crc

/-- The contents of a WAL file that holds the given records, each with the
checksum field paired with it. -/
def walFrames (frames : List (Record × Nat)) : Bytes :=
  (frames.map (fun f => f.1.stored f.2)).flatten

/-! ## The layout of a sorted run, as the specification words it -/

/-- The encoding of one entry of a data block:
`key_len(4) ‖ value_len(4) ‖ key ‖ value`. -/
def encodeEntry (item : KVItem) : Bytes :=
  beBytes 4 item.key.length ++ beBytes 4 item.value.length ++ item.key ++ item.value

/-- The bytes of a data block that holds the given entries. -/
def encodeBlock (items : List KVItem) : Bytes := (items.map encodeEntry).flatten

/-- The offsets of data blocks laid out one after the other from `start`. -/
def blockOffsets (start : Nat) : List (List KVItem) → List Nat
  | [] => []
  | b :: bs => start :: blockOffsets (start + (encodeBlock b).length) bs

/-- The filter stream: one entry `block_offset(8) ‖ blob_len(4) ‖ blob` for
every offset and its blob. -/
def filterStream : List Nat → List Bytes → Bytes
  | offset :: offsets, blob :: blobs =>
    beBytes 8 offset ++ beBytes 4 blob.length ++ blob ++ filterStream offsets blobs
  | _, _ => []

/-- The filter of a block: the filter of `NewFilterConstructor` after the
`Add` of every key of the block; `none` when an `Add` panics. -/
def blockFilter (env : Env) (b : List KVItem) : Option BloomFilter :=
  runFilterOps env NewFilterConstructor (b.map (fun item => FilterOp.Add item.key))

/-- The ranges `[offset, offset + length)` of the given pairs follow one
another without gap or overlap from `start` to `stop`. -/
def tiles : Nat → List (Nat × Nat) → Nat → Prop
  | start, [], stop => start = stop
  | start, (offset, length) :: rest, stop => offset = start ∧ tiles (start + length) rest stop

/-- The part of `SSTWriter.Write` between the loop and the index stream: the
block in progress is flushed when it holds data. -/
def SSTWriter.lastFlush (w : SSTWriter) : SSTWriter :=
  if w.block.Size > 0 then w.mustFlush else w

/-- The entry a rotation in `Put(key, value)` freezes: the mutable memtable
after the insert and the current WAL after the append. -/
def LSM.frozenByPut (l : LSM) (disk : Disk) (key value : Option Bytes) : immutableMemtable :=
  { memtable := (l.mutableMemtable.Put key value).1
    wal := l.currWal.map (fun w => (w.Write disk.walDir key value).1) }

/-- The condition for a rotation in `Put(key, value)`, as the specification
words it: the call returns nil, a current WAL exists, and its `Size()` after
the append exceeds the threshold. -/
def LSM.rotates (env : Env) (l : LSM) (disk : Disk) (key value : Option Bytes) : Bool :=
  match l.currWal with
  | none => false
  | some w => decide ((l.Put env disk key value).2.2 = none)
      && decide ((w.Write disk.walDir key value).1.Size > l.getUpperMemtableSize env)

/-- A step of a session: a call of the write API, the first latch-protected
section of the flush worker alone (the head of the frozen queue is taken off),
or a complete run of `compactMemTables`. -/
inductive Step where
  | Put (key value : Option Bytes)
  | Delete (key : Option Bytes)
  | Pop
  | Flush
  deriving DecidableEq, Repr

/-- The engine and the disk of a session together with the freeze log: the
entries of the frozen queue at the start of the session followed by the
entries frozen by the rotations of the session, in the order of the
rotations. -/
structure Session where
  l : LSM
  disk : Disk
  frozen : List immutableMemtable
  deriving DecidableEq, Repr

/-- The session that starts at an engine. -/
def Session.start (l : LSM) (disk : Disk) : Session :=
  { l := l, disk := disk, frozen := l.immutableMemtables }

/-- Runs one step; the freeze log grows by the entry of the rotation when the
step is a `Put` or `Delete` that meets the condition for one. `none` when the
flush panics. -/
def Step.run (env : Env) (s : Session) : Step → Option Session
  | .Put key value =>
    some { l := (s.l.Put env s.disk key value).1
           disk := (s.l.Put env s.disk key value).2.1
           frozen := if s.l.rotates env s.disk key value
             then s.frozen ++ [s.l.frozenByPut s.disk key value] else s.frozen }
  | .Delete key =>
    some { l := (s.l.Delete env s.disk key).1
           disk := (s.l.Delete env s.disk key).2.1
           frozen := if s.l.rotates env s.disk key none
             then s.frozen ++ [s.l.frozenByPut s.disk key none] else s.frozen }
  | .Pop =>
    match s.l.popImmutable with
    | none => some s
    | some (_, l1) => some { s with l := l1 }
  | .Flush =>
    match s.l.flush env s.disk with
    | none => none
    | some (l1, disk1) => some { s with l := l1, disk := disk1 }

/-- Runs the steps of a session one after the other. -/
def runSteps (env : Env) : Session → List Step → Option Session
  | s, [] => some s
  | s, step :: steps =>
    match step.run env s with
    | none => none
    | some s1 => runSteps env s1 steps

/-! ## Concrete values for running the embedding -/

/-- A stand-in for the code outside the repository: a simple 64-bit hash of
the seed and the key, and the identity for `GetCapSize` (the threshold is the
configured capacity). -/
def sampleEnv : Env :=
  { murmur64 := fun seed key => key.foldl (fun h b => (h * 31 + b.val) % 2 ^ 64) seed
    GetCapSize := fun size => size }

/-- The empty data directory. -/
def emptyDisk : Disk := { walDir := [], sstDir := [] }

/-- An open engine whose mutable memtable is empty while its one frozen
memtable holds the value `"v"` for the key `"k"`. -/
def frozenEngine : LSM :=
  { conf := NewConfig
    mutableMemtable := NewMemTableConstructor
    immutableMemtables :=
      [{ memtable := { tree := [{ key := ascii "k", value := ascii "v" }] }
         wal := some { filePath := "0.wal", offset := 15, closed := false } }]
    currWal := some { filePath := "1.wal", offset := 0, closed := false }
    walId := 1
    levelId := List.replicate 7 0
    nodes := List.replicate 7 []
    isRunning := true
    closed := false }

/-- The data directory of `frozenEngine`. -/
def frozenDisk : Disk :=
  { walDir := [("0.wal", (NewRecord (some (ascii "k")) (some (ascii "v"))).Encode), ("1.wal", [])]
    sstDir := [] }

/-- The memtable after `Put("aa", "2")` and `Put("b", "1")`: two keys of
different lengths. -/
def mixedMem : BTreeMemTable :=
  ((NewMemTableConstructor.Put (some (ascii "aa")) (some (ascii "2"))).1.Put
    (some (ascii "b")) (some (ascii "1"))).1

/-- A value of exactly 100 MiB. -/
def bigValue : Bytes := List.replicate (100 * 1024 * 1024) 0

/-- The default configuration with the largest 32-bit capacity: no WAL size
exceeds it, so no `Put` rotates. -/
def bigConf : Config := { NewConfig with MemTableCapSize := 4294967295 }

/-- Forty-one `Put`s of the value `v` under the empty (non-nil) key; with a
value of 100 MiB their records add up to 4299162133 bytes, more than `2^32`. -/
def longPuts (v : Bytes) : List (Bytes × Bytes) := List.replicate 41 ([], v)

/-- Three records: `Put("a", "1")`, `Delete("a")`, `Put("b", "2")`. -/
def sampleRecords : List Record :=
  [NewRecord (some (ascii "a")) (some (ascii "1")), NewRecord (some (ascii "a")) none,
    NewRecord (some (ascii "b")) (some (ascii "2"))]

/-- A key of 10 MiB and one byte. -/
def bigKey : Bytes := List.replicate (10 * 1024 * 1024 + 1) 0

/-- The memtable after `Put("", "1")` and `Put("a", "2")`. -/
def emptyKeyMem : BTreeMemTable :=
  runMemOps [.Put (some []) (some (ascii "1")), .Put (some (ascii "a")) (some (ascii "2"))]

/-- The memtable after `Put("a", "1")` and `Put("b", "2")`. -/
def twoKeyMem : BTreeMemTable :=
  runMemOps [.Put (some (ascii "a")) (some (ascii "1")), .Put (some (ascii "b")) (some (ascii "2"))]

/-- The default configuration with a block size of one byte, under which
every entry is flushed as a block of its own. -/
def tinyBlockConf : Config := { NewConfig with BlockSize := 1 }

/-- A filter blob of 28 bytes: `m = 0`, `k = 1`, `n = 0`, one seed and no
word. -/
def zeroBitsBlob : Bytes := beBytes 8 0 ++ beBytes 8 1 ++ beBytes 8 0 ++ beBytes 4 0

/-- A filter blob of 28 bytes: `m = 2^64 - 1`, `k = 1`, `n = 0`, one seed and
no word. -/
def wrappedBitsBlob : Bytes := beBytes 8 (2 ^ 64 - 1) ++ beBytes 8 1 ++ beBytes 8 0 ++ beBytes 4 0

/-- A sorted-run file in the layout of the writer, with one block that holds
`"a" ↦ "1"` and with `zeroBitsBlob` as the filter blob of the block. -/
def zeroBitsRun : Bytes :=
  let data := encodeBlock [{ key := ascii "a", value := ascii "1" }]
  let index := (Index.mk (ascii "a") (ascii "a") 0 data.length).Encode
  let filter := filterStream [0] [zeroBitsBlob]
  data ++ index ++ filter ++ beBytes 8 data.length ++ beBytes 8 index.length
    ++ beBytes 8 filter.length

/-- The default configuration with a memtable capacity of eight bytes: with
the identity for `GetCapSize` every `Put` of a record rotates. -/
def smallConf : Config := { NewConfig with MemTableCapSize := 8 }

end Sqldb

namespace Sqldb

/-! ## Theorems: byte ordering -/

theorem bytesCompare_eq_lexSign (a b : Bytes) : bytesCompare a b = lexSign a b := by
  induction a generalizing b with
  | nil =>
    cases b with
    | nil => simp [bytesCompare, lexSign, List.Lex.not_nil_right]
    | cons y ys => simp [bytesCompare, lexSign, List.Lex.nil]
  | cons x xs ih =>
    cases b with
    | nil => simp [bytesCompare, lexSign, List.Lex.not_nil_right]
    | cons y ys =>
      unfold bytesCompare
      by_cases hxy : x < y
      · have h : List.Lex (· < ·) (x :: xs) (y :: ys) := List.Lex.rel hxy
        simp [hxy, lexSign, h]
      · by_cases hyx : y < x
        · have hne : x ≠ y := fun h => by subst h; exact lt_irrefl _ hyx
          have h : ¬ List.Lex (· < ·) (x :: xs) (y :: ys) := by
            intro h
            cases h with
            | cons h => exact hne rfl
            | rel h => exact hxy h
          simp [hxy, hyx, lexSign, hne, h]
        · have hxy' : x = y := le_antisymm (not_lt.mp hyx) (not_lt.mp hxy)
          subst hxy'
          simp [ih, lexSign, List.Lex.cons_iff]

theorem bytesCompare_swap (a b : Bytes) : bytesCompare a b = -bytesCompare b a := by
  induction a generalizing b with
  | nil => cases b <;> simp [bytesCompare]
  | cons x xs ih =>
    cases b with
    | nil => simp [bytesCompare]
    | cons y ys =>
      unfold bytesCompare
      by_cases hxy : x < y
      · have hyx : ¬ y < x := not_lt.mpr (le_of_lt hxy)
        simp [hxy, hyx]
      · by_cases hyx : y < x
        · simp [hxy, hyx]
        · simp [hxy, hyx, ih ys]

theorem bytesCompare_eq_zero (a b : Bytes) : bytesCompare a b = 0 ↔ a = b := by
  induction a generalizing b with
  | nil => cases b <;> simp [bytesCompare]
  | cons x xs ih =>
    cases b with
    | nil => simp [bytesCompare]
    | cons y ys =>
      unfold bytesCompare
      by_cases hxy : x < y
      · have hne : x ≠ y := ne_of_lt hxy
        simp [hxy, hne]
      · by_cases hyx : y < x
        · have hne : x ≠ y := fun h => by subst h; exact lt_irrefl _ hyx
          simp [hxy, hyx, hne]
        · have hxy' : x = y := le_antisymm (not_lt.mp hyx) (not_lt.mp hxy)
          simp [hxy, hyx, hxy', ih ys]

theorem lexSign_neg_iff (a b : Bytes) : lexSign a b < 0 ↔ List.Lex (· < ·) a b := by
  unfold lexSign
  by_cases h : List.Lex (· < ·) a b
  · simp [h]
  · by_cases h2 : a = b
    · subst h2
      simp [h]
    · simp [h, h2]

theorem CompareBytes_unfold (a b : Bytes) :
    CompareBytes a b =
      if a.length < b.length then -1 else if a.length > b.length then 1 else lexSign a b := by
  unfold CompareBytes
  rw [bytesCompare_eq_lexSign]

theorem CompareBytes_neg_iff (a b : Bytes) :
    CompareBytes a b < 0 ↔
      a.length < b.length ∨ (a.length = b.length ∧ List.Lex (· < ·) a b) := by
  rw [CompareBytes_unfold]
  by_cases h1 : a.length < b.length
  · simp [h1]
  · by_cases h2 : a.length > b.length
    · have h3 : a.length ≠ b.length := by omega
      simp [h1, h2, h3]
    · have h3 : a.length = b.length := by omega
      simp [h1, h2, h3, lexSign_neg_iff]

theorem CompareBytes_swap (a b : Bytes) : CompareBytes a b = -CompareBytes b a := by
  unfold CompareBytes
  by_cases h1 : a.length < b.length
  · have h2 : ¬ b.length < a.length := by omega
    simp [h1, h2]
  · by_cases h2 : a.length > b.length
    · simp [h1, h2]
    · have h3 : ¬ b.length > a.length := by omega
      simp [h1, h2, h3]
      exact bytesCompare_swap a b

theorem CompareBytes_eq_zero (a b : Bytes) : CompareBytes a b = 0 ↔ a = b := by
  unfold CompareBytes
  by_cases h1 : a.length < b.length
  · have hne : a ≠ b := fun h => by subst h; omega
    simp [h1, hne]
  · by_cases h2 : a.length > b.length
    · have hne : a ≠ b := fun h => by subst h; omega
      simp [h1, h2, hne]
    · simp [h1, h2, bytesCompare_eq_zero]

theorem CompareBytes_self (a : Bytes) : CompareBytes a a = 0 :=
  (CompareBytes_eq_zero a a).mpr rfl

theorem CompareBytes_lt_trans (a b c : Bytes) (hab : CompareBytes a b < 0)
    (hbc : CompareBytes b c < 0) : CompareBytes a c < 0 := by
  rw [CompareBytes_neg_iff] at hab hbc ⊢
  rcases hab with hab | ⟨hab, lab⟩
  · rcases hbc with hbc | ⟨hbc, _⟩
    · left; omega
    · left; omega
  · rcases hbc with hbc | ⟨hbc, lbc⟩
    · left; omega
    · right
      exact ⟨by omega, IsTrans.trans a b c lab lbc⟩

theorem CompareBytes_range (a b : Bytes) :
    CompareBytes a b = -1 ∨ CompareBytes a b = 0 ∨ CompareBytes a b = 1 := by
  rw [CompareBytes_unfold]
  unfold lexSign
  split
  · simp
  · split
    · simp
    · split
      · simp
      · split <;> simp

/-- C9: `CompareBytes a b` is `-1` when `a` is shorter than `b`, `1` when it is
longer, and otherwise the sign of the lexicographic comparison of the two byte
strings; in particular `CompareBytes "z" "aa" < 0`. -/
theorem CompareBytes_length_then_lex :
    (∀ a b : Bytes, CompareBytes a b =
      if a.length < b.length then -1 else if a.length > b.length then 1 else lexSign a b)
    ∧ CompareBytes (ascii "z") (ascii "aa") < 0 :=
  ⟨CompareBytes_unfold, by decide⟩

/-- C10: `CompareBytes` is a total order on byte strings: it is `0` exactly on
equal strings, swapping the arguments negates it, it is transitive (strictly
and non-strictly), and for every pair exactly one of `LessThan`, `Equal`,
`GreaterThan` holds. -/
theorem CompareBytes_total_order (a b c : Bytes) :
    (CompareBytes a b = 0 ↔ a = b)
    ∧ CompareBytes a b = -CompareBytes b a
    ∧ (CompareBytes a b < 0 → CompareBytes b c < 0 → CompareBytes a c < 0)
    ∧ (CompareBytes a b ≤ 0 → CompareBytes b c ≤ 0 → CompareBytes a c ≤ 0)
    ∧ ((LessThan a b = true ∧ Equal a b = false ∧ GreaterThan a b = false)
      ∨ (LessThan a b = false ∧ Equal a b = true ∧ GreaterThan a b = false)
      ∨ (LessThan a b = false ∧ Equal a b = false ∧ GreaterThan a b = true)) := by
  refine ⟨CompareBytes_eq_zero a b, CompareBytes_swap a b, CompareBytes_lt_trans a b c, ?_, ?_⟩
  · intro hab hbc
    rcases lt_or_eq_of_le hab with hab | hab
    · rcases lt_or_eq_of_le hbc with hbc | hbc
      · exact le_of_lt (CompareBytes_lt_trans a b c hab hbc)
      · rw [CompareBytes_eq_zero] at hbc
        subst hbc
        exact le_of_lt hab
    · rw [CompareBytes_eq_zero] at hab
      subst hab
      exact hbc
  · unfold LessThan Equal GreaterThan
    rcases CompareBytes_range a b with h | h | h <;> simp [h]

theorem KVItem.eqv_iff (i x : KVItem) : (!i.Less x && !x.Less i) = true ↔ i.key = x.key := by
  unfold KVItem.Less
  rw [← CompareBytes_eq_zero, CompareBytes_swap x.key i.key]
  simp only [Bool.and_eq_true, Bool.not_eq_true', decide_eq_false_iff_not, not_lt]
  omega

theorem KVItem.eqv_eq (i x : KVItem) : (!i.Less x && !x.Less i) = decide (i.key = x.key) := by
  rw [Bool.eq_iff_iff, KVItem.eqv_iff]
  simp

theorem KVItem.Less_irrefl_key (i x : KVItem) (h : i.key = x.key) : i.Less x = false := by
  unfold KVItem.Less
  rw [h, CompareBytes_self]
  simp

theorem btreeGet_eq (item : KVItem) (t : List KVItem) :
    btreeGet item t = t.find? (fun x => decide (item.key = x.key)) := by
  unfold btreeGet
  congr 1
  funext x
  exact KVItem.eqv_eq item x

theorem btreeGet_replaceOrInsert (item probe : KVItem) (t : List KVItem) :
    btreeGet probe (btreeReplaceOrInsert item t) =
      if probe.key = item.key then some item else btreeGet probe t := by
  simp only [btreeGet_eq]
  induction t with
  | nil =>
    by_cases h : probe.key = item.key <;> simp [btreeReplaceOrInsert, h]
  | cons x rest ih =>
    unfold btreeReplaceOrInsert
    by_cases h1 : item.Less x = true
    · by_cases h : probe.key = item.key <;> simp [h1, h]
    · by_cases h2 : x.Less item = true
      · have h1' : item.Less x = false := by simpa using h1
        rw [h1', h2]
        simp only [if_true, Bool.false_eq_true, if_false]
        rw [List.find?_cons, List.find?_cons, ih]
        by_cases hx : probe.key = x.key
        · have h : ¬ probe.key = item.key := by
            intro h
            have := KVItem.Less_irrefl_key x item (hx.symm.trans h)
            simp [this] at h2
          have h' : ¬ x.key = item.key := fun hh => h (hx.trans hh)
          simp [hx, h']
        · simp [hx]
      · have h1' : item.Less x = false := by simpa using h1
        have h2' : x.Less item = false := by simpa using h2
        rw [h1', h2']
        simp only [Bool.false_eq_true, if_false, List.find?_cons]
        have hx : item.key = x.key := (KVItem.eqv_iff item x).mp (by simp [h1, h2])
        by_cases h : probe.key = item.key
        · simp [h]
        · have hx' : ¬ probe.key = x.key := fun hh => h (hh.trans hx.symm)
          simp [h, hx']

theorem BTreeMemTable.Get_Put (bt : BTreeMemTable) (k k' : Bytes) (value : Option Bytes) :
    (bt.Put (some k) value).1.Get (some k') =
      if k' = k then .ok (value.getD []) else bt.Get (some k') := by
  simp only [BTreeMemTable.Put, BTreeMemTable.Get, btreeGet_replaceOrInsert]
  by_cases h : k' = k <;> simp [h]

theorem BTreeMemTable.Get_New (key : Option Bytes) :
    ∃ e, NewMemTableConstructor.Get key = .error e := by
  cases key <;> simp [NewMemTableConstructor, NewBTreeMemTable, BTreeMemTable.Get, btreeGet]

/-! ## Theorems: the engine without sorted runs -/

theorem getNodes_nil (env : Env) (key : Bytes) : getNodes env key [] = some (none, []) := rfl

theorem getLevels_empty (env : Env) (key : Bytes) (nodes : List (List Node))
    (h : ∀ ns ∈ nodes, ns = []) (level : Nat) :
    getLevels env key level nodes = some (none, nodes) := by
  induction nodes generalizing level with
  | nil => rfl
  | cons ns rest ih =>
    have hns : ns = [] := h ns (List.mem_cons_self _ _)
    subst hns
    have hrest := ih (fun ns hns => h ns (List.mem_cons_of_mem _ hns)) (level + 1)
    unfold getLevels
    by_cases hl : level = 0
    · subst hl
      simp [getNodes, hrest]
    · simp [hl, getNodes, hrest]

theorem LSM.Get_of_no_runs (env : Env) (l : LSM) (key : Option Bytes)
    (hclosed : l.closed = false) (hnodes : ∀ ns ∈ l.nodes, ns = []) :
    l.Get env key = some (expectedGet (l.memLookup key), l) := by
  rcases l with ⟨conf, mm, imms, cw, wid, lid, nodes, run, closed⟩
  simp only at hclosed hnodes
  subst hclosed
  simp only [LSM.Get, LSM.memLookup, Bool.false_eq_true, if_false]
  cases hm : mm.Get key with
  | ok value => simp [expectedGet]
  | error e =>
    cases hi : getImmutable key imms.reverse with
    | some value => simp [expectedGet]
    | none => simp [getLevels_empty env (key.getD []) _ hnodes 0, expectedGet]

theorem LSM.memLookup_switch (l : LSM) (disk : Disk) (key : Option Bytes) :
    (l.switchMemtable disk).1.memLookup key = l.memLookup key := by
  unfold LSM.switchMemtable LSM.memLookup
  obtain ⟨e, he⟩ := BTreeMemTable.Get_New key
  simp only [he, List.reverse_append, List.reverse_cons, List.reverse_nil, List.nil_append,
    List.singleton_append, getImmutable]

theorem LSM.memLookup_put (l : LSM) (cw : Option Wal) (k k' : Bytes) (value : Option Bytes) :
    LSM.memLookup { l with currWal := cw,
                           mutableMemtable := (l.mutableMemtable.Put (some k) value).1 } (some k')
      = if k' = k then some (value.getD []) else l.memLookup (some k') := by
  unfold LSM.memLookup
  simp only [BTreeMemTable.Get_Put]
  by_cases h : k' = k <;> simp [h]

/-- What a `Put` that returns nil does to the engine: the key is not nil, the
WAL handle is still open, the closed flag and the runs are untouched, and the
memtables hold the new value for the key and the old ones for the others. -/
theorem LSM.Put_ok (env : Env) (l : LSM) (disk : Disk) (key value : Option Bytes)
    (hok : (l.Put env disk key value).2.2 = none) :
    ∃ k, key = some k
    ∧ (l.Put env disk key value).1.walOpen
    ∧ (l.Put env disk key value).1.closed = l.closed
    ∧ (l.Put env disk key value).1.nodes = l.nodes
    ∧ ∀ k', (l.Put env disk key value).1.memLookup (some k') =
        if k' = k then some (value.getD []) else l.memLookup (some k') := by
  cases key with
  | none =>
    exfalso
    cases hcw : l.currWal with
    | none => simp [LSM.Put, hcw, BTreeMemTable.Put] at hok
    | some w =>
      by_cases hwc : w.closed = true
      · simp [LSM.Put, hcw, Wal.Write, hwc] at hok
      · simp [LSM.Put, hcw, Wal.Write, hwc, BTreeMemTable.Put] at hok
  | some k =>
    refine ⟨k, rfl, ?_⟩
    cases hcw : l.currWal with
    | none =>
      have hput : l.Put env disk (some k) value =
          ({ l with currWal := none,
                    mutableMemtable := (l.mutableMemtable.Put (some k) value).1 }, disk, none) := by
        simp [LSM.Put, hcw, BTreeMemTable.Put]
      rw [hput]
      refine ⟨?_, rfl, rfl, fun k' => LSM.memLookup_put l none k k' value⟩
      intro w hw'
      simp at hw'
    | some w =>
      by_cases hwc' : w.closed = true
      · simp [LSM.Put, hcw, Wal.Write, hwc'] at hok
      have hwc : w.closed = false := by simpa using hwc'
      let w' : Wal := (w.Write disk.walDir (some k) value).1
      let disk1 : Disk := { disk with walDir := (w.Write disk.walDir (some k) value).2.1 }
      let l2 : LSM := { l with currWal := some w',
                               mutableMemtable := (l.mutableMemtable.Put (some k) value).1 }
      have hw'c : w'.closed = false := by simp [w', Wal.Write, hwc]
      have hput : l.Put env disk (some k) value =
          if w'.Size > l2.getUpperMemtableSize env then
            ((l2.switchMemtable disk1).1, (l2.switchMemtable disk1).2, none)
          else (l2, disk1, none) := by
        simp [LSM.Put, hcw, BTreeMemTable.Put, Wal.Write, hwc, l2, w', disk1]
      rw [hput]
      by_cases hsz : w'.Size > l2.getUpperMemtableSize env
      · rw [if_pos hsz]
        refine ⟨?_, rfl, rfl, fun k' => ?_⟩
        · intro w2 hw2
          simp [LSM.switchMemtable, NewWal] at hw2
          rw [← hw2]
        · rw [LSM.memLookup_switch]
          exact LSM.memLookup_put l (some w') k k' value
      · rw [if_neg hsz]
        refine ⟨?_, rfl, rfl, fun k' => LSM.memLookup_put l (some w') k k' value⟩
        intro w2 hw2
        simp [l2] at hw2
        rw [← hw2]
        exact hw'c

/-- A `Put` with a non-nil key on an engine whose WAL handle is open returns
nil. -/
theorem LSM.Put_succeeds (env : Env) (l : LSM) (disk : Disk) (k : Bytes) (value : Option Bytes)
    (hw : l.walOpen) : (l.Put env disk (some k) value).2.2 = none := by
  cases hcw : l.currWal with
  | none => simp [LSM.Put, hcw, BTreeMemTable.Put]
  | some w =>
    have hwc : w.closed = false := hw w hcw
    simp only [LSM.Put, hcw, BTreeMemTable.Put, Wal.Write, hwc]
    simp only [Bool.false_eq_true, if_false]
    split <;> rfl

theorem LSM.Get_of_memLookup (env : Env) (l : LSM) (key : Option Bytes) (v : Bytes)
    (hclosed : l.closed = false) (hv : l.memLookup key = some v) :
    l.Get env key = some ((some v, true, none), l) := by
  unfold LSM.memLookup at hv
  unfold LSM.Get
  simp only [hclosed, Bool.false_eq_true, if_false]
  cases hm : l.mutableMemtable.Get key with
  | ok value =>
    rw [hm] at hv
    simp only [Option.some.injEq] at hv
    simp [hv]
  | error e =>
    rw [hm] at hv
    simp only at hv
    simp [hv]

theorem runOps_spec (env : Env) (ops : List Op) (l : LSM) (disk : Disk)
    (hclosed : l.closed = false) (hw : l.walOpen) (hnodes : ∀ ns ∈ l.nodes, ns = []) :
    ∃ s, runOps env (l, disk) ops = some s ∧ s.1.closed = false
      ∧ (∀ ns ∈ s.1.nodes, ns = [])
      ∧ ∀ k, s.1.memLookup (some k) = lastWritten k ops (l.memLookup (some k)) := by
  induction ops generalizing l disk with
  | nil => exact ⟨(l, disk), rfl, hclosed, hnodes, fun k => rfl⟩
  | cons op ops ih =>
    have hrun : ∃ value, op.run env l disk = l.Put env disk (some op.key) value
        ∧ op.written = value.getD [] := by
      cases op with
      | Put k v => exact ⟨v, rfl, rfl⟩
      | Delete k => exact ⟨none, rfl, rfl⟩
    obtain ⟨value, hrun, hwritten⟩ := hrun
    have hok := LSM.Put_succeeds env l disk op.key value hw
    obtain ⟨k0, hk0, hw', hc', hn', hm'⟩ := LSM.Put_ok env l disk (some op.key) value hok
    simp only [Option.some.injEq] at hk0
    subst hk0
    obtain ⟨s, hs, hsc, hsn, hsm⟩ := ih (l.Put env disk (some op.key) value).1
      (l.Put env disk (some op.key) value).2.1 (hc'.trans hclosed) hw' (by rw [hn']; exact hnodes)
    refine ⟨s, ?_, hsc, hsn, fun k => ?_⟩
    · simp only [runOps, hrun]
      rw [← hs]
      generalize l.Put env disk (some op.key) value = r at hok
      obtain ⟨r1, r2, r3⟩ := r
      simp only at hok
      subst hok
      rfl
    · rw [hsm k, hm' k, ← hwritten]
      simp only [lastWritten, List.foldl_cons]
      by_cases h : k = op.key
      · simp [h]
      · have h' : ¬ op.key = k := fun hh => h hh.symm
        simp [h, h']

theorem NewLSM_empty (conf : Config) :
    ∃ l d, NewLSM conf emptyDisk = some (l, d) ∧ l.closed = false ∧ l.walOpen
      ∧ (∀ ns ∈ l.nodes, ns = []) ∧ ∀ key, l.memLookup key = none := by
  refine ⟨_, _, rfl, rfl, ?_, ?_, ?_⟩
  · intro w hw
    simp [NewWal] at hw
    rw [← hw]
  · intro ns hns
    exact List.eq_of_mem_replicate hns
  · intro key
    obtain ⟨e, he⟩ := BTreeMemTable.Get_New key
    simp [LSM.memLookup, he, getImmutable]

/-- C1: on an engine opened on an empty data directory, every history of `Put`
and `Delete` calls with non-nil keys runs without an error (with whatever
rotations the threshold triggers, and no flush), and afterwards `Get` returns
`(v, true, nil)` for a key whose most recent call wrote `v` (the empty value
for a `Delete`) and `(nil, false, nil)` for a key that was never written. -/
theorem Get_returns_last_write (env : Env) (conf : Config) (ops : List Op) :
    ∃ s0 s, NewLSM conf emptyDisk = some s0 ∧ runOps env s0 ops = some s
      ∧ ∀ k : Bytes, (s.1.Get env (some k)).map Prod.fst
          = some (expectedGet (lastWritten k ops none)) := by
  obtain ⟨l, d, hnew, hclosed, hw, hnodes, hmem⟩ := NewLSM_empty conf
  obtain ⟨s, hs, hsc, hsn, hsm⟩ := runOps_spec env ops l d hclosed hw hnodes
  refine ⟨(l, d), s, hnew, hs, fun k => ?_⟩
  rw [LSM.Get_of_no_runs env s.1 (some k) hsc hsn, hsm k, hmem]
  rfl

/-- In the state a `Delete(k)` that returns nil on an open engine leaves,
`Get(k)` returns the empty value with `found = true`, whatever the frozen
memtables and the sorted runs hold for `k`. -/
theorem Get_after_Delete (env : Env) (l : LSM) (disk : Disk) (key : Option Bytes)
    (hopen : l.closed = false) (hdel : (l.Delete env disk key).2.2 = none) :
    ((l.Delete env disk key).1.Get env key).map Prod.fst = some (some [], true, none) := by
  unfold LSM.Delete at hdel ⊢
  obtain ⟨k, hk, _, hc, _, hm⟩ := LSM.Put_ok env l disk key none hdel
  subst hk
  have hv : (l.Put env disk (some k) none).1.memLookup (some k) = some [] := by
    rw [hm k]
    simp
  rw [LSM.Get_of_memLookup env _ (some k) [] (hc.trans hopen) hv]
  rfl

/-- The state right after `Delete("k")` on an engine whose frozen memtable
still holds `"v"` for the key. -/
theorem Get_after_Delete_witness :
    frozenEngine.closed = false
    ∧ (frozenEngine.Get sampleEnv (some (ascii "k"))).map Prod.fst
        = some (some (ascii "v"), true, none)
    ∧ ((frozenEngine.Delete sampleEnv frozenDisk (some (ascii "k"))).1.Get sampleEnv
        (some (ascii "k"))).map Prod.fst = some (some [], true, none) :=
  ⟨by decide, by decide,
    Get_after_Delete sampleEnv frozenEngine frozenDisk (some (ascii "k")) (by decide) (by decide)⟩

set_option maxRecDepth 100000 in
/-- C2 fails once the flush worker has taken the frozen entry that holds the
deletion off the queue. With a threshold of 8 bytes every call rotates.
`Put("k", "v")` is flushed into the run `0_0.sst`. `Delete("k")` on the open
engine returns nil and rotates, which wakes the worker: the empty value for
`"k"` is in the frozen entry, and `Get("k")` returns the empty value with
`found = true`. The first latch-protected step of the flush takes that entry
off the queue; from then until the node of its run is appended, `Get("k")`
returns `"v"`, the value the older run holds. -/
theorem Get_returns_old_value_after_Delete :
    ∃ l0 d0 l1 d1 l2 d2 l3 d3 frozen l4,
      NewLSM smallConf emptyDisk = some (l0, d0)
      ∧ l0.Put sampleEnv d0 (some (ascii "k")) (some (ascii "v")) = (l1, d1, none)
      ∧ l1.flush sampleEnv d1 = some (l2, d2)
      ∧ l2.immutableMemtables = []
      ∧ l2.nodes.map (fun nodes => nodes.map (fun n => (n.level, n.seq)))
          = [[(0, 0)], [], [], [], [], [], []]
      ∧ (l2.Get sampleEnv (some (ascii "k"))).map Prod.fst = some (some (ascii "v"), true, none)
      ∧ l2.closed = false
      ∧ l2.Delete sampleEnv d2 (some (ascii "k")) = (l3, d3, none)
      ∧ (l3.Get sampleEnv (some (ascii "k"))).map Prod.fst = some (some [], true, none)
      ∧ l3.popImmutable = some (frozen, l4)
      ∧ frozen.memtable.Get (some (ascii "k")) = .ok []
      ∧ l4.closed = false
      ∧ (l4.Get sampleEnv (some (ascii "k"))).map Prod.fst
          = some (some (ascii "v"), true, none) :=
  ⟨_, _, _, _, _, _, _, _, _, _, rfl, rfl, rfl, by decide, by decide, by decide, by decide, rfl,
    by decide, rfl, by decide, by decide, by decide⟩

/-- C7: a state reached by a `Put` that rotates, followed by the first
latch-protected step of the flush (the frozen entry is taken off the queue):
before that step `Get` returns the value just written, after it `Get` reports
the key as not found. -/
theorem Get_not_found_after_pop :
    ∃ l0 d0 l1 d1 frozen l2,
      NewLSM { NewConfig with MemTableCapSize := 8 } emptyDisk = some (l0, d0)
      ∧ l0.Put sampleEnv d0 (some (ascii "a")) (some (ascii "1")) = (l1, d1, none)
      ∧ (l1.Get sampleEnv (some (ascii "a"))).map Prod.fst = some (some (ascii "1"), true, none)
      ∧ l1.popImmutable = some (frozen, l2)
      ∧ (l2.Get sampleEnv (some (ascii "a"))).map Prod.fst = some (none, false, none) :=
  ⟨_, _, _, _, _, _, rfl, rfl, by decide, rfl, by decide⟩

/-! ## Theorems: the probing order of `Get` -/

theorem memResult_ok (value : Bytes) : memResult (.ok value) = (some value, true, none) := rfl

theorem memResult_error (e : GoError) : memResult (.error e) = (none, false, some e) := rfl

theorem firstHit_immutable (key : Option Bytes) (ims : List immutableMemtable)
    (rest : List (Option GetResult)) :
    firstHit (ims.map (fun im => some (memResult (im.memtable.Get key))) ++ rest) =
      match getImmutable key ims with
      | some value => some (some value, true, none)
      | none => firstHit rest := by
  induction ims with
  | nil => rfl
  | cons im ims ih =>
    simp only [List.map_cons, List.cons_append, getImmutable]
    cases hm : im.memtable.Get key with
    | ok value => simp [firstHit, memResult_ok]
    | error e => simp [firstHit, memResult_error, ih]

theorem firstHit_nodes (env : Env) (key : Bytes) (nodes : List Node)
    (rest : List (Option GetResult)) :
    firstHit (nodes.map (fun n => (n.Get env key).map Prod.fst) ++ rest) =
      match getNodes env key nodes with
      | none => none
      | some (some value, _) => some (value, true, none)
      | some (none, _) => firstHit rest := by
  induction nodes with
  | nil => rfl
  | cons n nodes ih =>
    simp only [List.map_cons, List.cons_append, getNodes]
    cases hn : n.Get env key with
    | none => simp [firstHit]
    | some res =>
      obtain ⟨⟨value, found, err⟩, n'⟩ := res
      simp only [Option.map_some', firstHit]
      by_cases hhit : err = none ∧ found = true
      · simp [hhit]
      · simp only [hhit, if_false, ih]
        cases getNodes env key nodes with
        | none => rfl
        | some r =>
          obtain ⟨r1, r2⟩ := r
          cases r1 <;> rfl

theorem firstHit_levels (env : Env) (key : Bytes) (nodes : List (List Node)) (level : Nat)
    (hlevel : level ≠ 0) :
    firstHit (nodes.flatten.map (fun n => (n.Get env key).map Prod.fst)) =
      match getLevels env key level nodes with
      | none => none
      | some (some value, _) => some (value, true, none)
      | some (none, _) => some (none, false, none) := by
  induction nodes generalizing level with
  | nil => rfl
  | cons ns rest ih =>
    simp only [List.flatten_cons, List.map_append, getLevels, hlevel, if_false]
    rw [firstHit_nodes, ih (level + 1) (by omega)]
    cases getNodes env key ns with
    | none => rfl
    | some r =>
      obtain ⟨r1, r2⟩ := r
      cases r1 with
      | some v => rfl
      | none =>
        simp only
        cases getLevels env key (level + 1) rest with
        | none => rfl
        | some r' =>
          obtain ⟨r1', r2'⟩ := r'
          cases r1' <;> rfl

theorem firstHit_runs (env : Env) (key : Bytes) (nodes : List (List Node)) :
    firstHit ((nodes.headD []).reverse.map (fun n => (n.Get env key).map Prod.fst)
        ++ nodes.tail.flatten.map (fun n => (n.Get env key).map Prod.fst)) =
      match getLevels env key 0 nodes with
      | none => none
      | some (some value, _) => some (value, true, none)
      | some (none, _) => some (none, false, none) := by
  cases nodes with
  | nil => rfl
  | cons ns rest =>
    simp only [List.headD_cons, List.tail_cons, getLevels, if_true]
    rw [firstHit_nodes, firstHit_levels env key rest 1 (by omega)]
    cases getNodes env key ns.reverse with
    | none => rfl
    | some r =>
      obtain ⟨r1, r2⟩ := r
      cases r1 with
      | some v => rfl
      | none =>
        simp only [Option.map_some']
        cases getLevels env key (0 + 1) rest with
        | none => rfl
        | some r' =>
          obtain ⟨r1', r2'⟩ := r'
          cases r1' <;> rfl

/-- C8, amended: on an engine that has not been closed, `Get` returns the
value of the first source that has the key, the sources being probed in the
order mutable memtable, frozen memtables from the last enqueued to the first,
level-0 runs from the last appended to the first, runs of the higher levels in
list order; a source that reports not-found or an error is skipped, and
`(nil, false, nil)` is returned when no source has the key. -/
theorem Get_first_hit_in_probe_order (env : Env) (l : LSM) (key : Option Bytes)
    (hopen : l.closed = false) :
    (l.Get env key).map Prod.fst = firstHit (probeOrder env l key) := by
  unfold LSM.Get probeOrder
  simp only [hopen, Bool.false_eq_true, if_false, List.singleton_append, List.append_assoc]
  cases hm : l.mutableMemtable.Get key with
  | ok value => simp [firstHit, memResult_ok]
  | error e =>
    simp only [firstHit, memResult_error, reduceCtorEq, false_and, if_false, List.append_eq]
    rw [firstHit_immutable]
    cases getImmutable key l.immutableMemtables.reverse with
    | some value => rfl
    | none =>
      simp only
      rw [firstHit_runs]
      cases getLevels env (key.getD []) 0 l.nodes with
      | none => rfl
      | some r =>
        obtain ⟨r1, r2⟩ := r
        cases r1 <;> rfl

/-- C8, amended, at an open engine whose frozen memtable holds the key. -/
theorem Get_first_hit_in_probe_order_witness :
    frozenEngine.closed = false
    ∧ (frozenEngine.Get sampleEnv (some (ascii "k"))).map Prod.fst
        = firstHit (probeOrder sampleEnv frozenEngine (some (ascii "k"))) :=
  ⟨by decide,
    Get_first_hit_in_probe_order sampleEnv frozenEngine (some (ascii "k")) (by decide)⟩

/-- C8 as stated fails on a closed engine: the frozen memtable of the engine
holds the key, so the first source that has the key yields `"v"`, but `Get`
returns the error of the closed engine. -/
theorem Get_on_closed_engine_skips_probing :
    firstHit (probeOrder sampleEnv frozenEngine.Close (some (ascii "k")))
        = some (some (ascii "v"), true, none)
    ∧ (frozenEngine.Close.Get sampleEnv (some (ascii "k"))).map Prod.fst
        = some (none, false, some GoError.lsmClosed) := by
  decide

/-! ## Theorems: restart -/

/-- C3: two histories on which the restart changes what `Get` returns. After
`Put("k","v")`, `Delete("k")` the key reads `("", true)` before `Close` and
`(nil, false)` on the reopened engine. After `Put("k","v1")`, `Put("j","w")`
(which rotates under a threshold of 20 bytes) and `Delete("k")` the key reads
`("", true)` before `Close` and the old value `("v1", true)` on the reopened
engine. -/
theorem reopen_loses_Delete :
    (∃ l0 d0 l d l' d',
      NewLSM NewConfig emptyDisk = some (l0, d0)
      ∧ runOps sampleEnv (l0, d0)
          [Op.Put (ascii "k") (some (ascii "v")), Op.Delete (ascii "k")] = some (l, d)
      ∧ (l.Get sampleEnv (some (ascii "k"))).map Prod.fst = some (some [], true, none)
      ∧ reopen l d = some (l', d')
      ∧ (l'.Get sampleEnv (some (ascii "k"))).map Prod.fst = some (none, false, none))
    ∧ (∃ l0 d0 l d l' d',
      NewLSM { NewConfig with MemTableCapSize := 20 } emptyDisk = some (l0, d0)
      ∧ runOps sampleEnv (l0, d0)
          [Op.Put (ascii "k") (some (ascii "v1")), Op.Put (ascii "j") (some (ascii "w")),
           Op.Delete (ascii "k")] = some (l, d)
      ∧ (l.Get sampleEnv (some (ascii "k"))).map Prod.fst = some (some [], true, none)
      ∧ reopen l d = some (l', d')
      ∧ (l'.Get sampleEnv (some (ascii "k"))).map Prod.fst
          = some (some (ascii "v1"), true, none)) :=
  ⟨⟨_, _, _, _, _, _, rfl, rfl, by decide, rfl, by decide⟩,
   ⟨_, _, _, _, _, _, rfl, rfl, by decide, rfl, by decide⟩⟩

/-! ## Theorems: sorted runs -/

set_option maxRecDepth 100000 in
/-- C5: the memtable holding `"b" ↦ "1"` and `"aa" ↦ "2"` is written with the
default block size and the file is opened again; the memtable returns `"1"` for
`"b"`, the reader returns the error "index not found" for `"b"` and for
`"aa"`: the one block has `minKey = "b"` and `maxKey = "aa"`, and no key lies
between them under `bytes.Compare`. -/
theorem reader_Get_misses_mixed_lengths :
    ∃ w r, (NewSSTWriter NewConfig).Write sampleEnv mixedMem = some w
      ∧ NewSSTReader (some w.dest) NewConfig = some (.ok r)
      ∧ r.indexs = [{ minKey := ascii "b", maxKey := ascii "aa", offset := 0, length := 21 }]
      ∧ mixedMem.Get (some (ascii "b")) = .ok (ascii "1")
      ∧ mixedMem.Get (some (ascii "aa")) = .ok (ascii "2")
      ∧ (r.Get sampleEnv (ascii "b")).map Prod.fst
          = some (none, false, some GoError.indexNotFound)
      ∧ (r.Get sampleEnv (ascii "aa")).map Prod.fst
          = some (none, false, some GoError.indexNotFound) :=
  ⟨_, _, rfl, rfl, by decide, by decide, by decide, by decide, by decide⟩

set_option maxRecDepth 100000 in
/-- C6: with a threshold of 20 bytes, `Put("b","1")` and `Put("aa","2")` leave
one frozen memtable; before the flush `Get("b")` returns `("1", true, nil)`,
after the completed flush (run written and installed at level 0, WAL deleted)
it returns `(nil, false, nil)`. -/
theorem flush_changes_Get :
    ∃ l0 d0 l d l' d',
      NewLSM { NewConfig with MemTableCapSize := 20 } emptyDisk = some (l0, d0)
      ∧ runOps sampleEnv (l0, d0)
          [Op.Put (ascii "b") (some (ascii "1")), Op.Put (ascii "aa") (some (ascii "2"))]
          = some (l, d)
      ∧ l.immutableMemtables.map (fun im => im.memtable) = [mixedMem]
      ∧ (l.Get sampleEnv (some (ascii "b"))).map Prod.fst = some (some (ascii "1"), true, none)
      ∧ l.flush sampleEnv d = some (l', d')
      ∧ l'.immutableMemtables = []
      ∧ (l'.nodes.map List.length, d'.sstDir.map Prod.fst, d'.walDir.map Prod.fst)
          = ([1, 0, 0, 0, 0, 0, 0], ["0_0.sst"], ["1.wal"])
      ∧ (l'.Get sampleEnv (some (ascii "b"))).map Prod.fst = some (none, false, none) :=
  ⟨_, _, _, _, _, _, rfl, rfl, by decide, by decide, rfl, by decide, by decide, by decide⟩

/-! ## Theorems: encodings -/

theorem beBytes_length (w n : Nat) : (beBytes w n).length = w := by
  induction w with
  | zero => rfl
  | succ w ih => simp [beBytes, ih]

theorem Byte.val_ofNat (x : Nat) : (Fin.ofNat x : Byte).val = x % 256 := rfl

theorem beValue_foldl (w n acc : Nat) :
    (beBytes w n).foldl (fun acc x => acc * 256 + x.val) acc = acc * 256 ^ w + n % 256 ^ w := by
  induction w generalizing acc with
  | zero => simp [beBytes, Nat.mod_one]
  | succ w ih =>
    simp only [beBytes, List.foldl_cons, ih, Byte.val_ofNat]
    rw [Nat.mod_pow_succ]
    ring

theorem beValue_beBytes (w n : Nat) : beValue (beBytes w n) = n % 256 ^ w := by
  unfold beValue
  rw [beValue_foldl]
  simp

theorem beUint32_beBytes (n : Nat) (h : n < 2 ^ 32) : beUint32 (beBytes 4 n) = some n := by
  unfold beUint32
  have h4 : (beBytes 4 n).take 4 = beBytes 4 n := by
    rw [List.take_of_length_le]
    simp [beBytes_length]
  simp only [beBytes_length, Nat.lt_irrefl, if_false, h4, beValue_beBytes]
  congr 1
  exact Nat.mod_eq_of_lt (by norm_num at h ⊢; exact h)

theorem goSlice_mid (a b c : Bytes) (lo hi : Nat) (hlo : lo = a.length)
    (hhi : hi = a.length + b.length) : goSlice (a ++ b ++ c) lo hi = some b := by
  subst hlo hhi
  unfold goSlice
  have h1 : a.length ≤ a.length + b.length ∧ a.length + b.length ≤ (a ++ b ++ c).length := by
    simp [List.length_append]
  rw [if_pos h1]
  simp [List.append_assoc]

theorem Record.body_length (r : Record) :
    r.body.length = 9 + (r.Key.getD []).length + (r.Value.getD []).length := by
  simp [Record.body, beBytes_length]
  omega

theorem Record.Encode_length (r : Record) :
    r.Encode.length = 13 + (r.Key.getD []).length + (r.Value.getD []).length := by
  simp [Record.Encode, Record.body_length, beBytes_length]
  omega

/-! ## Theorems: replay of the write-ahead log -/

/-- One round of the replay loop on a complete record whose declared lengths
are within the limits, in a file shorter than `2^32` bytes. -/
theorem readAllLoop_step (r : Record) (pre tail : Bytes) (memTable : BTreeMemTable) (fuel : Nat)
    (hk : (r.Key.getD []).length ≤ 10 * 1024 * 1024)
    (hv : (r.Value.getD []).length ≤ 100 * 1024 * 1024)
    (hlen : (pre ++ r.Encode ++ tail).length < 2 ^ 32) :
    readAllLoop (pre ++ r.Encode ++ tail) (fuel + 1) pre.length memTable
      = readAllLoop (pre ++ r.Encode ++ tail) fuel (pre.length + r.Encode.length)
          (r.apply memTable) := by
  have hE := Record.Encode_length r
  generalize hK : r.Key.getD [] = K at hk hE
  generalize hV : r.Value.getD [] = V at hv hE
  have hEnc : r.Encode = [Fin.ofNat r.RecordType] ++ beBytes 4 K.length ++ beBytes 4 V.length
      ++ K ++ V ++ beBytes 4 (crc32ChecksumIEEE r.body) := by
    simp [Record.Encode, Record.body, hK, hV]
  generalize hbuf : pre ++ r.Encode ++ tail = buffer at hlen ⊢
  have hblen : buffer.length = pre.length + (13 + K.length + V.length) + tail.length := by
    rw [← hbuf]; simp [List.length_append, hE]; omega
  have h32 : (2 : Nat) ^ 32 = 4294967296 := by norm_num
  rw [h32] at hlen
  have hn : buffer.length % 2 ^ 32 = buffer.length := Nat.mod_eq_of_lt (by omega)
  have hget : buffer.get? pre.length = some (Fin.ofNat r.RecordType) := by
    rw [← hbuf, hEnc, List.get?_eq_getElem?]
    simp only [List.append_assoc, List.singleton_append]
    rw [List.getElem?_append_right (le_refl _)]
    simp
  have hkl : goSlice buffer (pre.length + 1) (pre.length + 5) = some (beBytes 4 K.length) := by
    rw [← hbuf, hEnc]
    have := goSlice_mid (pre ++ [Fin.ofNat r.RecordType]) (beBytes 4 K.length)
      (beBytes 4 V.length ++ K ++ V ++ beBytes 4 (crc32ChecksumIEEE r.body) ++ tail)
      (pre.length + 1) (pre.length + 5) (by simp) (by simp [beBytes_length])
    simpa [List.append_assoc] using this
  have hvl : goSlice buffer (pre.length + 5) (pre.length + 9) = some (beBytes 4 V.length) := by
    rw [← hbuf, hEnc]
    have := goSlice_mid (pre ++ [Fin.ofNat r.RecordType] ++ beBytes 4 K.length)
      (beBytes 4 V.length)
      (K ++ V ++ beBytes 4 (crc32ChecksumIEEE r.body) ++ tail)
      (pre.length + 5) (pre.length + 9) (by simp [beBytes_length]) (by simp [beBytes_length])
    simpa [List.append_assoc] using this
  have hkey : goSlice buffer (pre.length + 9) (pre.length + 9 + K.length) = some K := by
    rw [← hbuf, hEnc]
    have := goSlice_mid (pre ++ [Fin.ofNat r.RecordType] ++ beBytes 4 K.length
        ++ beBytes 4 V.length) K
      (V ++ beBytes 4 (crc32ChecksumIEEE r.body) ++ tail)
      (pre.length + 9) (pre.length + 9 + K.length) (by simp [beBytes_length])
      (by simp [beBytes_length])
    simpa [List.append_assoc] using this
  have hval : goSlice buffer (pre.length + 9 + K.length) (pre.length + 9 + K.length + V.length)
      = some V := by
    rw [← hbuf, hEnc]
    have := goSlice_mid (pre ++ [Fin.ofNat r.RecordType] ++ beBytes 4 K.length
        ++ beBytes 4 V.length ++ K) V
      (beBytes 4 (crc32ChecksumIEEE r.body) ++ tail)
      (pre.length + 9 + K.length) (pre.length + 9 + K.length + V.length)
      (by simp [beBytes_length]; omega) (by simp [beBytes_length]; omega)
    simpa [List.append_assoc] using this
  have hcrc : goSlice buffer (pre.length + 9 + K.length + V.length)
      (pre.length + (9 + K.length + V.length + 4))
      = some (beBytes 4 (crc32ChecksumIEEE r.body)) := by
    rw [← hbuf, hEnc]
    have := goSlice_mid (pre ++ [Fin.ofNat r.RecordType] ++ beBytes 4 K.length
        ++ beBytes 4 V.length ++ K ++ V) (beBytes 4 (crc32ChecksumIEEE r.body)) tail
      (pre.length + 9 + K.length + V.length) (pre.length + (9 + K.length + V.length + 4))
      (by simp [beBytes_length]; omega) (by simp [beBytes_length]; omega)
    simpa [List.append_assoc] using this
  have hbody : ∃ b, goSlice buffer pre.length (pre.length + 9 + K.length + V.length) = some b := by
    unfold goSlice
    rw [if_pos ⟨by omega, by omega⟩]
    exact ⟨_, rfl⟩
  obtain ⟨b, hb⟩ := hbody
  have m1 : (pre.length + 1) % 2 ^ 32 = pre.length + 1 := Nat.mod_eq_of_lt (by omega)
  have m5 : (pre.length + 5) % 2 ^ 32 = pre.length + 5 := Nat.mod_eq_of_lt (by omega)
  have m9 : (pre.length + 9) % 2 ^ 32 = pre.length + 9 := Nat.mod_eq_of_lt (by omega)
  have mk : (pre.length + 9 + K.length) % 2 ^ 32 = pre.length + 9 + K.length :=
    Nat.mod_eq_of_lt (by omega)
  have mv : (pre.length + 9 + K.length + V.length) % 2 ^ 32
      = pre.length + 9 + K.length + V.length := Nat.mod_eq_of_lt (by omega)
  have ml : (9 + K.length + V.length + 4) % 2 ^ 32 = 9 + K.length + V.length + 4 :=
    Nat.mod_eq_of_lt (by omega)
  have mo : (pre.length + (9 + K.length + V.length + 4)) % 2 ^ 32
      = pre.length + (9 + K.length + V.length + 4) := Nat.mod_eq_of_lt (by omega)
  have hku : beUint32 (beBytes 4 K.length) = some K.length := beUint32_beBytes _ (by omega)
  have hvu : beUint32 (beBytes 4 V.length) = some V.length := beUint32_beBytes _ (by omega)
  have hcu : ∃ c, beUint32 (beBytes 4 (crc32ChecksumIEEE r.body)) = some c := by
    unfold beUint32
    simp [beBytes_length]
  obtain ⟨c, hc⟩ := hcu
  rw [readAllLoop]
  simp only [hn, m1, m5, m9, hget, hkl, hvl, hku, hvu, Option.bind_eq_bind, Option.some_bind,
    Option.bind_some, ml, mo, mk, mv, hkey, hval, hcrc, hc, hb, Option.map_some']
  have c1 : ¬ ¬ pre.length < buffer.length := by omega
  have c2 : ¬ pre.length + 9 > buffer.length := by omega
  have c3 : ¬ (K.length > 10 * 1024 * 1024 ∨ V.length > 100 * 1024 * 1024) := by omega
  have c4 : ¬ pre.length + (9 + K.length + V.length + 4) > buffer.length := by omega
  have e1 : pre.length + (9 + K.length + V.length + 4) = pre.length + r.Encode.length := by
    omega
  rw [if_neg c1, if_neg c2, if_neg c3, if_neg c4, Byte.val_ofNat, e1]
  unfold Record.apply
  rw [hK, hV]
  by_cases hd : r.RecordType % 256 = RecordTypeDelete
  · rw [if_pos hd, if_pos hd]
  · rw [if_neg hd, if_neg hd]
    rfl

theorem walBytes_cons (r : Record) (records : List Record) :
    walBytes (r :: records) = r.Encode ++ walBytes records := by
  simp [walBytes]

theorem walBytes_append (xs ys : List Record) :
    walBytes (xs ++ ys) = walBytes xs ++ walBytes ys := by
  simp [walBytes]

theorem walBytes_length_ge (records : List Record) :
    records.length ≤ (walBytes records).length := by
  induction records with
  | nil => simp [walBytes]
  | cons r records ih =>
    rw [walBytes_cons, List.length_append, Record.Encode_length, List.length_cons]
    omega

/-- The replay loop on a file that is the concatenation of complete records
within the limits, shorter than `2^32` bytes: every record is applied in file
order and the loop ends at the end of the file. -/
theorem readAllLoop_records (records : List Record) (pre : Bytes) (memTable : BTreeMemTable)
    (fuel : Nat)
    (hsize : ∀ r ∈ records, (r.Key.getD []).length ≤ 10 * 1024 * 1024
      ∧ (r.Value.getD []).length ≤ 100 * 1024 * 1024)
    (hlen : (pre ++ walBytes records).length < 2 ^ 32)
    (hfuel : records.length < fuel) :
    readAllLoop (pre ++ walBytes records) fuel pre.length memTable
      = some ((pre ++ walBytes records).length, records.foldl Record.apply memTable, none) := by
  induction records generalizing pre memTable fuel with
  | nil =>
    obtain ⟨f, rfl⟩ : ∃ f, fuel = f + 1 := ⟨fuel - 1, by simp at hfuel; omega⟩
    simp only [walBytes, List.map_nil, List.flatten_nil, List.append_nil] at hlen ⊢
    rw [readAllLoop]
    have hn : pre.length % 2 ^ 32 = pre.length := Nat.mod_eq_of_lt hlen
    simp only [hn, Nat.lt_irrefl, not_false_eq_true, if_true, List.foldl_nil]
  | cons r records ih =>
    obtain ⟨f, rfl⟩ : ∃ f, fuel = f + 1 := ⟨fuel - 1, by simp at hfuel; omega⟩
    have hr := hsize r (List.mem_cons_self _ _)
    rw [walBytes_cons, ← List.append_assoc] at hlen ⊢
    rw [readAllLoop_step r pre (walBytes records) memTable f hr.1 hr.2 hlen]
    have := ih (pre ++ r.Encode) (r.apply memTable) f
      (fun r' hr' => hsize r' (List.mem_cons_of_mem _ hr')) hlen
      (by simp at hfuel; omega)
    rw [List.length_append] at this
    rw [this]
    simp [List.length_append]

/-- `ReadAll` on an open handle whose file holds complete records within the
limits and is shorter than `2^32` bytes returns nil, applies the records in
file order and sets the size of the handle to the length of the file. -/
theorem Wal.ReadAll_records (w : Wal) (dir : Dir) (records : List Record)
    (memTable : BTreeMemTable) (hopen : w.closed = false)
    (hfile : dir.read w.filePath = some (walBytes records))
    (hsize : ∀ r ∈ records, (r.Key.getD []).length ≤ 10 * 1024 * 1024
      ∧ (r.Value.getD []).length ≤ 100 * 1024 * 1024)
    (hlen : (walBytes records).length < 2 ^ 32) :
    w.ReadAll dir memTable
      = some ({ w with offset := (walBytes records).length },
              records.foldl Record.apply memTable, none) := by
  unfold Wal.ReadAll
  simp only [hopen, Bool.false_eq_true, if_false, hfile, Option.getD_some]
  have := readAllLoop_records records [] memTable ((walBytes records).length + 1) hsize
    (by simpa using hlen) (by have := walBytes_length_ge records; omega)
  simp only [List.nil_append, List.length_nil] at this
  rw [this]

/-! ## Theorems: restart without rotation -/

theorem NewLSM_emptyDisk (conf : Config) :
    ∃ conf', 0 < conf'.MaxLevel
      ∧ NewLSM conf emptyDisk = some (unrotated conf' NewMemTableConstructor []) := by
  by_cases h : conf.MaxLevel ≤ 0
  · refine ⟨{ conf with MaxLevel := 7 }, by simp, ?_⟩
    simp [NewLSM, h, emptyDisk, unrotated, LSM.loadSST, LSM.loadWal, parseSSTFiles,
      openSSTFiles, NewWal, Dir.create, Dir.read, Dir.write]
  · refine ⟨conf, by omega, ?_⟩
    simp [NewLSM, h, emptyDisk, unrotated, LSM.loadSST, LSM.loadWal, parseSSTFiles,
      openSSTFiles, NewWal, Dir.create, Dir.read, Dir.write]

theorem LSM.Put_ok_frozen (env : Env) (l : LSM) (disk : Disk) (key value : Option Bytes)
    (hok : (l.Put env disk key value).2.2 = none) :
    l.immutableMemtables.length ≤ (l.Put env disk key value).1.immutableMemtables.length := by
  cases key with
  | none =>
    exfalso
    cases hcw : l.currWal with
    | none => simp [LSM.Put, hcw, BTreeMemTable.Put] at hok
    | some w =>
      by_cases hwc : w.closed = true
      · simp [LSM.Put, hcw, Wal.Write, hwc] at hok
      · simp [LSM.Put, hcw, Wal.Write, hwc, BTreeMemTable.Put] at hok
  | some k =>
    cases hcw : l.currWal with
    | none => simp [LSM.Put, hcw, BTreeMemTable.Put]
    | some w =>
      by_cases hwc' : w.closed = true
      · simp [LSM.Put, hcw, Wal.Write, hwc'] at hok
      have hwc : w.closed = false := by simpa using hwc'
      simp only [LSM.Put, hcw, BTreeMemTable.Put, Wal.Write, hwc, Bool.false_eq_true, if_false]
      split
      · simp [LSM.switchMemtable]
      · simp

theorem runOps_frozen_mono (env : Env) (ops : List Op) (l l' : LSM) (d d' : Disk)
    (hrun : runOps env (l, d) ops = some (l', d')) :
    l.immutableMemtables.length ≤ l'.immutableMemtables.length := by
  induction ops generalizing l d with
  | nil =>
    simp only [runOps, Option.some.injEq, Prod.mk.injEq] at hrun
    rw [hrun.1]
  | cons op ops ih =>
    have hput : ∃ key value, op.run env l d = l.Put env d key value := by
      cases op with
      | Put k v => exact ⟨some k, v, rfl⟩
      | Delete k => exact ⟨some k, none, rfl⟩
    obtain ⟨key, value, hput⟩ := hput
    simp only [runOps, hput] at hrun
    have hmono := LSM.Put_ok_frozen env l d key value
    generalize l.Put env d key value = r at hrun hmono
    obtain ⟨l1, d1, e⟩ := r
    cases e with
    | some e => simp at hrun
    | none =>
      simp only at hrun
      exact le_trans (hmono rfl) (ih l1 d1 hrun)

theorem Record.apply_putRecord (memTable : BTreeMemTable) (p : Bytes × Bytes) :
    (putRecord p).apply memTable = (memTable.Put (some p.1) (some p.2)).1 := by
  simp [Record.apply, putRecord, NewRecord, RecordTypePut, RecordTypeDelete]

/-- A `Put` of a non-nil key and value on an engine that has frozen nothing
either rotates or leaves an engine of the same kind, with the record appended
to the WAL file. -/
theorem LSM.Put_unrotated (env : Env) (conf : Config) (memTable : BTreeMemTable)
    (content : Bytes) (p : Bytes × Bytes) :
    ((unrotated conf memTable content).1.Put env (unrotated conf memTable content).2
        (some p.1) (some p.2)).2.2 = none
    ∧ (((unrotated conf memTable content).1.Put env (unrotated conf memTable content).2
        (some p.1) (some p.2)).1.immutableMemtables = [] →
      ((unrotated conf memTable content).1.Put env (unrotated conf memTable content).2
        (some p.1) (some p.2))
      = ((unrotated conf ((putRecord p).apply memTable) (content ++ (putRecord p).Encode)).1,
         (unrotated conf ((putRecord p).apply memTable) (content ++ (putRecord p).Encode)).2,
         none)) := by
  have hoff : (content.length % 2 ^ 32 + (putRecord p).Encode.length) % 2 ^ 32
      = (content ++ (putRecord p).Encode).length % 2 ^ 32 := by
    rw [List.length_append, Nat.add_mod, Nat.mod_mod, ← Nat.add_mod]
  simp only [unrotated, LSM.Put, Wal.Write, BTreeMemTable.Put, Bool.false_eq_true, if_false,
    Record.apply_putRecord, Wal.Size]
  split
  · refine ⟨rfl, fun h => ?_⟩
    simp [LSM.switchMemtable] at h
  · refine ⟨rfl, fun _ => ?_⟩
    simp only [putRecord] at hoff ⊢
    simp [hoff, Dir.append, Dir.read, Dir.write]

theorem runOps_unrotated (env : Env) (conf : Config) (puts : List (Bytes × Bytes))
    (memTable : BTreeMemTable) (content : Bytes) (l : LSM) (d : Disk)
    (hrun : runOps env (unrotated conf memTable content) (puts.map putOp) = some (l, d))
    (hfrozen : l.immutableMemtables = []) :
    (l, d) = unrotated conf ((puts.map putRecord).foldl Record.apply memTable)
      (content ++ walBytes (puts.map putRecord)) := by
  induction puts generalizing memTable content with
  | nil =>
    simp only [List.map_nil, runOps, Option.some.injEq] at hrun
    simp [← hrun, walBytes]
  | cons p puts ih =>
    obtain ⟨hok, hsame⟩ := LSM.Put_unrotated env conf memTable content p
    simp only [List.map_cons, runOps, putOp, Op.run] at hrun
    generalize hr : (unrotated conf memTable content).1.Put env
      (unrotated conf memTable content).2 (some p.1) (some p.2) = r at hrun hok hsame
    obtain ⟨l1, d1, e⟩ := r
    simp only at hok
    subst hok
    simp only at hrun
    have hmono := runOps_frozen_mono env _ l1 l d1 d hrun
    have hl1 : l1.immutableMemtables = [] := by
      apply List.eq_nil_of_length_eq_zero
      rw [hfrozen] at hmono
      simpa using hmono
    have heq := hsame hl1
    simp only [Prod.mk.injEq, and_true] at heq
    obtain ⟨h1, h2⟩ := heq
    subst h1 h2
    have := ih _ _ hrun
    rw [this]
    simp [walBytes_cons, List.append_assoc]

theorem ParseWalPath_walName_zero : ParseWalPath (walName 0) = .ok 0 := by decide

/-- Reopening an engine that has frozen nothing, whose WAL file holds complete
records within the limits and is shorter than `2^32` bytes: the new engine is
of the same kind, its memtable the replay of the records. -/
theorem reopen_unrotated (conf : Config) (hconf : 0 < conf.MaxLevel) (memTable : BTreeMemTable)
    (records : List Record)
    (hsize : ∀ r ∈ records, (r.Key.getD []).length ≤ 10 * 1024 * 1024
      ∧ (r.Value.getD []).length ≤ 100 * 1024 * 1024)
    (hlen : (walBytes records).length < 2 ^ 32) :
    reopen (unrotated conf memTable (walBytes records)).1
        (unrotated conf memTable (walBytes records)).2
      = some (unrotated conf (records.foldl Record.apply NewMemTableConstructor)
          (walBytes records)) := by
  have hread := Wal.ReadAll_records { filePath := walName 0, offset := 0, closed := false }
    [(walName 0, walBytes records)] records NewMemTableConstructor rfl
    (by simp [Dir.read]) hsize hlen
  have hnot : ¬ conf.MaxLevel ≤ 0 := by omega
  have hmod : (walBytes records).length % 2 ^ 32 = (walBytes records).length :=
    Nat.mod_eq_of_lt hlen
  simp only [reopen, unrotated, LSM.Close, Bool.false_eq_true, if_false, NewLSM, hnot,
    LSM.loadSST, List.map_nil, parseSSTFiles, List.insertionSort, openSSTFiles, LSM.loadWal,
    List.length_singleton, List.map_cons, parseWalFiles, ParseWalPath_walName_zero,
    List.orderedInsert, replayWalFiles, NewWal, Dir.create, Dir.read, List.find?_cons,
    beq_self_eq_true, Option.map_some', hread, hmod]
  simp

/-- C4, amended: for a history of `Put` calls with non-nil keys and non-nil
values (keys of at most 10 MiB, values of at most 100 MiB) on an engine opened
on an empty data directory, which triggers no rotation and whose records add up
to fewer than `2^32` bytes: the WAL file holds exactly the records of those
calls, replaying it into an empty memtable yields the live mutable memtable,
and after `Close` and `NewLSM` the engine is in the same state, so every key
reads back its last-written value. -/
theorem replay_restores_unrotated_memtable (env : Env) (conf : Config)
    (puts : List (Bytes × Bytes)) (s0 : LSM × Disk) (l : LSM) (d : Disk)
    (hopen : NewLSM conf emptyDisk = some s0)
    (hrun : runOps env s0 (puts.map putOp) = some (l, d))
    (hsize : ∀ p ∈ puts, p.1.length ≤ 10 * 1024 * 1024 ∧ p.2.length ≤ 100 * 1024 * 1024)
    (hnorot : l.immutableMemtables = [])
    (hlen : (walBytes (puts.map putRecord)).length < 2 ^ 32) :
    d.walDir = [(walName 0, walBytes (puts.map putRecord))]
    ∧ (∃ w w', l.currWal = some w
        ∧ w.ReadAll d.walDir NewMemTableConstructor = some (w', l.mutableMemtable, none))
    ∧ reopen l d = some (l, d)
    ∧ ∀ k : Bytes, (l.Get env (some k)).map Prod.fst
        = some (expectedGet (lastWritten k (puts.map putOp) none)) := by
  obtain ⟨conf', hconf', hnew⟩ := NewLSM_emptyDisk conf
  rw [hnew, Option.some.injEq] at hopen
  subst hopen
  have hstate := runOps_unrotated env conf' puts NewMemTableConstructor [] l d hrun hnorot
  rw [List.nil_append] at hstate
  have hrec : ∀ r ∈ puts.map putRecord, (r.Key.getD []).length ≤ 10 * 1024 * 1024
      ∧ (r.Value.getD []).length ≤ 100 * 1024 * 1024 := by
    intro r hr
    obtain ⟨p, hp, rfl⟩ := List.mem_map.mp hr
    simpa [putRecord, NewRecord] using hsize p hp
  have hl : l = (unrotated conf' ((puts.map putRecord).foldl Record.apply
      NewMemTableConstructor) (walBytes (puts.map putRecord))).1 := congrArg Prod.fst hstate
  have hd : d = (unrotated conf' ((puts.map putRecord).foldl Record.apply
      NewMemTableConstructor) (walBytes (puts.map putRecord))).2 := congrArg Prod.snd hstate
  clear hstate
  subst hl hd
  refine ⟨rfl, ⟨Wal.mk (walName 0) ((walBytes (puts.map putRecord)).length % 2 ^ 32) false,
    Wal.mk (walName 0) (walBytes (puts.map putRecord)).length false, rfl, ?_⟩, ?_, ?_⟩
  · exact Wal.ReadAll_records _ _ (puts.map putRecord) NewMemTableConstructor rfl
      (by simp [unrotated, Dir.read]) hrec hlen
  · rw [reopen_unrotated conf' hconf' _ (puts.map putRecord) hrec hlen]
  · intro k
    obtain ⟨s, hs, hsc, hsn, hsm⟩ := runOps_spec env (puts.map putOp)
      (unrotated conf' NewMemTableConstructor []).1 (unrotated conf' NewMemTableConstructor []).2
      rfl (by intro w hw; simp [unrotated] at hw; rw [← hw])
      (by intro ns hns; exact List.eq_of_mem_replicate hns)
    rw [show ((unrotated conf' NewMemTableConstructor []).1,
      (unrotated conf' NewMemTableConstructor []).2) = unrotated conf' NewMemTableConstructor []
      from rfl, hrun, Option.some.injEq] at hs
    subst hs
    rw [LSM.Get_of_no_runs env _ (some k) hsc hsn, hsm k]
    obtain ⟨e, he⟩ := BTreeMemTable.Get_New (some k)
    simp [LSM.memLookup, unrotated, he, getImmutable]

set_option maxRecDepth 100000 in
/-- C4, amended, at a history of three `Put`s under the default configuration. -/
theorem replay_restores_unrotated_memtable_witness :
    ∃ s0 l d,
      NewLSM NewConfig emptyDisk = some s0
      ∧ runOps sampleEnv s0 ([(ascii "k1", ascii "v1"), (ascii "k2", ascii "v2"),
          (ascii "k1", ascii "v3")].map putOp) = some (l, d)
      ∧ reopen l d = some (l, d)
      ∧ (l.Get sampleEnv (some (ascii "k1"))).map Prod.fst = some (some (ascii "v3"), true, none) :=
  ⟨_, _, _, rfl, rfl,
    (replay_restores_unrotated_memtable sampleEnv NewConfig
      [(ascii "k1", ascii "v1"), (ascii "k2", ascii "v2"), (ascii "k1", ascii "v3")] _ _ _
      rfl rfl (by decide) (by decide) (by decide)).2.2.1,
    by decide⟩

/-! ## Theorems: a WAL file of more than `2^32` bytes -/

theorem bigValue_length : bigValue.length = 104857600 := by
  unfold bigValue
  rw [List.length_replicate]

theorem LSM.Put_unrotated_of_le (env : Env) (conf : Config) (memTable : BTreeMemTable)
    (content : Bytes) (p : Bytes × Bytes)
    (hle : (content ++ (putRecord p).Encode).length % 2 ^ 32
      ≤ ((env.GetCapSize conf.MemTableCapSize) % 2 ^ 32).toNat) :
    (unrotated conf memTable content).1.Put env (unrotated conf memTable content).2
        (some p.1) (some p.2)
      = ((unrotated conf ((putRecord p).apply memTable) (content ++ (putRecord p).Encode)).1,
         (unrotated conf ((putRecord p).apply memTable) (content ++ (putRecord p).Encode)).2,
         none) := by
  have hoff : (content.length % 2 ^ 32 + (putRecord p).Encode.length) % 2 ^ 32
      = (content ++ (putRecord p).Encode).length % 2 ^ 32 := by
    rw [List.length_append, Nat.add_mod, Nat.mod_mod, ← Nat.add_mod]
  have hno : ¬ (content.length % 2 ^ 32 + (putRecord p).Encode.length) % 2 ^ 32
      > ((env.GetCapSize conf.MemTableCapSize) % 2 ^ 32).toNat := by
    rw [hoff]; omega
  simp only [putRecord] at hoff hno
  simp only [unrotated, LSM.Put, Wal.Write, BTreeMemTable.Put, Bool.false_eq_true, if_false,
    Record.apply_putRecord, Wal.Size, LSM.getUpperMemtableSize, hno, putRecord]
  simp [hoff, Dir.append, Dir.read, Dir.write, Record.apply, NewRecord, RecordTypePut,
    RecordTypeDelete, BTreeMemTable.Put]

/-- With a threshold of `2^32 - 1` no history of `Put`s rotates. -/
theorem runOps_unrotated_maxcap (env : Env) (conf : Config)
    (hcap : ((env.GetCapSize conf.MemTableCapSize) % 2 ^ 32).toNat = 2 ^ 32 - 1)
    (puts : List (Bytes × Bytes)) (memTable : BTreeMemTable) (content : Bytes) :
    runOps env (unrotated conf memTable content) (puts.map putOp)
      = some (unrotated conf ((puts.map putRecord).foldl Record.apply memTable)
          (content ++ walBytes (puts.map putRecord))) := by
  induction puts generalizing memTable content with
  | nil => simp [runOps, walBytes]
  | cons p puts ih =>
    have hle : (content ++ (putRecord p).Encode).length % 2 ^ 32
        ≤ ((env.GetCapSize conf.MemTableCapSize) % 2 ^ 32).toNat := by
      rw [hcap]
      have := Nat.mod_lt (content ++ (putRecord p).Encode).length (show 0 < 2 ^ 32 by norm_num)
      omega
    simp only [List.map_cons, runOps, putOp, Op.run]
    rw [LSM.Put_unrotated_of_le env conf memTable content p hle]
    simp only
    rw [show ((unrotated conf ((putRecord p).apply memTable) (content ++ (putRecord p).Encode)).1,
      (unrotated conf ((putRecord p).apply memTable) (content ++ (putRecord p).Encode)).2)
      = unrotated conf ((putRecord p).apply memTable) (content ++ (putRecord p).Encode) from rfl]
    have := ih ((putRecord p).apply memTable) (content ++ (putRecord p).Encode)
    simp only [putOp] at this
    rw [this]
    simp [walBytes_cons, List.append_assoc]

theorem walBytes_replicate_length (n : Nat) (r : Record) :
    (walBytes (List.replicate n r)).length = n * r.Encode.length := by
  induction n with
  | zero => simp [walBytes]
  | succ n ih =>
    rw [List.replicate_succ, walBytes_cons, List.length_append, ih]
    ring

/-- One round of the replay loop at a record whose declared end lies beyond
the size the loop works with (the length of the file reduced modulo `2^32`):
the loop stops there and applies nothing. -/
theorem readAllLoop_incomplete (t : Byte) (klen vlen : Nat) (pre tail : Bytes)
    (memTable : BTreeMemTable) (fuel : Nat)
    (hk : klen ≤ 10 * 1024 * 1024) (hv : vlen ≤ 100 * 1024 * 1024)
    (h9 : pre.length + 9
      ≤ (pre ++ ([t] ++ beBytes 4 klen ++ beBytes 4 vlen) ++ tail).length % 2 ^ 32)
    (hbreak : (pre.length + (9 + klen + vlen + 4)) % 2 ^ 32
      > (pre ++ ([t] ++ beBytes 4 klen ++ beBytes 4 vlen) ++ tail).length % 2 ^ 32) :
    readAllLoop (pre ++ ([t] ++ beBytes 4 klen ++ beBytes 4 vlen) ++ tail) (fuel + 1)
      pre.length memTable = some (pre.length, memTable, none) := by
  generalize hbuf : pre ++ ([t] ++ beBytes 4 klen ++ beBytes 4 vlen) ++ tail = buffer
    at h9 hbreak ⊢
  have hblen : buffer.length = pre.length + 9 + tail.length := by
    rw [← hbuf]; simp [List.length_append, beBytes_length]; omega
  have hnlt : buffer.length % 2 ^ 32 < 2 ^ 32 := Nat.mod_lt _ (by norm_num)
  have hget : buffer.get? pre.length = some t := by
    rw [← hbuf, List.get?_eq_getElem?]
    simp only [List.append_assoc, List.singleton_append]
    rw [List.getElem?_append_right (le_refl _)]
    simp
  have hkl : goSlice buffer (pre.length + 1) (pre.length + 5) = some (beBytes 4 klen) := by
    rw [← hbuf]
    have := goSlice_mid (pre ++ [t]) (beBytes 4 klen) (beBytes 4 vlen ++ tail)
      (pre.length + 1) (pre.length + 5) (by simp) (by simp [beBytes_length])
    simpa [List.append_assoc] using this
  have hvl : goSlice buffer (pre.length + 5) (pre.length + 9) = some (beBytes 4 vlen) := by
    rw [← hbuf]
    have := goSlice_mid (pre ++ [t] ++ beBytes 4 klen) (beBytes 4 vlen) tail
      (pre.length + 5) (pre.length + 9) (by simp [beBytes_length]) (by simp [beBytes_length])
    simpa [List.append_assoc] using this
  have m1 : (pre.length + 1) % 2 ^ 32 = pre.length + 1 := Nat.mod_eq_of_lt (by omega)
  have m5 : (pre.length + 5) % 2 ^ 32 = pre.length + 5 := Nat.mod_eq_of_lt (by omega)
  have m9 : (pre.length + 9) % 2 ^ 32 = pre.length + 9 := Nat.mod_eq_of_lt (by omega)
  have ml : (9 + klen + vlen + 4) % 2 ^ 32 = 9 + klen + vlen + 4 :=
    Nat.mod_eq_of_lt (by omega)
  have hku : beUint32 (beBytes 4 klen) = some klen := beUint32_beBytes _ (by omega)
  have hvu : beUint32 (beBytes 4 vlen) = some vlen := beUint32_beBytes _ (by omega)
  rw [readAllLoop]
  simp only [m1, m5, m9, hget, hkl, hvl, hku, hvu, Option.bind_eq_bind, Option.some_bind,
    Option.bind_some, ml]
  have c1 : ¬ ¬ pre.length < buffer.length % 2 ^ 32 := by omega
  have c2 : ¬ pre.length + 9 > buffer.length % 2 ^ 32 := by omega
  have c3 : ¬ (klen > 10 * 1024 * 1024 ∨ vlen > 100 * 1024 * 1024) := by omega
  rw [if_neg c1, if_neg c2, if_neg c3, if_pos hbreak]

theorem longWal_eq (v : Bytes) : walBytes ((longPuts v).map putRecord)
    = [] ++ ([Fin.ofNat 0] ++ beBytes 4 0 ++ beBytes 4 v.length)
      ++ (v ++ beBytes 4 (crc32ChecksumIEEE (putRecord ([], v)).body)
        ++ walBytes (List.replicate 40 (putRecord ([], v)))) := by
  unfold longPuts
  rw [List.map_replicate, show (41 : Nat) = 40 + 1 from rfl, List.replicate_succ, walBytes_cons]
  generalize walBytes (List.replicate 40 (putRecord ([], v))) = rest
  simp only [Record.Encode, Record.body, putRecord, NewRecord, Option.getD_some, List.length_nil,
    RecordTypePut, List.nil_append, List.append_assoc, List.singleton_append, List.cons_append]

theorem longWal_length (v : Bytes) (hv : v.length = 104857600) :
    (walBytes ((longPuts v).map putRecord)).length = 4299162133 := by
  unfold longPuts
  rw [List.map_replicate, walBytes_replicate_length, Record.Encode_length]
  simp only [putRecord, NewRecord, Option.getD_some, List.length_nil, hv]

theorem longWal_ReadAll (v : Bytes) (hv : v.length = 104857600) :
    (Wal.mk (walName 0) 0 false).ReadAll [(walName 0, walBytes ((longPuts v).map putRecord))]
        NewMemTableConstructor
      = some (Wal.mk (walName 0) 0 false, NewMemTableConstructor, none) := by
  have hloop : readAllLoop (walBytes ((longPuts v).map putRecord))
      ((walBytes ((longPuts v).map putRecord)).length + 1) 0 NewMemTableConstructor
      = some (0, NewMemTableConstructor, none) := by
    have hlen := longWal_length v hv
    rw [longWal_eq] at hlen ⊢
    exact readAllLoop_incomplete (Fin.ofNat 0) 0 v.length [] _ NewMemTableConstructor _
      (by norm_num) (by rw [hv])
      (by rw [hlen]; norm_num) (by rw [hlen, hv]; norm_num)
  simp only [Wal.ReadAll, Bool.false_eq_true, if_false, Dir.read, List.find?_cons,
    beq_self_eq_true, Option.map_some', Option.getD_some, hloop]

theorem reopen_unrotated_of_ReadAll (conf : Config) (hconf : 0 < conf.MaxLevel)
    (memTable : BTreeMemTable) (content : Bytes) (w' : Wal) (memTable' : BTreeMemTable)
    (hread : (Wal.mk (walName 0) 0 false).ReadAll [(walName 0, content)] NewMemTableConstructor
      = some (w', memTable', none)) :
    reopen (unrotated conf memTable content).1 (unrotated conf memTable content).2
      = some ({ (unrotated conf memTable' content).1 with currWal := some w' },
              (unrotated conf memTable' content).2) := by
  have hnot : ¬ conf.MaxLevel ≤ 0 := by omega
  simp only [reopen, unrotated, LSM.Close, Bool.false_eq_true, if_false, NewLSM, hnot,
    LSM.loadSST, List.map_nil, parseSSTFiles, List.insertionSort, openSSTFiles, LSM.loadWal,
    List.length_singleton, List.map_cons, parseWalFiles, ParseWalPath_walName_zero,
    List.orderedInsert, replayWalFiles, NewWal, Dir.create, Dir.read, List.find?_cons,
    beq_self_eq_true, Option.map_some', hread]
  simp

/-- Forty-one `Put`s of a value of 100 MiB under a threshold of `2^32 - 1`:
no `Put` rotates, the key reads back before `Close`, and the reopened engine
does not find it, because the replay works with the length of the file modulo
`2^32` and takes the first record for a torn tail. -/
theorem long_history_lost (v : Bytes) (hv : v.length = 104857600) :
    ∃ s0 l d l' d',
      NewLSM bigConf emptyDisk = some s0
      ∧ runOps sampleEnv s0 ((longPuts v).map putOp) = some (l, d)
      ∧ l.immutableMemtables = []
      ∧ (l.Get sampleEnv (some [])).map Prod.fst = some (some v, true, none)
      ∧ reopen l d = some (l', d')
      ∧ (l'.Get sampleEnv (some [])).map Prod.fst = some (none, false, none) := by
  have hcap : ((sampleEnv.GetCapSize bigConf.MemTableCapSize) % 2 ^ 32).toNat = 2 ^ 32 - 1 := by
    decide
  have hrun := runOps_unrotated_maxcap sampleEnv bigConf hcap (longPuts v)
    NewMemTableConstructor []
  rw [List.nil_append] at hrun
  have hreopen := reopen_unrotated_of_ReadAll bigConf (by decide)
    ((List.map putRecord (longPuts v)).foldl Record.apply NewMemTableConstructor)
    (walBytes ((longPuts v).map putRecord)) _ _ (longWal_ReadAll v hv)
  refine ⟨unrotated bigConf NewMemTableConstructor [], _, _, _, _, rfl, hrun, rfl, ?_,
    hreopen, ?_⟩
  · rw [LSM.Get_of_memLookup sampleEnv _ (some []) v rfl]
    · rfl
    · have hput : (List.map putRecord (longPuts v)).foldl Record.apply NewMemTableConstructor
          = (((List.replicate 40 (putRecord ([], v))).foldl Record.apply
              NewMemTableConstructor).Put (some []) (some v)).1 := by
        unfold longPuts
        rw [List.map_replicate, show (41 : Nat) = 40 + 1 from rfl, List.replicate_succ',
          List.foldl_append, List.foldl_cons, List.foldl_nil, Record.apply_putRecord]
      simp only [LSM.memLookup, unrotated, hput, BTreeMemTable.Get_Put, if_true, Option.getD_some]
  · rw [LSM.Get_of_no_runs sampleEnv _ (some []) rfl
      (by intro ns hns; exact List.eq_of_mem_replicate hns)]
    obtain ⟨e, he⟩ := BTreeMemTable.Get_New (some [])
    simp [LSM.memLookup, unrotated, he, getImmutable, expectedGet]

set_option maxRecDepth 100000 in
/-- C4 as stated fails on two histories of `Put` calls with non-nil values that
trigger no rotation. (1) `Put(nil, "v")` returns an error but its record is
already in the WAL file: the replay of the file holds the empty key, the live
memtable does not, and the reopened engine returns `"v"` for the empty key.
(2) Forty-one `Put`s of a 100 MiB value under the empty key with the threshold
`2^32 - 1` write more than `2^32` bytes: the key reads back before `Close` and
is not found after `NewLSM`. -/
theorem replay_differs_from_memtable :
    (∃ l0 d0 l d l' d',
      NewLSM NewConfig emptyDisk = some (l0, d0)
      ∧ l0.Put sampleEnv d0 none (some (ascii "v")) = (l, d, some GoError.memtablePutFailed)
      ∧ l.immutableMemtables = []
      ∧ (∃ w w' memTable, l.currWal = some w
          ∧ w.ReadAll d.walDir NewMemTableConstructor = some (w', memTable, none)
          ∧ memTable ≠ l.mutableMemtable)
      ∧ (l.Get sampleEnv (some [])).map Prod.fst = some (none, false, none)
      ∧ reopen l d = some (l', d')
      ∧ (l'.Get sampleEnv (some [])).map Prod.fst = some (some (ascii "v"), true, none))
    ∧ bigValue.length = 100 * 1024 * 1024
    ∧ (∃ s0 l d l' d',
      NewLSM bigConf emptyDisk = some s0
      ∧ runOps sampleEnv s0 ((longPuts bigValue).map putOp) = some (l, d)
      ∧ l.immutableMemtables = []
      ∧ (l.Get sampleEnv (some [])).map Prod.fst = some (some bigValue, true, none)
      ∧ reopen l d = some (l', d')
      ∧ (l'.Get sampleEnv (some [])).map Prod.fst = some (none, false, none)) :=
  ⟨⟨_, _, _, _, _, _, rfl, rfl, by decide, ⟨_, _, _, rfl, rfl, by decide⟩, by decide, rfl,
      by decide⟩,
    bigValue_length, long_history_lost bigValue bigValue_length⟩

/-! ## Theorems: the memtable -/

theorem KVItem.Less_trans (a b c : KVItem) (hab : a.Less b = true) (hbc : b.Less c = true) :
    a.Less c = true := by
  unfold KVItem.Less at *
  simp only [decide_eq_true_eq] at *
  exact CompareBytes_lt_trans _ _ _ hab hbc

theorem KVItem.Less_congr_key (a b c : KVItem) (h : a.key = b.key) : a.Less c = b.Less c := by
  unfold KVItem.Less
  rw [h]

theorem KVItem.Less_ne_key (a b : KVItem) (h : a.Less b = true) : a.key ≠ b.key := by
  intro hk
  rw [KVItem.Less_irrefl_key a b hk] at h
  exact Bool.false_ne_true h

theorem mem_btreeReplaceOrInsert (item y : KVItem) (t : List KVItem)
    (hy : y ∈ btreeReplaceOrInsert item t) : y = item ∨ y ∈ t := by
  induction t with
  | nil => simpa [btreeReplaceOrInsert] using hy
  | cons x rest ih =>
    unfold btreeReplaceOrInsert at hy
    split_ifs at hy with h1 h2
    · rcases List.mem_cons.mp hy with h | h
      · exact Or.inl h
      · exact Or.inr h
    · rcases List.mem_cons.mp hy with h | h
      · exact Or.inr (h ▸ List.mem_cons_self _ _)
      · rcases ih h with h | h
        · exact Or.inl h
        · exact Or.inr (List.mem_cons_of_mem _ h)
    · rcases List.mem_cons.mp hy with h | h
      · exact Or.inl h
      · exact Or.inr (List.mem_cons_of_mem _ h)

theorem btreeSorted_replaceOrInsert (item : KVItem) (t : List KVItem) (h : btreeSorted t) :
    btreeSorted (btreeReplaceOrInsert item t) := by
  unfold btreeSorted at *
  induction t with
  | nil => simp [btreeReplaceOrInsert]
  | cons x rest ih =>
    rw [List.pairwise_cons] at h
    unfold btreeReplaceOrInsert
    split_ifs with h1 h2
    · rw [List.pairwise_cons]
      refine ⟨?_, List.pairwise_cons.mpr h⟩
      intro y hy
      rcases List.mem_cons.mp hy with hy | hy
      · rw [hy]; exact h1
      · exact KVItem.Less_trans _ _ _ h1 (h.1 y hy)
    · rw [List.pairwise_cons]
      refine ⟨?_, ih h.2⟩
      intro y hy
      rcases mem_btreeReplaceOrInsert item y rest hy with hy | hy
      · rw [hy]; exact h2
      · exact h.1 y hy
    · rw [List.pairwise_cons]
      refine ⟨?_, h.2⟩
      intro y hy
      have hx : item.key = x.key := (KVItem.eqv_iff item x).mp (by simp [h1, h2])
      rw [KVItem.Less_congr_key item x y hx]
      exact h.1 y hy

theorem btreeDelete_fst (item : KVItem) (t : List KVItem) :
    (btreeDelete item t).1 = btreeGet item t := by
  induction t with
  | nil => rfl
  | cons x rest ih =>
    unfold btreeDelete btreeGet
    by_cases h : (!item.Less x && !x.Less item) = true
    · simp [h]
    · rw [if_neg h, List.find?_cons]
      simp only [Bool.not_eq_true] at h
      rw [h]
      exact ih

theorem btreeDelete_sublist (item : KVItem) (t : List KVItem) :
    List.Sublist (btreeDelete item t).2 t := by
  induction t with
  | nil => exact List.Sublist.slnil
  | cons x rest ih =>
    unfold btreeDelete
    split_ifs with h
    · exact List.sublist_cons_self _ _
    · exact List.Sublist.cons₂ _ ih

theorem btreeSorted_delete (item : KVItem) (t : List KVItem) (h : btreeSorted t) :
    btreeSorted (btreeDelete item t).2 :=
  List.Pairwise.sublist (btreeDelete_sublist item t) h

theorem btreeGet_none_of_lt (probe x : KVItem) (rest : List KVItem)
    (h : ∀ y ∈ rest, x.Less y = true) (hk : probe.key = x.key) : btreeGet probe rest = none := by
  rw [btreeGet_eq, List.find?_eq_none]
  intro y hy
  have := KVItem.Less_ne_key x y (h y hy)
  simp only [decide_eq_true_eq]
  rw [hk]
  exact this

theorem btreeGet_delete (item probe : KVItem) (t : List KVItem) (h : btreeSorted t) :
    btreeGet probe (btreeDelete item t).2 =
      if probe.key = item.key then none else btreeGet probe t := by
  unfold btreeSorted at h
  induction t with
  | nil => simp [btreeDelete, btreeGet]
  | cons x rest ih =>
    rw [List.pairwise_cons] at h
    unfold btreeDelete
    by_cases hx : (!item.Less x && !x.Less item) = true
    · rw [if_pos hx]
      have hkey : item.key = x.key := (KVItem.eqv_iff item x).mp hx
      by_cases hp : probe.key = item.key
      · rw [if_pos hp]
        exact btreeGet_none_of_lt probe x rest h.1 (hp.trans hkey)
      · rw [if_neg hp, btreeGet_eq, btreeGet_eq, List.find?_cons]
        have : ¬ probe.key = x.key := fun hh => hp (hh.trans hkey.symm)
        simp [this]
    · rw [if_neg hx]
      have hkey : ¬ item.key = x.key := fun hh => hx ((KVItem.eqv_iff item x).mpr hh)
      simp only
      rw [btreeGet_eq, List.find?_cons, ← btreeGet_eq, ih h.2, btreeGet_eq probe (x :: rest),
        List.find?_cons, ← btreeGet_eq]
      by_cases hp : probe.key = x.key
      · have : ¬ probe.key = item.key := fun hh => hkey (hh.symm.trans hp)
        have h2 : ¬ x.key = item.key := fun hh => hkey hh.symm
        simp [hp, h2]
      · simp [hp]

theorem btreeGet_key (probe item : KVItem) (t : List KVItem) (h : btreeGet probe t = some item) :
    item ∈ t ∧ item.key = probe.key := by
  rw [btreeGet_eq] at h
  have h1 := List.find?_some h
  have h2 := List.mem_of_find?_eq_some h
  simp only [decide_eq_true_eq] at h1
  exact ⟨h2, h1.symm⟩

theorem btreeGet_of_mem (probe item : KVItem) (t : List KVItem) (h : btreeSorted t)
    (hmem : item ∈ t) (hk : item.key = probe.key) : btreeGet probe t = some item := by
  unfold btreeSorted at h
  induction t with
  | nil => cases hmem
  | cons x rest ih =>
    rw [List.pairwise_cons] at h
    rw [btreeGet_eq, List.find?_cons]
    rcases List.mem_cons.mp hmem with hm | hm
    · subst hm
      simp [hk]
    · have : ¬ probe.key = x.key := by
        intro hh
        exact KVItem.Less_ne_key x item (h.1 item hm) (hh.symm.trans hk.symm)
      simp only [this, decide_False]
      rw [← btreeGet_eq]
      exact ih h.2 hm

theorem runMemOps_snoc (ops : List MemOp) (op : MemOp) :
    runMemOps (ops ++ [op]) = (op.run (runMemOps ops)).1 := by
  simp [runMemOps, List.foldl_append]

theorem bindings_snoc (ops : List MemOp) (op : MemOp) :
    bindings (ops ++ [op]) = MemOp.effect (bindings ops) op := by
  simp [bindings, List.foldl_append]

theorem BTreeMemTable.Delete_eq (bt : BTreeMemTable) (k : Bytes) :
    bt.Delete (some k) =
      if btreeGet { key := k, value := [] } bt.tree = none then (bt, some .keyNotFound)
      else ({ tree := (btreeDelete { key := k, value := [] } bt.tree).2 }, none) := by
  unfold BTreeMemTable.Delete
  simp only
  rw [← btreeDelete_fst]
  rcases h : btreeDelete { key := k, value := [] } bt.tree with ⟨a, rest⟩
  cases a <;> simp

theorem runMemOps_sorted (ops : List MemOp) : btreeSorted (runMemOps ops).tree := by
  induction ops using List.reverseRecOn with
  | nil => simp [runMemOps, NewBTreeMemTable, btreeSorted]
  | append_singleton ops op ih =>
    rw [runMemOps_snoc]
    cases op with
    | Put key value =>
      cases key with
      | none => exact ih
      | some k => exact btreeSorted_replaceOrInsert _ _ ih
    | Delete key =>
      cases key with
      | none => exact ih
      | some k =>
        simp only [MemOp.run]
        rw [BTreeMemTable.Delete_eq]
        split_ifs
        · exact ih
        · exact btreeSorted_delete _ _ ih

theorem runMemOps_lookup (ops : List MemOp) (k : Bytes) :
    btreeGet { key := k, value := [] } (runMemOps ops).tree
      = (bindings ops k).map (fun v => { key := k, value := v }) := by
  induction ops using List.reverseRecOn with
  | nil => simp [runMemOps, NewBTreeMemTable, bindings, btreeGet]
  | append_singleton ops op ih =>
    rw [runMemOps_snoc, bindings_snoc]
    cases op with
    | Put key value =>
      cases key with
      | none => exact ih
      | some key =>
        simp only [MemOp.run, BTreeMemTable.Put, MemOp.effect, btreeGet_replaceOrInsert]
        by_cases h : k = key
        · simp [h]
        · simp [h, ih]
    | Delete key =>
      cases key with
      | none => exact ih
      | some key =>
        simp only [MemOp.run, MemOp.effect]
        rw [BTreeMemTable.Delete_eq]
        by_cases hnone : btreeGet { key := key, value := [] } (runMemOps ops).tree = none
        · rw [if_pos hnone]
          by_cases h : k = key
          · subst h
            simp [hnone]
          · simp [h, ih]
        · rw [if_neg hnone]
          simp only
          rw [btreeGet_delete _ _ _ (runMemOps_sorted ops)]
          by_cases h : k = key
          · simp [h]
          · simp [h, ih]

theorem btreeReplaceOrInsert_length (item : KVItem) (t : List KVItem) :
    (btreeReplaceOrInsert item t).length ≤ t.length + 1 := by
  induction t with
  | nil => simp [btreeReplaceOrInsert]
  | cons x rest ih =>
    unfold btreeReplaceOrInsert
    split_ifs
    · simp
    · simp only [List.length_cons]; omega
    · simp

theorem runMemOps_length (ops : List MemOp) : (runMemOps ops).tree.length ≤ ops.length := by
  induction ops using List.reverseRecOn with
  | nil => simp [runMemOps, NewBTreeMemTable]
  | append_singleton ops op ih =>
    rw [runMemOps_snoc, List.length_append, List.length_singleton]
    cases op with
    | Put key value =>
      cases key with
      | none => exact Nat.le_succ_of_le ih
      | some k =>
        have := btreeReplaceOrInsert_length { key := k, value := value.getD [] } (runMemOps ops).tree
        simp only [MemOp.run, BTreeMemTable.Put]
        omega
    | Delete key =>
      cases key with
      | none => exact Nat.le_succ_of_le ih
      | some k =>
        simp only [MemOp.run]
        rw [BTreeMemTable.Delete_eq]
        split_ifs
        · exact Nat.le_succ_of_le ih
        · have := (btreeDelete_sublist { key := k, value := [] } (runMemOps ops).tree).length_le
          simp only
          omega

/-- The caller's loop over an iterator whose cursor stands before item `i`:
it visits the items from `i` on and leaves the cursor at the length. -/
theorem iterate_spec (fuel : Nat) (iter : BtreeIterator) (i : Nat)
    (hlen : iter.length = iter.KvItems.length) (hc : iter.currIndex = (i : Int) - 1)
    (hi : i ≤ iter.length) (hfuel : iter.length - i < fuel) :
    iterate fuel iter = some ((iter.KvItems.drop i).map (fun x => (x.key, x.value)),
      { iter with currIndex := iter.length }) := by
  induction fuel generalizing iter i with
  | zero => omega
  | succ fuel ih =>
    unfold iterate
    have hn : iter.Next = ({ iter with currIndex := (i : Int) }, decide (i < iter.length)) := by
      unfold BtreeIterator.Next
      rw [hc]
      simp
    rw [hn]
    simp only
    by_cases hlt : i < iter.length
    · have hget : iter.KvItems.get? i = some (iter.KvItems.get ⟨i, by omega⟩) := by
        rw [List.get?_eq_get]
      have hdrop : iter.KvItems.drop i
          = iter.KvItems.get ⟨i, by omega⟩ :: iter.KvItems.drop (i + 1) := by
        rw [List.drop_eq_getElem_cons (by omega)]
        rfl
      have := ih { iter with currIndex := (i : Int) } (i + 1) hlen (by simp) hlt (by simp; omega)
      simp only at this
      simp only [hlt, decide_True, if_true, BtreeIterator.Key, BtreeIterator.Value,
        Int.toNat_ofNat, Int.natCast_nonneg, hget, Option.map_some', Option.bind_eq_bind,
        Option.some_bind, this, hdrop, List.map_cons]
    · have : i = iter.length := by omega
      simp only [hlt, decide_False, Bool.false_eq_true, if_false]
      rw [this, hlen, List.drop_length]
      simp [hlen]

/-- C11. For every history of `Put` and `Delete` calls on a new memtable, the
loop over a newly created iterator ends and visits items that are in strictly
ascending `CompareBytes` order of their keys (so no key twice) and that are
exactly the bindings the table holds, each key with the value of its latest
`Put`; the loop after `First()` visits the same sequence again. After the
inserts of "z", "aa", "b" the keys come out as "b", "z", "aa". -/
theorem Iterator_yields_bindings_ascending (ops : List MemOp) :
    ∃ items last,
      (∀ fuel, ops.length < fuel →
        iterate fuel (runMemOps ops).Iterator = some (items, last)) ∧
      items.Pairwise (fun a b => CompareBytes a.1 b.1 < 0) ∧
      (∀ k v, (k, v) ∈ items ↔ (runMemOps ops).Get (some k) = .ok v) ∧
      (∀ k v, (k, v) ∈ items ↔ bindings ops k = some v) ∧
      (∀ fuel, ops.length < fuel → (iterate fuel last.First).map Prod.fst = some items) ∧
      (iterate 4 (runMemOps [.Put (some (ascii "z")) (some (ascii "1")),
          .Put (some (ascii "aa")) (some (ascii "2")),
          .Put (some (ascii "b")) (some (ascii "3"))]).Iterator).map (fun r => r.1.map Prod.fst)
        = some [ascii "b", ascii "z", ascii "aa"] := by
  have hsorted := runMemOps_sorted ops
  have hlength := runMemOps_length ops
  have hmem : ∀ k v, (k, v) ∈ (runMemOps ops).tree.map (fun x => (x.key, x.value))
      ↔ bindings ops k = some v := by
    intro k v
    have hl := runMemOps_lookup ops k
    constructor
    · intro h
      obtain ⟨x, hx, hxkv⟩ := List.mem_map.mp h
      simp only [Prod.mk.injEq] at hxkv
      have := btreeGet_of_mem { key := k, value := [] } x _ hsorted hx hxkv.1
      rw [hl] at this
      cases hb : bindings ops k with
      | none => rw [hb] at this; simp at this
      | some w =>
        rw [hb] at this
        simp only [Option.map_some', Option.some.injEq] at this
        rw [← this] at hxkv
        simp only at hxkv
        rw [hxkv.2]
    · intro h
      rw [h] at hl
      have := (btreeGet_key _ _ _ hl).1
      exact List.mem_map.mpr ⟨_, this, rfl⟩
  refine ⟨(runMemOps ops).tree.map (fun x => (x.key, x.value)),
    { KvItems := (runMemOps ops).tree, currIndex := (runMemOps ops).tree.length,
      length := (runMemOps ops).tree.length }, ?_, ?_, ?_, hmem, ?_, by decide⟩
  · intro fuel hfuel
    have := iterate_spec fuel (runMemOps ops).Iterator 0 rfl (by simp [BTreeMemTable.Iterator])
      (Nat.zero_le _) (by simp only [BTreeMemTable.Iterator]; omega)
    simpa [BTreeMemTable.Iterator] using this
  · rw [List.pairwise_map]
    refine List.Pairwise.imp ?_ hsorted
    intro a b hab
    simpa [KVItem.Less] using hab
  · intro k v
    rw [hmem, BTreeMemTable.Get, runMemOps_lookup]
    cases bindings ops k <;> simp
  · intro fuel hfuel
    have := iterate_spec fuel
      (BtreeIterator.mk (runMemOps ops).tree (runMemOps ops).tree.length
        (runMemOps ops).tree.length).First 0 rfl
      (by simp [BtreeIterator.First]) (Nat.zero_le _)
      (by simp only [BtreeIterator.First]; omega)
    rw [this]
    simp [BtreeIterator.First]

/-- C12. For every memtable, non-nil key `k` and value `v`: `Put(k, v)` returns
nil, after it `Get(k)` returns `v` (the empty value when `v` is nil or empty),
`Get` of every other key, nil included, returns what it returned before, and a
later `Put` to `k` replaces the value. -/
theorem Put_then_Get_last_write_wins (bt : BTreeMemTable) (k : Bytes) (v v' : Option Bytes) :
    (bt.Put (some k) v).2 = none ∧
    (bt.Put (some k) v).1.Get (some k) = .ok (v.getD []) ∧
    (bt.Put (some k) none).1.Get (some k) = .ok [] ∧
    (∀ key, key ≠ some k → (bt.Put (some k) v).1.Get key = bt.Get key) ∧
    ((bt.Put (some k) v).1.Put (some k) v').1.Get (some k) = .ok (v'.getD []) := by
  refine ⟨rfl, ?_, ?_, ?_, ?_⟩
  · rw [BTreeMemTable.Get_Put]; simp
  · rw [BTreeMemTable.Get_Put]; simp
  · intro key hkey
    cases key with
    | none => rfl
    | some k' =>
      rw [BTreeMemTable.Get_Put]
      have : ¬ k' = k := fun h => hkey (by rw [h])
      simp [this]
  · rw [BTreeMemTable.Get_Put]; simp

theorem btreeGet_isSome_iff (k : Bytes) (t : List KVItem) :
    btreeGet { key := k, value := [] } t = none ↔ k ∉ t.map KVItem.key := by
  rw [btreeGet_eq, List.find?_eq_none]
  simp only [decide_eq_true_eq, List.mem_map, not_exists, not_and]
  constructor
  · intro h x hx hk
    exact h x hx hk.symm
  · intro h x hx hk
    exact h x hx hk.symm

/-- C13. On a memtable reached by any history of calls: `Get`, `Delete` and
`Put` with a nil key return the error "key is nil"; with a non-nil key `Put`
returns nil, and `Get` and `Delete` return an error exactly when the key is not
stored; a `Put` or `Delete` that returns an error leaves the table as it was;
after a `Delete(k)` that returns nil the key `k` is not stored and `Get` of
every other key returns what it returned before. -/
theorem memtable_errors_and_Delete (ops : List MemOp) :
    (runMemOps ops).Get none = .error .keyIsNil ∧
    (∀ value, (runMemOps ops).Put none value = (runMemOps ops, some .keyIsNil)) ∧
    (runMemOps ops).Delete none = (runMemOps ops, some .keyIsNil) ∧
    (∀ k value, ((runMemOps ops).Put (some k) value).2 = none) ∧
    (∀ k, (∃ e, (runMemOps ops).Get (some k) = .error e) ↔ k ∉ (runMemOps ops).keys) ∧
    (∀ k, ((runMemOps ops).Delete (some k)).2 ≠ none ↔ k ∉ (runMemOps ops).keys) ∧
    (∀ key, ((runMemOps ops).Delete key).2 ≠ none →
      ((runMemOps ops).Delete key).1 = runMemOps ops) ∧
    (∀ key value, ((runMemOps ops).Put key value).2 ≠ none →
      ((runMemOps ops).Put key value).1 = runMemOps ops) ∧
    (∀ k, ((runMemOps ops).Delete (some k)).2 = none →
      k ∉ ((runMemOps ops).Delete (some k)).1.keys ∧
      ∀ key, key ≠ some k →
        ((runMemOps ops).Delete (some k)).1.Get key = (runMemOps ops).Get key) := by
  have hsorted := runMemOps_sorted ops
  generalize runMemOps ops = bt at hsorted
  refine ⟨rfl, fun _ => rfl, rfl, fun _ _ => rfl, ?_, ?_, ?_, ?_, ?_⟩
  · intro k
    unfold BTreeMemTable.keys
    rw [← btreeGet_isSome_iff]
    unfold BTreeMemTable.Get
    simp only
    cases btreeGet { key := k, value := [] } bt.tree <;> simp
  · intro k
    unfold BTreeMemTable.keys
    rw [← btreeGet_isSome_iff, BTreeMemTable.Delete_eq]
    split_ifs with h <;> simp [h]
  · intro key
    cases key with
    | none => intro _; rfl
    | some k =>
      rw [BTreeMemTable.Delete_eq]
      split_ifs with h <;> simp
  · intro key value
    cases key with
    | none => intro _; rfl
    | some k => intro h; exact absurd rfl h
  · intro k
    rw [BTreeMemTable.Delete_eq]
    split_ifs with h
    · intro hh; cases hh
    · intro _
      simp only
      constructor
      · unfold BTreeMemTable.keys
        rw [← btreeGet_isSome_iff]
        simp only
        rw [btreeGet_delete _ _ _ hsorted]
        simp
      · intro key hkey
        cases key with
        | none => rfl
        | some k' =>
          have hne : ¬ k' = k := fun hh => hkey (by rw [hh])
          unfold BTreeMemTable.Get
          simp only
          rw [btreeGet_delete _ _ _ hsorted]
          simp [hne]

/-! ## Theorems: the encoding of a record -/

set_option maxRecDepth 100000 in
/-- C14. For every record, `Encode` returns the type byte, the four bytes of
the key length and the four bytes of the value length as `uint32`, most
significant byte first, the key bytes, the value bytes, and the four bytes,
most significant first, of the CRC-32/IEEE checksum of all the bytes before
them: `13 + len(key) + len(value)` bytes. The checksum is the standard one (check value
`0xCBF43926`), and the record `Put("k", "v")` encodes to the fifteen bytes
shown. -/
theorem Encode_layout (r : Record) :
    r.Encode = [Fin.ofNat r.RecordType] ++ beBytes 4 (r.Key.getD []).length
        ++ beBytes 4 (r.Value.getD []).length ++ r.Key.getD [] ++ r.Value.getD []
        ++ beBytes 4 (crc32ChecksumIEEE ([Fin.ofNat r.RecordType]
            ++ beBytes 4 (r.Key.getD []).length ++ beBytes 4 (r.Value.getD []).length
            ++ r.Key.getD [] ++ r.Value.getD [])) ∧
    r.Encode.length = 13 + (r.Key.getD []).length + (r.Value.getD []).length ∧
    (∀ n, beBytes 4 n = [Fin.ofNat (n / 2 ^ 24), Fin.ofNat (n / 2 ^ 16), Fin.ofNat (n / 2 ^ 8),
      Fin.ofNat n]) ∧
    (∀ n, n < 2 ^ 32 → beValue (beBytes 4 n) = n) ∧
    crc32ChecksumIEEE (ascii "123456789") = 0xCBF43926 ∧
    (NewRecord (some (ascii "k")) (some (ascii "v"))).Encode
      = [0, 0, 0, 0, 1, 0, 0, 0, 1, 107, 118, 243, 93, 182, 10] := by
  refine ⟨?_, Record.Encode_length r, ?_, ?_, by decide, by decide⟩
  · simp [Record.Encode, Record.body]
  · intro n
    simp [beBytes]
  · intro n hn
    rw [beValue_beBytes]
    exact Nat.mod_eq_of_lt (by norm_num at hn ⊢; exact hn)

/-- C15. `NewRecord(key, value)` has type Delete exactly when `value` is nil and
type Put otherwise, also for an empty non-nil value, and keeps the key and the
value; `Wal.Write` on an open handle appends the encoding of that record to
the file and returns nil, so the type byte it logs is that of a Delete record
exactly when the value is nil. -/
theorem NewRecord_type_and_Write (key value : Option Bytes) :
    ((NewRecord key value).RecordType = RecordTypeDelete ↔ value = none) ∧
    ((NewRecord key value).RecordType = RecordTypePut ↔ value ≠ none) ∧
    (NewRecord key (some [])).RecordType = RecordTypePut ∧
    (NewRecord key value).Key = key ∧ (NewRecord key value).Value = value ∧
    (∀ (w : Wal) (dir : Dir), w.closed = false →
      (w.Write dir key value).2.2 = none ∧
      (w.Write dir key value).2.1 = dir.append w.filePath (NewRecord key value).Encode ∧
      ((NewRecord key value).Encode.head? = some (Fin.ofNat RecordTypeDelete) ↔ value = none) ∧
      ((NewRecord key value).Encode.head? = some (Fin.ofNat RecordTypePut) ↔ value ≠ none)) := by
  cases value with
  | none =>
    refine ⟨by simp [NewRecord], by simp [NewRecord, RecordTypeDelete, RecordTypePut], rfl, rfl,
      rfl, ?_⟩
    intro w dir hw
    simp [Wal.Write, hw, NewRecord, Record.Encode, Record.body, RecordTypeDelete, RecordTypePut]
    decide
  | some v =>
    refine ⟨by simp [NewRecord, RecordTypeDelete, RecordTypePut], by simp [NewRecord], rfl, rfl,
      rfl, ?_⟩
    intro w dir hw
    simp [Wal.Write, hw, NewRecord, Record.Encode, Record.body, RecordTypeDelete, RecordTypePut]
    decide

/-! ## Theorems: replay of records with any checksum field -/

theorem Record.stored_length (r : Record) (crc : Nat) :
    (r.stored crc).length = 13 + (r.Key.getD []).length + (r.Value.getD []).length := by
  simp [Record.stored, Record.body_length, beBytes_length]
  omega

theorem Record.stored_checksum (r : Record) : r.stored (crc32ChecksumIEEE r.body) = r.Encode := rfl

/-- One round of the replay loop on a complete record whose declared lengths
are within the limits, whatever its checksum field holds, in a file shorter
than `2^32` bytes. -/
theorem readAllLoop_step_stored (r : Record) (crc : Nat) (pre tail : Bytes)
    (memTable : BTreeMemTable) (fuel : Nat)
    (hk : (r.Key.getD []).length ≤ 10 * 1024 * 1024)
    (hv : (r.Value.getD []).length ≤ 100 * 1024 * 1024)
    (hlen : (pre ++ r.stored crc ++ tail).length < 2 ^ 32) :
    readAllLoop (pre ++ r.stored crc ++ tail) (fuel + 1) pre.length memTable
      = readAllLoop (pre ++ r.stored crc ++ tail) fuel (pre.length + (r.stored crc).length)
          (r.apply memTable) := by
  have hE := Record.stored_length r crc
  generalize hK : r.Key.getD [] = K at hk hE
  generalize hV : r.Value.getD [] = V at hv hE
  have hEnc : r.stored crc = [Fin.ofNat r.RecordType] ++ beBytes 4 K.length ++ beBytes 4 V.length
      ++ K ++ V ++ beBytes 4 crc := by
    simp [Record.stored, Record.body, hK, hV]
  generalize hbuf : pre ++ r.stored crc ++ tail = buffer at hlen ⊢
  have hblen : buffer.length = pre.length + (13 + K.length + V.length) + tail.length := by
    rw [← hbuf]; simp [List.length_append, hE]; omega
  have h32 : (2 : Nat) ^ 32 = 4294967296 := by norm_num
  rw [h32] at hlen
  have hn : buffer.length % 2 ^ 32 = buffer.length := Nat.mod_eq_of_lt (by omega)
  have hget : buffer.get? pre.length = some (Fin.ofNat r.RecordType) := by
    rw [← hbuf, hEnc, List.get?_eq_getElem?]
    simp only [List.append_assoc, List.singleton_append]
    rw [List.getElem?_append_right (le_refl _)]
    simp
  have hkl : goSlice buffer (pre.length + 1) (pre.length + 5) = some (beBytes 4 K.length) := by
    rw [← hbuf, hEnc]
    have := goSlice_mid (pre ++ [Fin.ofNat r.RecordType]) (beBytes 4 K.length)
      (beBytes 4 V.length ++ K ++ V ++ beBytes 4 crc ++ tail)
      (pre.length + 1) (pre.length + 5) (by simp) (by simp [beBytes_length])
    simpa [List.append_assoc] using this
  have hvl : goSlice buffer (pre.length + 5) (pre.length + 9) = some (beBytes 4 V.length) := by
    rw [← hbuf, hEnc]
    have := goSlice_mid (pre ++ [Fin.ofNat r.RecordType] ++ beBytes 4 K.length)
      (beBytes 4 V.length)
      (K ++ V ++ beBytes 4 crc ++ tail)
      (pre.length + 5) (pre.length + 9) (by simp [beBytes_length]) (by simp [beBytes_length])
    simpa [List.append_assoc] using this
  have hkey : goSlice buffer (pre.length + 9) (pre.length + 9 + K.length) = some K := by
    rw [← hbuf, hEnc]
    have := goSlice_mid (pre ++ [Fin.ofNat r.RecordType] ++ beBytes 4 K.length
        ++ beBytes 4 V.length) K
      (V ++ beBytes 4 crc ++ tail)
      (pre.length + 9) (pre.length + 9 + K.length) (by simp [beBytes_length])
      (by simp [beBytes_length])
    simpa [List.append_assoc] using this
  have hval : goSlice buffer (pre.length + 9 + K.length) (pre.length + 9 + K.length + V.length)
      = some V := by
    rw [← hbuf, hEnc]
    have := goSlice_mid (pre ++ [Fin.ofNat r.RecordType] ++ beBytes 4 K.length
        ++ beBytes 4 V.length ++ K) V
      (beBytes 4 crc ++ tail)
      (pre.length + 9 + K.length) (pre.length + 9 + K.length + V.length)
      (by simp [beBytes_length]; omega) (by simp [beBytes_length]; omega)
    simpa [List.append_assoc] using this
  have hcrc : goSlice buffer (pre.length + 9 + K.length + V.length)
      (pre.length + (9 + K.length + V.length + 4))
      = some (beBytes 4 crc) := by
    rw [← hbuf, hEnc]
    have := goSlice_mid (pre ++ [Fin.ofNat r.RecordType] ++ beBytes 4 K.length
        ++ beBytes 4 V.length ++ K ++ V) (beBytes 4 crc) tail
      (pre.length + 9 + K.length + V.length) (pre.length + (9 + K.length + V.length + 4))
      (by simp [beBytes_length]; omega) (by simp [beBytes_length]; omega)
    simpa [List.append_assoc] using this
  have hbody : ∃ b, goSlice buffer pre.length (pre.length + 9 + K.length + V.length) = some b := by
    unfold goSlice
    rw [if_pos ⟨by omega, by omega⟩]
    exact ⟨_, rfl⟩
  obtain ⟨b, hb⟩ := hbody
  have m1 : (pre.length + 1) % 2 ^ 32 = pre.length + 1 := Nat.mod_eq_of_lt (by omega)
  have m5 : (pre.length + 5) % 2 ^ 32 = pre.length + 5 := Nat.mod_eq_of_lt (by omega)
  have m9 : (pre.length + 9) % 2 ^ 32 = pre.length + 9 := Nat.mod_eq_of_lt (by omega)
  have mk : (pre.length + 9 + K.length) % 2 ^ 32 = pre.length + 9 + K.length :=
    Nat.mod_eq_of_lt (by omega)
  have mv : (pre.length + 9 + K.length + V.length) % 2 ^ 32
      = pre.length + 9 + K.length + V.length := Nat.mod_eq_of_lt (by omega)
  have ml : (9 + K.length + V.length + 4) % 2 ^ 32 = 9 + K.length + V.length + 4 :=
    Nat.mod_eq_of_lt (by omega)
  have mo : (pre.length + (9 + K.length + V.length + 4)) % 2 ^ 32
      = pre.length + (9 + K.length + V.length + 4) := Nat.mod_eq_of_lt (by omega)
  have hku : beUint32 (beBytes 4 K.length) = some K.length := beUint32_beBytes _ (by omega)
  have hvu : beUint32 (beBytes 4 V.length) = some V.length := beUint32_beBytes _ (by omega)
  have hcu : ∃ c, beUint32 (beBytes 4 crc) = some c := by
    unfold beUint32
    simp [beBytes_length]
  obtain ⟨c, hc⟩ := hcu
  rw [readAllLoop]
  simp only [hn, m1, m5, m9, hget, hkl, hvl, hku, hvu, Option.bind_eq_bind, Option.some_bind,
    Option.bind_some, ml, mo, mk, mv, hkey, hval, hcrc, hc, hb, Option.map_some']
  have c1 : ¬ ¬ pre.length < buffer.length := by omega
  have c2 : ¬ pre.length + 9 > buffer.length := by omega
  have c3 : ¬ (K.length > 10 * 1024 * 1024 ∨ V.length > 100 * 1024 * 1024) := by omega
  have c4 : ¬ pre.length + (9 + K.length + V.length + 4) > buffer.length := by omega
  have e1 : pre.length + (9 + K.length + V.length + 4) = pre.length + (r.stored crc).length := by
    omega
  rw [if_neg c1, if_neg c2, if_neg c3, if_neg c4, Byte.val_ofNat, e1]
  unfold Record.apply
  rw [hK, hV]
  by_cases hd : r.RecordType % 256 = RecordTypeDelete
  · rw [if_pos hd, if_pos hd]
  · rw [if_neg hd, if_neg hd]
    rfl

theorem walFrames_cons (f : Record × Nat) (frames : List (Record × Nat)) :
    walFrames (f :: frames) = f.1.stored f.2 ++ walFrames frames := by
  simp [walFrames]

theorem walFrames_length_ge (frames : List (Record × Nat)) :
    frames.length ≤ (walFrames frames).length := by
  induction frames with
  | nil => simp [walFrames]
  | cons f frames ih =>
    rw [walFrames_cons, List.length_append, Record.stored_length, List.length_cons]
    omega

theorem walFrames_checksum (records : List Record) :
    walFrames (records.map (fun r => (r, crc32ChecksumIEEE r.body))) = walBytes records := by
  simp [walFrames, walBytes, Record.stored_checksum, Function.comp_def]

/-- The replay loop over complete records within the limits, whatever their
checksum fields hold, followed by any tail, in a file shorter than `2^32`
bytes: the loop applies the records in file order and arrives at the tail. -/
theorem readAllLoop_frames (frames : List (Record × Nat)) (pre tail : Bytes)
    (memTable : BTreeMemTable) (fuel : Nat)
    (hsize : ∀ f ∈ frames, (f.1.Key.getD []).length ≤ 10 * 1024 * 1024
      ∧ (f.1.Value.getD []).length ≤ 100 * 1024 * 1024)
    (hlen : (pre ++ walFrames frames ++ tail).length < 2 ^ 32) :
    readAllLoop (pre ++ walFrames frames ++ tail) (fuel + frames.length) pre.length memTable
      = readAllLoop (pre ++ walFrames frames ++ tail) fuel
          (pre.length + (walFrames frames).length)
          (frames.foldl (fun m f => f.1.apply m) memTable) := by
  induction frames generalizing pre memTable with
  | nil => simp [walFrames]
  | cons f frames ih =>
    have hf := hsize f (List.mem_cons_self _ _)
    rw [walFrames_cons, ← List.append_assoc] at hlen ⊢
    rw [List.append_assoc (pre ++ f.1.stored f.2)] at hlen ⊢
    rw [List.length_cons, ← Nat.add_assoc,
      readAllLoop_step_stored f.1 f.2 pre (walFrames frames ++ tail) memTable _ hf.1 hf.2 hlen]
    rw [← List.append_assoc] at hlen ⊢
    have := ih (pre ++ f.1.stored f.2) (f.1.apply memTable)
      (fun f' hf' => hsize f' (List.mem_cons_of_mem _ hf')) hlen
    rw [List.length_append] at this
    rw [this]
    simp [List.length_append, Nat.add_assoc]

/-- The replay loop at the end of a file shorter than `2^32` bytes. -/
theorem readAllLoop_end (buffer : Bytes) (memTable : BTreeMemTable) (fuel : Nat)
    (hlen : buffer.length < 2 ^ 32) :
    readAllLoop buffer (fuel + 1) buffer.length memTable = some (buffer.length, memTable, none) := by
  rw [readAllLoop]
  have hn : buffer.length % 2 ^ 32 = buffer.length := Nat.mod_eq_of_lt hlen
  simp only [hn, Nat.lt_irrefl, not_false_eq_true, if_true]

theorem Wal.ReadAll_of_loop (w : Wal) (dir : Dir) (buffer : Bytes) (memTable memTable' : BTreeMemTable)
    (offset : Nat) (hopen : w.closed = false) (hfile : dir.read w.filePath = some buffer)
    (hloop : readAllLoop buffer (buffer.length + 1) 0 memTable = some (offset, memTable', none)) :
    w.ReadAll dir memTable = some ({ w with offset := offset }, memTable', none) := by
  unfold Wal.ReadAll
  simp only [hopen, Bool.false_eq_true, if_false, hfile, Option.getD_some, hloop]

/-- `ReadAll` on a file of complete records within the limits, whatever their
checksum fields hold, shorter than `2^32` bytes. -/
theorem Wal.ReadAll_frames (w : Wal) (dir : Dir) (frames : List (Record × Nat))
    (memTable : BTreeMemTable) (hopen : w.closed = false)
    (hfile : dir.read w.filePath = some (walFrames frames))
    (hsize : ∀ f ∈ frames, (f.1.Key.getD []).length ≤ 10 * 1024 * 1024
      ∧ (f.1.Value.getD []).length ≤ 100 * 1024 * 1024)
    (hlen : (walFrames frames).length < 2 ^ 32) :
    w.ReadAll dir memTable
      = some ({ w with offset := (walFrames frames).length },
              frames.foldl (fun m f => f.1.apply m) memTable, none) := by
  apply Wal.ReadAll_of_loop w dir _ memTable _ _ hopen hfile
  have hge := walFrames_length_ge frames
  obtain ⟨f, hf⟩ : ∃ f, (walFrames frames).length + 1 = (f + 1) + frames.length :=
    ⟨(walFrames frames).length - frames.length, by omega⟩
  have := readAllLoop_frames frames [] [] memTable (f + 1) hsize (by simpa using hlen)
  simp only [List.nil_append, List.append_nil, List.length_nil, Nat.zero_add] at this
  rw [hf, this]
  exact readAllLoop_end _ _ _ hlen

/-- One round of the replay loop where fewer than nine bytes remain: the loop
stops and applies nothing. -/
theorem readAllLoop_short_tail (buffer : Bytes) (offset : Nat) (memTable : BTreeMemTable)
    (fuel : Nat) (hlen : offset + 9 < 2 ^ 32) (h9 : buffer.length < offset + 9) :
    readAllLoop buffer (fuel + 1) offset memTable = some (offset, memTable, none) := by
  rw [readAllLoop]
  have hn : buffer.length % 2 ^ 32 = buffer.length := Nat.mod_eq_of_lt (by omega)
  simp only [hn]
  by_cases h : offset < buffer.length
  · have h32 : (2 : Nat) ^ 32 = 4294967296 := by norm_num
    have m9 : (offset + 9) % 2 ^ 32 = offset + 9 := Nat.mod_eq_of_lt (by omega)
    have c1 : ¬ ¬ offset < buffer.length := by omega
    rw [if_neg c1, m9, if_pos (by omega)]
  · rw [if_pos h]

/-- One round of the replay loop at a header that declares a key longer than
10 MiB or a value longer than 100 MiB: the loop stops and applies nothing. -/
theorem readAllLoop_oversize (t : Byte) (klen vlen : Nat) (pre tail : Bytes)
    (memTable : BTreeMemTable) (fuel : Nat)
    (hk : klen < 2 ^ 32) (hv : vlen < 2 ^ 32)
    (hover : klen > 10 * 1024 * 1024 ∨ vlen > 100 * 1024 * 1024)
    (hlen : (pre ++ ([t] ++ beBytes 4 klen ++ beBytes 4 vlen) ++ tail).length < 2 ^ 32) :
    readAllLoop (pre ++ ([t] ++ beBytes 4 klen ++ beBytes 4 vlen) ++ tail) (fuel + 1)
      pre.length memTable = some (pre.length, memTable, none) := by
  generalize hbuf : pre ++ ([t] ++ beBytes 4 klen ++ beBytes 4 vlen) ++ tail = buffer at hlen ⊢
  have hblen : buffer.length = pre.length + 9 + tail.length := by
    rw [← hbuf]; simp [List.length_append, beBytes_length]; omega
  have hn : buffer.length % 2 ^ 32 = buffer.length := Nat.mod_eq_of_lt hlen
  have hget : buffer.get? pre.length = some t := by
    rw [← hbuf, List.get?_eq_getElem?]
    simp only [List.append_assoc, List.singleton_append]
    rw [List.getElem?_append_right (le_refl _)]
    simp
  have hkl : goSlice buffer (pre.length + 1) (pre.length + 5) = some (beBytes 4 klen) := by
    rw [← hbuf]
    have := goSlice_mid (pre ++ [t]) (beBytes 4 klen) (beBytes 4 vlen ++ tail)
      (pre.length + 1) (pre.length + 5) (by simp) (by simp [beBytes_length])
    simpa [List.append_assoc] using this
  have hvl : goSlice buffer (pre.length + 5) (pre.length + 9) = some (beBytes 4 vlen) := by
    rw [← hbuf]
    have := goSlice_mid (pre ++ [t] ++ beBytes 4 klen) (beBytes 4 vlen) tail
      (pre.length + 5) (pre.length + 9) (by simp [beBytes_length]) (by simp [beBytes_length])
    simpa [List.append_assoc] using this
  have m1 : (pre.length + 1) % 2 ^ 32 = pre.length + 1 := Nat.mod_eq_of_lt (by omega)
  have m5 : (pre.length + 5) % 2 ^ 32 = pre.length + 5 := Nat.mod_eq_of_lt (by omega)
  have m9 : (pre.length + 9) % 2 ^ 32 = pre.length + 9 := Nat.mod_eq_of_lt (by omega)
  have hku : beUint32 (beBytes 4 klen) = some klen := beUint32_beBytes _ hk
  have hvu : beUint32 (beBytes 4 vlen) = some vlen := beUint32_beBytes _ hv
  rw [readAllLoop]
  simp only [hn, m1, m5, m9, hget, hkl, hvl, hku, hvu, Option.bind_eq_bind, Option.some_bind,
    Option.bind_some]
  have c1 : ¬ ¬ pre.length < buffer.length := by omega
  have c2 : ¬ pre.length + 9 > buffer.length := by omega
  rw [if_neg c1, if_neg c2, if_pos hover]

theorem Record.Encode_header (r : Record) : r.Encode
    = ([Fin.ofNat r.RecordType] ++ beBytes 4 (r.Key.getD []).length
        ++ beBytes 4 (r.Value.getD []).length)
      ++ (r.Key.getD [] ++ r.Value.getD [] ++ beBytes 4 (crc32ChecksumIEEE r.body)) := by
  simp [Record.Encode, Record.body]

/-- A prefix of at least nine bytes of an encoded record starts with the
header of the record. -/
theorem prefix_Encode_header (r : Record) (tail : Bytes) (hpre : tail <+: r.Encode)
    (h9 : 9 ≤ tail.length) :
    tail = ([Fin.ofNat r.RecordType] ++ beBytes 4 (r.Key.getD []).length
        ++ beBytes 4 (r.Value.getD []).length) ++ tail.drop 9 := by
  obtain ⟨s, hs⟩ := hpre
  have h1 : tail.take 9 = r.Encode.take 9 := by
    rw [← hs, List.take_append_of_le_length h9]
  have h2 : r.Encode.take 9 = [Fin.ofNat r.RecordType] ++ beBytes 4 (r.Key.getD []).length
      ++ beBytes 4 (r.Value.getD []).length := by
    rw [Record.Encode_header, List.take_append_of_le_length (by simp [beBytes_length])]
    rw [List.take_of_length_le (by simp [beBytes_length])]
  rw [← h2, ← h1, List.take_append_drop]

/-- The replay loop at a tail that is a strict prefix of an encoded record,
where the file with that record complete would be shorter than `2^32` bytes:
the loop stops and applies nothing. -/
theorem readAllLoop_torn (r : Record) (pre tail : Bytes) (memTable : BTreeMemTable) (fuel : Nat)
    (hpre : tail <+: r.Encode) (hne : tail ≠ r.Encode)
    (hlen : (pre ++ r.Encode).length < 2 ^ 32) :
    readAllLoop (pre ++ tail) (fuel + 1) pre.length memTable
      = some (pre.length, memTable, none) := by
  have hE := Record.Encode_length r
  have hlt : tail.length < r.Encode.length := by
    rcases Nat.lt_or_ge tail.length r.Encode.length with h | h
    · exact h
    · exact absurd (hpre.eq_of_length (Nat.le_antisymm hpre.length_le h)) hne
  rw [List.length_append] at hlen
  have h32 : (2 : Nat) ^ 32 = 4294967296 := by norm_num
  by_cases h9 : 9 ≤ tail.length
  · have hdec := prefix_Encode_header r tail hpre h9
    have hdl : (tail.drop 9).length = tail.length - 9 := List.length_drop _ _
    generalize tail.drop 9 = rest at hdec hdl
    have hbl : (pre ++ ([Fin.ofNat r.RecordType] ++ beBytes 4 (r.Key.getD []).length
        ++ beBytes 4 (r.Value.getD []).length) ++ rest).length = pre.length + tail.length := by
      rw [List.append_assoc, ← hdec, List.length_append]
    have hgoal : pre ++ tail = pre ++ ([Fin.ofNat r.RecordType]
        ++ beBytes 4 (r.Key.getD []).length ++ beBytes 4 (r.Value.getD []).length) ++ rest := by
      rw [List.append_assoc, ← hdec]
    rw [hgoal]
    by_cases hover : (r.Key.getD []).length > 10 * 1024 * 1024
        ∨ (r.Value.getD []).length > 100 * 1024 * 1024
    · exact readAllLoop_oversize _ _ _ pre rest memTable fuel (by omega) (by omega) hover
        (by rw [hbl]; omega)
    · have hmod : (pre.length + tail.length) % 2 ^ 32 = pre.length + tail.length :=
        Nat.mod_eq_of_lt (by omega)
      have hmod2 : (pre.length + (9 + (r.Key.getD []).length + (r.Value.getD []).length + 4))
          % 2 ^ 32 = pre.length + (9 + (r.Key.getD []).length + (r.Value.getD []).length + 4) :=
        Nat.mod_eq_of_lt (by omega)
      exact readAllLoop_incomplete _ _ _ pre rest memTable fuel (by omega) (by omega)
        (by rw [hbl, hmod]; omega) (by rw [hbl, hmod, hmod2]; omega)
  · have := readAllLoop_short_tail (pre ++ tail) pre.length memTable fuel
      (by omega) (by rw [List.length_append]; omega)
    exact this

/-! ## Theorems: `ReadAll` -/

/-- C16. For an open WAL handle whose file, shorter than `2^32` bytes, is the
concatenation of the encodings of records with keys of at most 10 MiB and
values of at most 100 MiB, `ReadAll` into a memtable returns nil, leaves the
memtable as the records applied in file order leave it (`Put` of the key and
value for a record of type Put, `Delete` of the key with its result ignored
for a record of type Delete; the key and the value of a record are the bytes
its encoding carries) and sets the size of the handle to the file length. -/
theorem ReadAll_applies_records (w : Wal) (dir : Dir) (records : List Record)
    (memTable : BTreeMemTable) (hopen : w.closed = false)
    (hfile : dir.read w.filePath = some (walBytes records))
    (hsize : ∀ r ∈ records, (r.Key.getD []).length ≤ 10 * 1024 * 1024
      ∧ (r.Value.getD []).length ≤ 100 * 1024 * 1024)
    (hlen : (walBytes records).length < 2 ^ 32) :
    ∃ w', w.ReadAll dir memTable = some (w', records.foldl Record.apply memTable, none)
      ∧ w'.Size = (walBytes records).length :=
  ⟨_, Wal.ReadAll_records w dir records memTable hopen hfile hsize hlen, rfl⟩

set_option maxRecDepth 100000 in
/-- C16 at the file of `Put("a", "1")`, `Delete("a")`, `Put("b", "2")`, replayed
into a memtable that holds `"c"`. -/
theorem ReadAll_applies_records_witness :
    ∃ w', (Wal.mk (walName 0) 0 false).ReadAll [(walName 0, walBytes sampleRecords)]
          (NewBTreeMemTable.Put (some (ascii "c")) (some (ascii "3"))).1
        = some (w', sampleRecords.foldl Record.apply
            (NewBTreeMemTable.Put (some (ascii "c")) (some (ascii "3"))).1, none)
      ∧ w'.Size = (walBytes sampleRecords).length :=
  ReadAll_applies_records (Wal.mk (walName 0) 0 false) [(walName 0, walBytes sampleRecords)]
    sampleRecords _ rfl (by simp [Dir.read]) (by decide) (by decide)

theorem foldl_apply_frames (records : List Record) (memTable : BTreeMemTable) :
    (records.map (fun r => (r, crc32ChecksumIEEE r.body))).foldl (fun m f => f.1.apply m) memTable
      = records.foldl Record.apply memTable := by
  rw [List.foldl_map]

/-- The replay loop over complete records within the limits followed by any
tail. -/
theorem readAllLoop_records_tail (records : List Record) (tail : Bytes)
    (memTable : BTreeMemTable)
    (hsize : ∀ r ∈ records, (r.Key.getD []).length ≤ 10 * 1024 * 1024
      ∧ (r.Value.getD []).length ≤ 100 * 1024 * 1024)
    (hlen : (walBytes records ++ tail).length < 2 ^ 32) :
    ∃ fuel, readAllLoop (walBytes records ++ tail) ((walBytes records ++ tail).length + 1) 0
        memTable
      = readAllLoop (walBytes records ++ tail) (fuel + 1) (walBytes records).length
          (records.foldl Record.apply memTable) := by
  have hge := walBytes_length_ge records
  refine ⟨(walBytes records ++ tail).length - records.length, ?_⟩
  have hf : (walBytes records ++ tail).length + 1
      = ((walBytes records ++ tail).length - records.length + 1) + records.length := by
    rw [List.length_append]; omega
  have := readAllLoop_frames (records.map (fun r => (r, crc32ChecksumIEEE r.body))) [] tail
    memTable ((walBytes records ++ tail).length - records.length + 1)
    (by
      intro f hf
      obtain ⟨r, hr, rfl⟩ := List.mem_map.mp hf
      exact hsize r hr)
    (by rw [walFrames_checksum]; simpa using hlen)
  rw [walFrames_checksum, foldl_apply_frames, List.length_map] at this
  simp only [List.nil_append, List.length_nil, Nat.zero_add] at this
  rw [hf, this]

/-- C17, amended. For an open WAL handle whose file is made of complete
records with keys of at most 10 MiB and values of at most 100 MiB, followed by
a tail that is either a strict prefix of one more encoded record, where the
file with that record complete would be shorter than `2^32` bytes, or starts
with a header that declares a key longer than 10 MiB or a value longer than
100 MiB, in a file shorter than `2^32` bytes: `ReadAll` returns nil, leaves the
memtable as the complete records leave it and sets the size of the handle to
the byte length of those records. -/
theorem ReadAll_stops_at_torn_tail (w : Wal) (dir : Dir) (records : List Record) (tail : Bytes)
    (memTable : BTreeMemTable) (hopen : w.closed = false)
    (hfile : dir.read w.filePath = some (walBytes records ++ tail))
    (hsize : ∀ r ∈ records, (r.Key.getD []).length ≤ 10 * 1024 * 1024
      ∧ (r.Value.getD []).length ≤ 100 * 1024 * 1024)
    (htail : (∃ r : Record, tail <+: r.Encode ∧ tail ≠ r.Encode
        ∧ (walBytes records ++ r.Encode).length < 2 ^ 32)
      ∨ (∃ (t : Byte) (klen vlen : Nat) (rest : Bytes),
          tail = [t] ++ beBytes 4 klen ++ beBytes 4 vlen ++ rest
          ∧ klen < 2 ^ 32 ∧ vlen < 2 ^ 32
          ∧ (klen > 10 * 1024 * 1024 ∨ vlen > 100 * 1024 * 1024)
          ∧ (walBytes records ++ tail).length < 2 ^ 32)) :
    ∃ w', w.ReadAll dir memTable = some (w', records.foldl Record.apply memTable, none)
      ∧ w'.Size = (walBytes records).length := by
  refine ⟨{ w with offset := (walBytes records).length }, ?_, rfl⟩
  apply Wal.ReadAll_of_loop w dir _ memTable _ _ hopen hfile
  rcases htail with ⟨r, hpre, hne, hlen⟩ | ⟨t, klen, vlen, rest, htl, hk, hv, hover, hlen⟩
  · have hfl : (walBytes records ++ tail).length < 2 ^ 32 := by
      have := hpre.length_le
      rw [List.length_append] at hlen ⊢
      omega
    obtain ⟨fuel, hrun⟩ := readAllLoop_records_tail records tail memTable hsize hfl
    rw [hrun]
    exact readAllLoop_torn r (walBytes records) tail _ fuel hpre hne hlen
  · obtain ⟨fuel, hrun⟩ := readAllLoop_records_tail records tail memTable hsize hlen
    rw [hrun]
    rw [htl, ← List.append_assoc] at hlen ⊢
    exact readAllLoop_oversize t klen vlen (walBytes records) rest _ fuel hk hv hover hlen

set_option maxRecDepth 100000 in
/-- C17, amended, at the file of `Put("a", "1")`, `Delete("a")`, `Put("b", "2")`
followed by the first eleven bytes of the record `Put("k", "v")`. -/
theorem ReadAll_stops_at_torn_tail_witness :
    ∃ w', (Wal.mk (walName 0) 0 false).ReadAll
          [(walName 0, walBytes sampleRecords
            ++ (NewRecord (some (ascii "k")) (some (ascii "v"))).Encode.take 11)]
          NewBTreeMemTable
        = some (w', sampleRecords.foldl Record.apply NewBTreeMemTable, none)
      ∧ w'.Size = (walBytes sampleRecords).length :=
  ReadAll_stops_at_torn_tail (Wal.mk (walName 0) 0 false) _ sampleRecords
    ((NewRecord (some (ascii "k")) (some (ascii "v"))).Encode.take 11) _ rfl
    (by simp [Dir.read]) (by decide)
    (Or.inl ⟨NewRecord (some (ascii "k")) (some (ascii "v")), List.take_prefix _ _, by decide,
      by decide⟩)

/-- C18, amended. For an open WAL handle whose file, shorter than `2^32`
bytes, holds complete records with keys of at most 10 MiB and values of at most 100 MiB,
each stored with any checksum field, equal to the CRC-32 of its header, key
and value or not: `ReadAll` returns nil and applies every record in file order,
the ones with a differing checksum and the ones after them included. -/
theorem ReadAll_applies_despite_crc_mismatch (w : Wal) (dir : Dir)
    (frames : List (Record × Nat)) (memTable : BTreeMemTable) (hopen : w.closed = false)
    (hfile : dir.read w.filePath = some (walFrames frames))
    (hsize : ∀ f ∈ frames, (f.1.Key.getD []).length ≤ 10 * 1024 * 1024
      ∧ (f.1.Value.getD []).length ≤ 100 * 1024 * 1024)
    (hlen : (walFrames frames).length < 2 ^ 32) :
    ∃ w', w.ReadAll dir memTable
      = some (w', (frames.map Prod.fst).foldl Record.apply memTable, none) := by
  refine ⟨{ w with offset := (walFrames frames).length }, ?_⟩
  rw [Wal.ReadAll_frames w dir frames memTable hopen hfile hsize hlen, List.foldl_map]

set_option maxRecDepth 100000 in
/-- C18, amended, at the file of `Put("a", "1")` stored with the checksum
field zero, which is not its checksum, followed by `Put("b", "2")` with its checksum. -/
theorem ReadAll_applies_despite_crc_mismatch_witness :
    beBytes 4 0 ≠ beBytes 4 (crc32ChecksumIEEE (putRecord (ascii "a", ascii "1")).body)
    ∧ ∃ w', (Wal.mk (walName 0) 0 false).ReadAll
        [(walName 0, walFrames [(putRecord (ascii "a", ascii "1"), 0),
          (putRecord (ascii "b", ascii "2"),
            crc32ChecksumIEEE (putRecord (ascii "b", ascii "2")).body)])]
        NewBTreeMemTable
      = some (w', ([(putRecord (ascii "a", ascii "1"), 0),
          (putRecord (ascii "b", ascii "2"),
            crc32ChecksumIEEE (putRecord (ascii "b", ascii "2")).body)].map Prod.fst).foldl
          Record.apply NewBTreeMemTable, none) :=
  ⟨by decide,
    ReadAll_applies_despite_crc_mismatch (Wal.mk (walName 0) 0 false) _
      [(putRecord (ascii "a", ascii "1"), 0),
        (putRecord (ascii "b", ascii "2"),
          crc32ChecksumIEEE (putRecord (ascii "b", ascii "2")).body)] _ rfl
      (by simp [Dir.read]) (by decide) (by decide)⟩

/-- C19, amended. Replay does not stop at a record corrupted by a CRC
mismatch: for an open WAL handle whose file, shorter than `2^32` bytes, holds
complete records with keys of at most 10 MiB and values of at most 100 MiB, of
which one is stored with a checksum field that differs from its checksum,
`ReadAll` returns nil, applies that record and the records after it like the
ones before it, and sets the size of the handle to the file length. -/
theorem ReadAll_continues_past_corrupted_record (w : Wal) (dir : Dir)
    (before after : List Record) (r : Record) (crc : Nat) (memTable : BTreeMemTable)
    (hopen : w.closed = false)
    (_hcrc : beBytes 4 crc ≠ beBytes 4 (crc32ChecksumIEEE r.body))
    (hfile : dir.read w.filePath = some (walBytes before ++ r.stored crc ++ walBytes after))
    (hsize : ∀ x ∈ before ++ r :: after, (x.Key.getD []).length ≤ 10 * 1024 * 1024
      ∧ (x.Value.getD []).length ≤ 100 * 1024 * 1024)
    (hlen : (walBytes before ++ r.stored crc ++ walBytes after).length < 2 ^ 32) :
    ∃ w', w.ReadAll dir memTable
        = some (w', (before ++ r :: after).foldl Record.apply memTable, none)
      ∧ w'.Size = (walBytes before ++ r.stored crc ++ walBytes after).length := by
  have hframes : walBytes before ++ r.stored crc ++ walBytes after
      = walFrames (before.map (fun x => (x, crc32ChecksumIEEE x.body)) ++ (r, crc)
          :: after.map (fun x => (x, crc32ChecksumIEEE x.body))) := by
    simp only [walFrames, List.map_append, List.map_cons, List.flatten_append, List.flatten_cons,
      List.append_assoc]
    rw [← walFrames, ← walFrames, walFrames_checksum, walFrames_checksum]
  rw [hframes] at hfile hlen ⊢
  have hfr : ∀ f ∈ before.map (fun x => (x, crc32ChecksumIEEE x.body)) ++ (r, crc)
      :: after.map (fun x => (x, crc32ChecksumIEEE x.body)),
      (f.1.Key.getD []).length ≤ 10 * 1024 * 1024
      ∧ (f.1.Value.getD []).length ≤ 100 * 1024 * 1024 := by
    intro f hf
    rcases List.mem_append.mp hf with h | h
    · obtain ⟨x, hx, rfl⟩ := List.mem_map.mp h
      exact hsize x (List.mem_append_left _ hx)
    · rcases List.mem_cons.mp h with h | h
      · rw [h]
        exact hsize r (List.mem_append_right _ (List.mem_cons_self _ _))
      · obtain ⟨x, hx, rfl⟩ := List.mem_map.mp h
        exact hsize x (List.mem_append_right _ (List.mem_cons_of_mem _ hx))
  refine ⟨{ w with offset := (walFrames (before.map (fun x => (x, crc32ChecksumIEEE x.body))
    ++ (r, crc) :: after.map (fun x => (x, crc32ChecksumIEEE x.body)))).length }, ?_, rfl⟩
  rw [Wal.ReadAll_frames w dir _ memTable hopen hfile hfr hlen]
  simp only [List.foldl_append, List.foldl_cons, List.foldl_map]

/-! ## Theorems: torn tails near `2^32` bytes and oversize records -/

set_option maxRecDepth 100000 in
/-- C19 at the file of `Put("a", "1")`, then `Put("b", "2")` stored with the
checksum field zero, then `Put("c", "3")`. -/
theorem ReadAll_continues_past_corrupted_record_witness :
    ∃ w', (Wal.mk (walName 0) 0 false).ReadAll
        [(walName 0, walBytes [putRecord (ascii "a", ascii "1")]
          ++ (putRecord (ascii "b", ascii "2")).stored 0
          ++ walBytes [putRecord (ascii "c", ascii "3")])] NewBTreeMemTable
        = some (w', ([putRecord (ascii "a", ascii "1")] ++ putRecord (ascii "b", ascii "2")
            :: [putRecord (ascii "c", ascii "3")]).foldl Record.apply NewBTreeMemTable, none)
      ∧ w'.Size = (walBytes [putRecord (ascii "a", ascii "1")]
          ++ (putRecord (ascii "b", ascii "2")).stored 0
          ++ walBytes [putRecord (ascii "c", ascii "3")]).length :=
  ReadAll_continues_past_corrupted_record (Wal.mk (walName 0) 0 false) _
    [putRecord (ascii "a", ascii "1")] [putRecord (ascii "c", ascii "3")]
    (putRecord (ascii "b", ascii "2")) 0 NewBTreeMemTable rfl (by decide)
    (by simp [Dir.read]) (by decide) (by decide)

set_option maxRecDepth 100000 in
/-- C19 as stated fails: in the file of `Put("a", "1")` stored with the checksum
field zero, which is not its checksum, followed by `Put("b", "2")`, record 1 is
corrupted by a CRC mismatch, and `ReadAll` returns nil with both records
applied and the size 30, the length of the file, not with no record applied and
the size 0. -/
theorem ReadAll_does_not_stop_at_crc_mismatch :
    beBytes 4 0 ≠ beBytes 4 (crc32ChecksumIEEE (putRecord (ascii "a", ascii "1")).body)
    ∧ (Wal.mk (walName 0) 0 false).ReadAll
        [(walName 0, (putRecord (ascii "a", ascii "1")).stored 0
          ++ (putRecord (ascii "b", ascii "2")).Encode)] NewBTreeMemTable
      = some (Wal.mk (walName 0) 30 false,
          BTreeMemTable.mk [KVItem.mk (ascii "a") (ascii "1"), KVItem.mk (ascii "b") (ascii "2")],
          none) := by
  refine ⟨by decide, by decide⟩

theorem Dir.read_single (name : String) (data : Bytes) :
    Dir.read [(name, data)] name = some data := by
  simp [Dir.read]

/-- The memtable after the replay of `n + 1` copies of a `Put` record holds
its key with its value. -/
theorem foldl_apply_replicate (n : Nat) (k v : Bytes) :
    ((List.replicate (n + 1) (putRecord (k, v))).foldl Record.apply NewMemTableConstructor).Get
      (some k) = .ok v := by
  rw [List.replicate_succ', List.foldl_append, List.foldl_cons, List.foldl_nil,
    Record.apply_putRecord, BTreeMemTable.Get_Put]
  simp

/-- A file of 41 records of a 100 MiB value is longer than `2^32` bytes:
`ReadAll` applies none of its records. -/
theorem longWal_not_replayed (v : Bytes) (hv : v.length = 104857600) :
    (walBytes ((longPuts v).map putRecord)).length = 4299162133
    ∧ (Wal.mk (walName 0) 0 false).ReadAll
        [(walName 0, walBytes ((longPuts v).map putRecord) ++ [])] NewMemTableConstructor
      = some (Wal.mk (walName 0) 0 false, NewMemTableConstructor, none)
    ∧ (((longPuts v).map putRecord).foldl Record.apply NewMemTableConstructor).Get (some [])
      = .ok v := by
  refine ⟨longWal_length v hv, ?_, ?_⟩
  · rw [List.append_nil]
    exact longWal_ReadAll v hv
  · unfold longPuts
    rw [List.map_replicate]
    exact foldl_apply_replicate 40 [] v

/-- A file that holds one complete record with a key of 10 MiB and one byte:
`ReadAll` does not apply it. -/
theorem oversize_record_not_replayed (k : Bytes) (hk : k.length = 10485761) :
    (Wal.mk (walName 0) 0 false).ReadAll [(walName 0, walBytes [putRecord (k, [])] ++ [])]
        NewMemTableConstructor
      = some (Wal.mk (walName 0) 0 false, NewMemTableConstructor, none)
    ∧ ([putRecord (k, [])].foldl Record.apply NewMemTableConstructor).Get (some k) = .ok [] := by
  constructor
  · apply Wal.ReadAll_of_loop (Wal.mk (walName 0) 0 false) _
      (walBytes [putRecord (k, [])] ++ []) _ _ _ rfl (Dir.read_single _ _)
    have hform : walBytes [putRecord (k, [])] ++ []
        = [] ++ ([Fin.ofNat 0] ++ beBytes 4 k.length ++ beBytes 4 0)
          ++ (k ++ beBytes 4 (crc32ChecksumIEEE (putRecord (k, [])).body)) := by
      simp [walBytes, Record.Encode, Record.body, putRecord, NewRecord, RecordTypePut]
    have hlen : (walBytes [putRecord (k, [])] ++ []).length = 10485774 := by
      rw [List.append_nil, walBytes_cons, walBytes, List.map_nil, List.flatten_nil,
        List.append_nil, Record.Encode_length]
      simp [putRecord, NewRecord, hk]
    rw [hform] at hlen ⊢
    exact readAllLoop_oversize _ _ _ [] _ _ _ (by rw [hk]; norm_num) (by norm_num)
      (Or.inl (by rw [hk]; norm_num)) (by rw [hlen]; norm_num)
  · rw [List.foldl_cons, List.foldl_nil, Record.apply_putRecord, BTreeMemTable.Get_Put]
    simp

/-- One round of the replay loop at a header, the last nine bytes of the file,
whose declared value would end at or beyond `2^32`: the end of the record
wraps around, the completeness check passes, and the slice expression for the
value panics. -/
theorem readAllLoop_wrap_panic (t : Byte) (vlen : Nat) (pre : Bytes) (memTable : BTreeMemTable)
    (fuel : Nat) (hlen : pre.length + 9 < 2 ^ 32) (hv : vlen ≤ 100 * 1024 * 1024)
    (hwrap : 2 ^ 32 ≤ pre.length + 9 + vlen) :
    readAllLoop (pre ++ ([t] ++ beBytes 4 0 ++ beBytes 4 vlen) ++ []) (fuel + 1) pre.length
      memTable = none := by
  generalize hbuf : pre ++ ([t] ++ beBytes 4 0 ++ beBytes 4 vlen) ++ [] = buffer
  have hblen : buffer.length = pre.length + 9 := by
    rw [← hbuf]; simp [List.length_append, beBytes_length]
  have h32 : (2 : Nat) ^ 32 = 4294967296 := by norm_num
  rw [h32] at hlen hwrap
  have hn : buffer.length % 2 ^ 32 = buffer.length := Nat.mod_eq_of_lt (by omega)
  have hget : buffer.get? pre.length = some t := by
    rw [← hbuf, List.get?_eq_getElem?]
    simp only [List.append_assoc, List.singleton_append]
    rw [List.getElem?_append_right (le_refl _)]
    simp
  have hkl : goSlice buffer (pre.length + 1) (pre.length + 5) = some (beBytes 4 0) := by
    rw [← hbuf]
    have := goSlice_mid (pre ++ [t]) (beBytes 4 0) (beBytes 4 vlen ++ [])
      (pre.length + 1) (pre.length + 5) (by simp) (by simp [beBytes_length])
    simpa [List.append_assoc] using this
  have hvl : goSlice buffer (pre.length + 5) (pre.length + 9) = some (beBytes 4 vlen) := by
    rw [← hbuf]
    have := goSlice_mid (pre ++ [t] ++ beBytes 4 0) (beBytes 4 vlen) []
      (pre.length + 5) (pre.length + 9) (by simp [beBytes_length]) (by simp [beBytes_length])
    simpa [List.append_assoc] using this
  have hkey : goSlice buffer (pre.length + 9) (pre.length + 9) = some [] := by
    unfold goSlice
    rw [if_pos ⟨le_refl _, by omega⟩]
    simp
  have hval : goSlice buffer (pre.length + 9) ((pre.length + 9 + vlen) % 2 ^ 32) = none := by
    unfold goSlice
    rw [if_neg]
    intro h
    omega
  have m1 : (pre.length + 1) % 2 ^ 32 = pre.length + 1 := Nat.mod_eq_of_lt (by omega)
  have m5 : (pre.length + 5) % 2 ^ 32 = pre.length + 5 := Nat.mod_eq_of_lt (by omega)
  have m9 : (pre.length + 9) % 2 ^ 32 = pre.length + 9 := Nat.mod_eq_of_lt (by omega)
  have ml : (9 + 0 + vlen + 4) % 2 ^ 32 = 9 + 0 + vlen + 4 := Nat.mod_eq_of_lt (by omega)
  have hku : beUint32 (beBytes 4 0) = some 0 := beUint32_beBytes _ (by norm_num)
  have hvu : beUint32 (beBytes 4 vlen) = some vlen := beUint32_beBytes _ (by omega)
  rw [readAllLoop]
  simp only [hn, m1, m5, m9, hget, hkl, hvl, hku, hvu, Option.bind_eq_bind, Option.some_bind,
    Option.bind_some, ml, Nat.add_zero, hkey, hval, Option.none_bind]
  have c1 : ¬ ¬ pre.length < buffer.length := by omega
  have c2 : ¬ pre.length + 9 > buffer.length := by omega
  have c3 : ¬ (0 > 10 * 1024 * 1024 ∨ vlen > 100 * 1024 * 1024) := by omega
  have c4 : ¬ (pre.length + (9 + 0 + vlen + 4)) % 2 ^ 32 > buffer.length := by omega
  rw [if_neg c1, if_neg c2, if_neg c3, if_neg c4]

/-- A file of 40 records of a 100 MiB value followed by the first nine bytes of
one more such record is shorter than `2^32` bytes, and `ReadAll` on it does not
return: the slice expression for the value of the torn record panics. -/
theorem torn_tail_panics (v : Bytes) (hv : v.length = 104857600) :
    (walBytes (List.replicate 40 (putRecord ([], v)))
        ++ (putRecord ([], v)).Encode.take 9).length = 4194304529
    ∧ (Wal.mk (walName 0) 0 false).ReadAll
        [(walName 0, walBytes (List.replicate 40 (putRecord ([], v)))
          ++ (putRecord ([], v)).Encode.take 9)] NewMemTableConstructor = none := by
  have hplen : (walBytes (List.replicate 40 (putRecord ([], v)))).length = 4194304520 := by
    rw [walBytes_replicate_length, Record.Encode_length]
    simp only [putRecord, NewRecord, Option.getD_some, List.length_nil, hv]
  have htake : (putRecord ([], v)).Encode.take 9
      = [Fin.ofNat 0] ++ beBytes 4 0 ++ beBytes 4 v.length := by
    rw [Record.Encode_header, List.take_append_of_le_length (by simp [beBytes_length]),
      List.take_of_length_le (by simp [beBytes_length])]
    simp [putRecord, NewRecord, RecordTypePut]
  have hflen : (walBytes (List.replicate 40 (putRecord ([], v)))
      ++ (putRecord ([], v)).Encode.take 9).length = 4194304529 := by
    rw [List.length_append, hplen, htake]
    simp [beBytes_length]
  refine ⟨hflen, ?_⟩
  have hsize : ∀ r ∈ List.replicate 40 (putRecord ([], v)),
      (r.Key.getD []).length ≤ 10 * 1024 * 1024
      ∧ (r.Value.getD []).length ≤ 100 * 1024 * 1024 := by
    intro r hr
    rw [List.eq_of_mem_replicate hr]
    simp [putRecord, NewRecord, hv]
  obtain ⟨fuel, hrun⟩ := readAllLoop_records_tail (List.replicate 40 (putRecord ([], v)))
    ((putRecord ([], v)).Encode.take 9) NewMemTableConstructor hsize (by rw [hflen]; norm_num)
  have hpanic := readAllLoop_wrap_panic (Fin.ofNat 0) v.length
    (walBytes (List.replicate 40 (putRecord ([], v))))
    ((List.replicate 40 (putRecord ([], v))).foldl Record.apply NewMemTableConstructor) fuel
    (by rw [hplen]; norm_num) (by rw [hv]) (by rw [hplen, hv]; norm_num)
  rw [List.append_nil, ← htake] at hpanic
  rw [hpanic] at hrun
  simp only [Wal.ReadAll, Bool.false_eq_true, if_false, Dir.read, List.find?_cons,
    beq_self_eq_true, Option.map_some', Option.getD_some, hrun]

theorem bigKey_length : bigKey.length = 10485761 := by
  unfold bigKey
  rw [List.length_replicate]

/-- C17 as stated fails on three files. (1) 41 complete records of a 100 MiB
value under the empty key, with the empty tail: the file is longer than `2^32`
bytes and `ReadAll` applies no record. (2) One complete record whose key has
10 MiB and one byte, with the empty tail: `ReadAll` does not apply it.
(3) 40 complete records of a 100 MiB value followed by the first nine bytes of
one more: the file is shorter than `2^32` bytes and `ReadAll` panics. -/
theorem ReadAll_torn_tail_fails :
    (bigValue.length = 100 * 1024 * 1024
      ∧ (walBytes ((longPuts bigValue).map putRecord)).length = 4299162133
      ∧ (Wal.mk (walName 0) 0 false).ReadAll
          [(walName 0, walBytes ((longPuts bigValue).map putRecord) ++ [])]
          NewMemTableConstructor
        = some (Wal.mk (walName 0) 0 false, NewMemTableConstructor, none)
      ∧ (((longPuts bigValue).map putRecord).foldl Record.apply NewMemTableConstructor).Get
          (some []) = .ok bigValue)
    ∧ (bigKey.length = 10 * 1024 * 1024 + 1
      ∧ (Wal.mk (walName 0) 0 false).ReadAll
          [(walName 0, walBytes [putRecord (bigKey, [])] ++ [])] NewMemTableConstructor
        = some (Wal.mk (walName 0) 0 false, NewMemTableConstructor, none)
      ∧ ([putRecord (bigKey, [])].foldl Record.apply NewMemTableConstructor).Get (some bigKey)
        = .ok [])
    ∧ ((walBytes (List.replicate 40 (putRecord ([], bigValue)))
          ++ (putRecord ([], bigValue)).Encode.take 9).length = 4194304529
      ∧ (Wal.mk (walName 0) 0 false).ReadAll
          [(walName 0, walBytes (List.replicate 40 (putRecord ([], bigValue)))
            ++ (putRecord ([], bigValue)).Encode.take 9)] NewMemTableConstructor = none) :=
  ⟨⟨bigValue_length, longWal_not_replayed bigValue bigValue_length⟩,
    ⟨bigKey_length, oversize_record_not_replayed bigKey bigKey_length⟩,
    torn_tail_panics bigValue bigValue_length⟩

/-- A file that holds one complete record with a key of 10 MiB and one byte,
stored with any checksum field: `ReadAll` does not apply it. -/
theorem oversize_stored_not_replayed (k : Bytes) (hk : k.length = 10485761) (crc : Nat) :
    (Wal.mk (walName 0) 0 false).ReadAll [(walName 0, (putRecord (k, [])).stored crc)]
        NewMemTableConstructor
      = some (Wal.mk (walName 0) 0 false, NewMemTableConstructor, none) := by
  apply Wal.ReadAll_of_loop (Wal.mk (walName 0) 0 false) _
    ((putRecord (k, [])).stored crc) _ _ _ rfl (Dir.read_single _ _)
  have hform : (putRecord (k, [])).stored crc
      = [] ++ ([Fin.ofNat 0] ++ beBytes 4 k.length ++ beBytes 4 0)
        ++ (k ++ beBytes 4 crc) := by
    simp [Record.stored, Record.body, putRecord, NewRecord, RecordTypePut]
  have hlen : ((putRecord (k, [])).stored crc).length = 10485774 := by
    rw [Record.stored_length]
    simp [putRecord, NewRecord, hk]
  rw [hform] at hlen ⊢
  exact readAllLoop_oversize _ _ _ [] _ _ _ (by rw [hk]; norm_num) (by norm_num)
    (Or.inl (by rw [hk]; norm_num)) (by rw [hlen]; norm_num)

/-- Of the checksum fields 0 and 1, one differs from a given checksum. -/
theorem beBytes_zero_or_one_ne (c : Nat) : beBytes 4 0 ≠ beBytes 4 c ∨ beBytes 4 1 ≠ beBytes 4 c := by
  by_cases h : beBytes 4 0 = beBytes 4 c
  · right
    rw [← h]
    decide
  · exact Or.inl h

/-- C18 as stated fails for a record above the size limits of the replay. The
file holds one complete record, the `Put` of a key of 10 MiB and one byte with
the empty value. Whatever its checksum field holds, `ReadAll` returns nil and
applies nothing, although the record applied would make `Get` return the empty
value for the key; and of the two files with the checksum fields 0 and 1, one
stores a CRC-32 that differs from the checksum of the record. -/
theorem ReadAll_drops_oversize_record_despite_crc_mismatch :
    bigKey.length = 10 * 1024 * 1024 + 1
    ∧ (∀ crc : Nat,
        (Wal.mk (walName 0) 0 false).ReadAll
            [(walName 0, (putRecord (bigKey, [])).stored crc)] NewMemTableConstructor
          = some (Wal.mk (walName 0) 0 false, NewMemTableConstructor, none))
    ∧ (beBytes 4 0 ≠ beBytes 4 (crc32ChecksumIEEE (putRecord (bigKey, [])).body)
        ∨ beBytes 4 1 ≠ beBytes 4 (crc32ChecksumIEEE (putRecord (bigKey, [])).body))
    ∧ ([putRecord (bigKey, [])].foldl Record.apply NewMemTableConstructor).Get (some bigKey)
        = .ok [] :=
  ⟨bigKey_length, fun crc => oversize_stored_not_replayed bigKey bigKey_length crc,
    beBytes_zero_or_one_ne _, (oversize_record_not_replayed bigKey bigKey_length).2⟩

/-! ## Theorems: a call that returns an error -/

set_option maxRecDepth 100000 in
/-- C20 fails on `Put(nil, "v")` on an engine opened on an empty directory with
the default configuration: the call returns an error and leaves the memtable
as it was, but the WAL file, empty before, holds the 14 bytes of its record
afterwards, and the replay of the file applies that record, so that the
reopened engine returns `"v"` for the empty key. The same holds between two
successful calls: the replay of the file yields three records for two calls
that returned nil. -/
theorem failed_Put_is_logged :
    (∃ l0 d0 l d l' d',
      NewLSM NewConfig emptyDisk = some (l0, d0)
      ∧ d0.walDir = [(walName 0, [])]
      ∧ l0.Put sampleEnv d0 none (some (ascii "v")) = (l, d, some GoError.memtablePutFailed)
      ∧ l.mutableMemtable = l0.mutableMemtable
      ∧ d.walDir = [(walName 0, (NewRecord none (some (ascii "v"))).Encode)]
      ∧ (NewRecord none (some (ascii "v"))).Encode.length = 14
      ∧ (∃ w w', l.currWal = some w
          ∧ w.ReadAll d.walDir NewMemTableConstructor
            = some (w', BTreeMemTable.mk [KVItem.mk [] (ascii "v")], none)
          ∧ w'.Size = 14)
      ∧ reopen l d = some (l', d')
      ∧ (l'.Get sampleEnv (some [])).map Prod.fst = some (some (ascii "v"), true, none))
    ∧ (∃ l0 d0 l1 d1 l2 d2 l3 d3,
      NewLSM NewConfig emptyDisk = some (l0, d0)
      ∧ l0.Put sampleEnv d0 (some (ascii "a")) (some (ascii "1")) = (l1, d1, none)
      ∧ l1.Put sampleEnv d1 none (some (ascii "v")) = (l2, d2, some GoError.memtablePutFailed)
      ∧ l2.Put sampleEnv d2 (some (ascii "b")) (some (ascii "2")) = (l3, d3, none)
      ∧ d3.walDir = [(walName 0, walBytes [NewRecord (some (ascii "a")) (some (ascii "1")),
          NewRecord none (some (ascii "v")), NewRecord (some (ascii "b")) (some (ascii "2"))])]) := by
  exact ⟨⟨_, _, _, _, _, _, rfl, rfl, rfl, rfl, rfl, by decide,
      ⟨_, Wal.mk (walName 0) 14 false, rfl, by decide, rfl⟩, rfl, by decide⟩,
    ⟨_, _, _, _, _, _, _, _, rfl, rfl, rfl, rfl, rfl⟩⟩

/-! ## Theorems: the bloom filter -/

theorem bitSet_or_self (w b : Nat) : (w ||| (1 <<< b)) &&& (1 <<< b) ≠ 0 := by
  rw [Nat.one_shiftLeft, Nat.and_two_pow]
  simp [Nat.testBit_or, Nat.testBit_two_pow_self]

theorem bitSet_or_mono (w x b : Nat) (h : w &&& (1 <<< b) ≠ 0) :
    (w ||| x) &&& (1 <<< b) ≠ 0 := by
  rw [Nat.one_shiftLeft, Nat.and_two_pow] at *
  simp [Nat.testBit_or] at *
  simp [h]

theorem word_or_lt (w b : Nat) (hw : w < 2 ^ 64) (hb : b < 64) : w ||| (1 <<< b) < 2 ^ 64 := by
  apply Nat.or_lt_two_pow hw
  rw [Nat.one_shiftLeft]
  exact Nat.pow_lt_pow_right (by norm_num) hb

/-- The hash values `getHash` computes: one per seed, reduced modulo `m`. -/
theorem getHashLoop_eq (env : Env) (bf : BloomFilter) (key : Bytes) (hm : 0 < bf.m)
    (count i : Nat) (hi : i + count ≤ bf.seeds.length) :
    getHashLoop env bf key count i
      = some (((bf.seeds.drop i).take count).map
          (fun seed => (env.murmur64 seed key % 2 ^ 64) % bf.m)) := by
  induction count generalizing i with
  | zero => simp [getHashLoop]
  | succ count ih =>
    have hlt : i < bf.seeds.length := by omega
    have hget : bf.seeds.get? i = some (bf.seeds.get ⟨i, hlt⟩) := List.get?_eq_get hlt
    have hdrop : bf.seeds.drop i = bf.seeds.get ⟨i, hlt⟩ :: bf.seeds.drop (i + 1) := by
      rw [List.drop_eq_getElem_cons hlt]
      rfl
    unfold getHashLoop
    rw [hget]
    simp only
    rw [if_neg (by omega), ih (i + 1) (by omega), hdrop, List.take_succ_cons, List.map_cons,
      Option.map_some']

theorem BloomFilter.getHash_eq (env : Env) (bf : BloomFilter) (key : Bytes) (hm : 0 < bf.m)
    (hs : bf.seeds.length = bf.k) :
    bf.getHash env key
      = some (bf.seeds.map (fun seed => (env.murmur64 seed key % 2 ^ 64) % bf.m)) := by
  unfold BloomFilter.getHash
  rw [getHashLoop_eq env bf key hm bf.k 0 (by omega), List.drop_zero, ← hs, List.take_length]

theorem addLoop_spec (hashes bits : List Nat) (h : ∀ x ∈ hashes, x / 64 < bits.length) :
    ∃ bits', addLoop bits hashes = some bits' ∧ bits'.length = bits.length
      ∧ (∀ x ∈ hashes, bitSet bits' x) ∧ (∀ x, bitSet bits x → bitSet bits' x)
      ∧ ((∀ w ∈ bits, w < 2 ^ 64) → ∀ w ∈ bits', w < 2 ^ 64) := by
  induction hashes generalizing bits with
  | nil => exact ⟨bits, rfl, rfl, by simp, fun _ hx => hx, fun hw => hw⟩
  | cons x hashes ih =>
    have hx := h x (List.mem_cons_self _ _)
    have hget : bits.get? (x / 64) = some (bits.get ⟨x / 64, hx⟩) := List.get?_eq_get hx
    obtain ⟨bits', hadd, hlen, hset, hmono, hword⟩ := ih
      (bits.set (x / 64) (bits.get ⟨x / 64, hx⟩ ||| (1 <<< (x % 64))))
      (by
        intro y hy
        rw [List.length_set]
        exact h y (List.mem_cons_of_mem _ hy))
    have hstep : ∀ y, bitSet bits y
        → bitSet (bits.set (x / 64) (bits.get ⟨x / 64, hx⟩ ||| (1 <<< (x % 64)))) y := by
      rintro y ⟨w, hw, hbit⟩
      by_cases hy : y / 64 = x / 64
      · refine ⟨bits.get ⟨x / 64, hx⟩ ||| (1 <<< (x % 64)), ?_, ?_⟩
        · rw [hy, List.get?_eq_getElem?, List.getElem?_set_self hx]
        · rw [hy, hget, Option.some.injEq] at hw
          rw [hw]
          exact bitSet_or_mono _ _ _ hbit
      · refine ⟨w, ?_, hbit⟩
        rw [List.get?_eq_getElem?, List.getElem?_set_ne (Ne.symm hy), ← List.get?_eq_getElem?]
        exact hw
    refine ⟨bits', ?_, ?_, ?_, ?_, ?_⟩
    · unfold addLoop
      rw [hget]
      exact hadd
    · rw [hlen, List.length_set]
    · intro y hy
      rcases List.mem_cons.mp hy with hy | hy
      · subst hy
        apply hmono
        exact ⟨_, by rw [List.get?_eq_getElem?, List.getElem?_set_self hx], bitSet_or_self _ _⟩
      · exact hset y hy
    · intro y hy
      exact hmono y (hstep y hy)
    · intro hw
      apply hword
      intro w hmem
      rcases List.mem_or_eq_of_mem_set hmem with hmem | hmem
      · exact hw w hmem
      · rw [hmem]
        exact word_or_lt _ _ (hw _ (List.get_mem _ _ _)) (Nat.mod_lt _ (by norm_num))

theorem containsLoop_true (bits hashes : List Nat) (h : ∀ x ∈ hashes, bitSet bits x) :
    containsLoop bits hashes = some true := by
  induction hashes with
  | nil => rfl
  | cons x hashes ih =>
    obtain ⟨w, hw, hbit⟩ := h x (List.mem_cons_self _ _)
    unfold containsLoop
    rw [hw]
    simp only
    rw [if_neg hbit]
    exact ih (fun y hy => h y (List.mem_cons_of_mem _ hy))

theorem containsLoop_zero (bits : List Nat) (x : Nat) (hashes : List Nat)
    (hx : x / 64 < bits.length) (hz : ∀ w ∈ bits, w = 0) :
    containsLoop bits (x :: hashes) = some false := by
  have hget : bits.get? (x / 64) = some (bits.get ⟨x / 64, hx⟩) := List.get?_eq_get hx
  unfold containsLoop
  rw [hget, hz _ (List.get_mem _ _ _)]
  simp

/-- The hash values of a key lie within the bit array of a shaped filter. -/
theorem BloomFilter.hash_in_range (env : Env) (bf : BloomFilter) (key : Bytes)
    (hw : bf.shaped) :
    ∀ x ∈ bf.seeds.map (fun seed => (env.murmur64 seed key % 2 ^ 64) % bf.m),
      x / 64 < bf.bits.length := by
  intro x hx
  obtain ⟨seed, _, rfl⟩ := List.mem_map.mp hx
  have := Nat.mod_lt (env.murmur64 seed key % 2 ^ 64) hw.1
  rw [hw.2.2]
  omega

/-- `Add` on a shaped filter does not panic: the filter stays shaped, the bits
of the key are set, the bits set before stay set, and `n` is incremented. -/
theorem BloomFilter.Add_spec (env : Env) (bf : BloomFilter) (key : Bytes) (hw : bf.shaped) :
    ∃ bf', bf.Add env key = some bf' ∧ bf'.shaped
      ∧ bf'.m = bf.m ∧ bf'.k = bf.k ∧ bf'.seeds = bf.seeds ∧ bf'.n = (bf.n + 1) % 2 ^ 64
      ∧ (∀ x ∈ bf.seeds.map (fun seed => (env.murmur64 seed key % 2 ^ 64) % bf.m),
          bitSet bf'.bits x)
      ∧ (∀ x, bitSet bf.bits x → bitSet bf'.bits x)
      ∧ ((∀ w ∈ bf.bits, w < 2 ^ 64) → ∀ w ∈ bf'.bits, w < 2 ^ 64) := by
  obtain ⟨bits', hadd, hlen, hset, hmono, hword⟩ := addLoop_spec _ bf.bits
    (BloomFilter.hash_in_range env bf key hw)
  refine ⟨{ bf with bits := bits', n := (bf.n + 1) % 2 ^ 64 }, ?_, ?_, rfl, rfl, rfl, rfl, hset,
    hmono, hword⟩
  · unfold BloomFilter.Add
    rw [BloomFilter.getHash_eq env bf key hw.1 hw.2.1]
    simp only
    rw [hadd]
  · exact ⟨hw.1, hw.2.1, by simp only; rw [hlen]; exact hw.2.2⟩

/-- `Contains` on a shaped filter whose bit array holds the bits of the key. -/
theorem BloomFilter.Contains_true (env : Env) (bf : BloomFilter) (key : Bytes) (hw : bf.shaped)
    (h : ∀ x ∈ bf.seeds.map (fun seed => (env.murmur64 seed key % 2 ^ 64) % bf.m),
      bitSet bf.bits x) :
    bf.Contains env key = some true := by
  unfold BloomFilter.Contains
  rw [BloomFilter.getHash_eq env bf key hw.1 hw.2.1]
  exact containsLoop_true _ _ h

theorem NewBloomFilter_shaped (m k : Nat) (hm : (if m = 0 then 1024 else m) + 63 < 2 ^ 64) :
    (NewBloomFilter m k).shaped := by
  unfold NewBloomFilter BloomFilter.shaped
  simp only
  refine ⟨?_, by simp, ?_⟩
  · split_ifs <;> omega
  · rw [List.length_replicate, Nat.mod_eq_of_lt hm]

theorem BloomFilter.Reset_shaped (bf : BloomFilter) (hw : bf.shaped) : bf.Reset.shaped := by
  unfold BloomFilter.Reset BloomFilter.shaped
  simp only [List.length_map]
  exact hw

/-- The state a history of calls leaves on a shaped filter: no call panics,
the filter keeps `m`, `k` and the seeds, and the bits of every key added since
the last `Reset` are set. -/
theorem runFilterOps_spec (env : Env) (ops : List FilterOp) (bf : BloomFilter)
    (acc : List Bytes) (hw : bf.shaped)
    (hacc : ∀ key ∈ acc,
      ∀ x ∈ bf.seeds.map (fun seed => (env.murmur64 seed key % 2 ^ 64) % bf.m),
        bitSet bf.bits x) :
    ∃ bf', runFilterOps env bf ops = some bf' ∧ bf'.shaped
      ∧ bf'.m = bf.m ∧ bf'.k = bf.k ∧ bf'.seeds = bf.seeds
      ∧ (∀ key ∈ addedSinceReset acc ops, bf'.Contains env key = some true)
      ∧ ((∀ w ∈ bf.bits, w < 2 ^ 64) → ∀ w ∈ bf'.bits, w < 2 ^ 64) := by
  induction ops generalizing bf acc with
  | nil =>
    refine ⟨bf, rfl, hw, rfl, rfl, rfl, ?_, fun h => h⟩
    intro key hkey
    exact BloomFilter.Contains_true env bf key hw (hacc key hkey)
  | cons op ops ih =>
    cases op with
    | Add key =>
      obtain ⟨bf1, hadd, hw1, hm1, hk1, hs1, _, hset, hmono, hword⟩ :=
        BloomFilter.Add_spec env bf key hw
      obtain ⟨bf', hrun, hw', hm', hk', hs', hcont, hword'⟩ := ih bf1 (key :: acc) hw1 (by
        intro key' hkey' x hx
        rw [hs1, hm1] at hx
        rcases List.mem_cons.mp hkey' with h | h
        · rw [h] at hx
          exact hset x hx
        · exact hmono x (hacc key' h x hx))
      refine ⟨bf', ?_, hw', hm'.trans hm1, hk'.trans hk1, hs'.trans hs1, hcont,
        fun h => hword' (hword h)⟩
      simp only [runFilterOps, FilterOp.run, hadd, hrun]
    | Reset =>
      obtain ⟨bf', hrun, hw', hm', hk', hs', hcont, hword'⟩ := ih bf.Reset []
        (BloomFilter.Reset_shaped bf hw) (by simp)
      refine ⟨bf', ?_, hw', hm', hk', hs', hcont, fun _ => hword' ?_⟩
      · simp only [runFilterOps, FilterOp.run, hrun]
      · intro w hmem
        simp only [BloomFilter.Reset, List.mem_map] at hmem
        obtain ⟨_, _, rfl⟩ := hmem
        norm_num

theorem readUints_flatten (size : Nat) (xs : List Nat) (rest : Bytes)
    (hx : ∀ x ∈ xs, x < 256 ^ size) :
    readUints size xs.length ((xs.map (beBytes size)).flatten ++ rest) = (xs, none) := by
  induction xs with
  | nil => rfl
  | cons x xs ih =>
    have hlen : ¬ (beBytes size x ++ ((xs.map (beBytes size)).flatten ++ rest)).length < size := by
      rw [List.length_append, beBytes_length]
      omega
    simp only [List.map_cons, List.flatten_cons, List.length_cons, List.append_assoc, readUints]
    rw [if_neg hlen, List.take_left' (beBytes_length _ _), List.drop_left' (beBytes_length _ _),
      ih (fun y hy => hx y (List.mem_cons_of_mem _ hy)), beValue_beBytes,
      Nat.mod_eq_of_lt (hx x (List.mem_cons_self _ _))]

theorem readUints_short (size count : Nat) (data : Bytes) (h : data.length < size * count) :
    (readUints size count data).2 ≠ none := by
  induction count generalizing data with
  | zero => simp at h
  | succ count ih =>
    unfold readUints
    by_cases hlt : data.length < size
    · rw [if_pos hlt]
      simp
    · rw [if_neg hlt]
      simp only
      apply ih
      rw [List.length_drop]
      rw [Nat.mul_succ] at h
      omega

theorem flatten_beBytes_length (size : Nat) (xs : List Nat) :
    ((xs.map (beBytes size)).flatten).length = size * xs.length := by
  induction xs with
  | nil => simp
  | cons x xs ih =>
    rw [List.map_cons, List.flatten_cons, List.length_append, ih, beBytes_length, List.length_cons]
    ring

theorem BloomFilter.Save_length (bf : BloomFilter) :
    bf.Save.length = 24 + 4 * bf.seeds.length + 8 * bf.bits.length := by
  unfold BloomFilter.Save
  simp only [List.length_append, beBytes_length, flatten_beBytes_length]

theorem BloomFilter.Save_header (bf : BloomFilter) (p : Bytes) (hp : p <+: bf.Save)
    (h24 : 24 ≤ p.length) :
    p.take 8 = beBytes 8 bf.m ∧ (p.drop 8).take 8 = beBytes 8 bf.k
      ∧ (p.drop 16).take 8 = beBytes 8 bf.n := by
  obtain ⟨s, hs⟩ := hp
  have h1 : p.take 24 = bf.Save.take 24 := by
    rw [← hs, List.take_append_of_le_length h24]
  have h2 : bf.Save.take 24 = beBytes 8 bf.m ++ beBytes 8 bf.k ++ beBytes 8 bf.n := by
    unfold BloomFilter.Save
    rw [List.append_assoc (beBytes 8 bf.m ++ beBytes 8 bf.k ++ beBytes 8 bf.n)]
    exact List.take_left' (by simp [beBytes_length])
  rw [h2] at h1
  have e1 : p.take 8 = (p.take 24).take 8 := by rw [List.take_take]; rfl
  have e2 : (p.drop 8).take 8 = ((p.take 24).drop 8).take 8 := by
    rw [List.drop_take, List.take_take]; rfl
  have e3 : (p.drop 16).take 8 = ((p.take 24).drop 16).take 8 := by
    rw [List.drop_take, List.take_take]; rfl
  rw [e1, e2, e3, h1]
  refine ⟨?_, ?_, ?_⟩
  · rw [List.append_assoc]
    exact List.take_left' (beBytes_length _ _)
  · rw [List.append_assoc, List.drop_left' (beBytes_length _ _)]
    exact List.take_left' (beBytes_length _ _)
  · rw [show (16 : Nat) = (beBytes 8 bf.m ++ beBytes 8 bf.k).length by simp [beBytes_length],
      List.drop_left]
    exact List.take_of_length_le (by simp [beBytes_length])

theorem pow_256_8 : (256 : Nat) ^ 8 = 2 ^ 64 := by norm_num

theorem pow_256_4 : (256 : Nat) ^ 4 = 2 ^ 32 := by norm_num

/-- `Load` of the bytes `Save` returns for a filter whose fields hold values
of their types gives that filter back, whatever the receiver held. -/
theorem BloomFilter.Load_Save (bf g : BloomFilter) (ht : bf.typed) :
    g.Load bf.Save = (bf, none) := by
  obtain ⟨hm, hk, hn, hseeds, hbits, hsw, hbw⟩ := ht
  have hlen := BloomFilter.Save_length bf
  obtain ⟨h1, h2, h3⟩ := BloomFilter.Save_header bf bf.Save (List.prefix_refl _) (by omega)
  have hd24 : bf.Save.drop 24
      = (bf.seeds.map (beBytes 4)).flatten ++ (bf.bits.map (beBytes 8)).flatten := by
    unfold BloomFilter.Save
    rw [List.append_assoc (beBytes 8 bf.m ++ beBytes 8 bf.k ++ beBytes 8 bf.n)]
    exact List.drop_left' (by simp [beBytes_length])
  have hdk : bf.Save.drop (24 + 4 * bf.k) = (bf.bits.map (beBytes 8)).flatten ++ [] := by
    rw [← List.drop_drop, hd24, List.append_nil]
    exact List.drop_left' (by rw [flatten_beBytes_length, hseeds])
  have hvm : beValue (beBytes 8 bf.m) = bf.m := by
    rw [beValue_beBytes, pow_256_8, Nat.mod_eq_of_lt hm]
  have hvk : beValue (beBytes 8 bf.k) = bf.k := by
    rw [beValue_beBytes, pow_256_8, Nat.mod_eq_of_lt hk]
  have hvn : beValue (beBytes 8 bf.n) = bf.n := by
    rw [beValue_beBytes, pow_256_8, Nat.mod_eq_of_lt hn]
  have hrs : readUints 4 bf.k (bf.Save.drop 24) = (bf.seeds, none) := by
    rw [hd24, ← hseeds]
    exact readUints_flatten 4 bf.seeds _ (by rw [pow_256_4]; exact hsw)
  have hrb : readUints 8 (((bf.m + 63) % 2 ^ 64) / 64) (bf.Save.drop (24 + 4 * bf.k))
      = (bf.bits, none) := by
    rw [hdk, ← hbits]
    exact readUints_flatten 8 bf.bits _ (by rw [pow_256_8]; exact hbw)
  unfold BloomFilter.Load
  rw [if_neg (by omega)]
  simp only [h1, h2, h3, hvm, hvk, hvn, hrs, hrb, hseeds, hbits, Nat.sub_self,
    List.replicate_zero, List.append_nil]

/-- `Load` of a strict prefix of the bytes `Save` returns for a typed filter
returns an error. -/
theorem BloomFilter.Load_prefix (bf g : BloomFilter) (ht : bf.typed) (p : Bytes)
    (hp : p <+: bf.Save) (hne : p ≠ bf.Save) : (g.Load p).2 ≠ none := by
  obtain ⟨hm, hk, hn, hseeds, hbits, hsw, hbw⟩ := ht
  have hlen := BloomFilter.Save_length bf
  have hlt : p.length < bf.Save.length := by
    rcases Nat.lt_or_ge p.length bf.Save.length with h | h
    · exact h
    · exact absurd (hp.eq_of_length (Nat.le_antisymm hp.length_le h)) hne
  unfold BloomFilter.Load
  by_cases h24 : p.length < 24
  · rw [if_pos h24]
    simp
  · rw [if_neg h24]
    obtain ⟨h1, h2, h3⟩ := BloomFilter.Save_header bf p hp (by omega)
    have hvm : beValue (beBytes 8 bf.m) = bf.m := by
      rw [beValue_beBytes, pow_256_8, Nat.mod_eq_of_lt hm]
    have hvk : beValue (beBytes 8 bf.k) = bf.k := by
      rw [beValue_beBytes, pow_256_8, Nat.mod_eq_of_lt hk]
    simp only [h1, h2, h3, hvm, hvk]
    cases hs : (readUints 4 bf.k (p.drop 24)).2 with
    | some err => simp
    | none =>
      simp only
      have hfull : ¬ (p.drop 24).length < 4 * bf.k := fun hh =>
        readUints_short 4 bf.k (p.drop 24) hh hs
      rw [List.length_drop] at hfull
      have hshort := readUints_short 8 (((bf.m + 63) % 2 ^ 64) / 64) (p.drop (24 + 4 * bf.k))
        (by rw [List.length_drop]; omega)
      cases hb : (readUints 8 (((bf.m + 63) % 2 ^ 64) / 64) (p.drop (24 + 4 * bf.k))).2 with
      | none => exact absurd hb hshort
      | some err => simp

theorem defaultSeeds_lt (i : Nat) : defaultSeeds.getD i 0 < 2 ^ 32 := by
  by_cases h : i < 8
  · interval_cases i <;> decide
  · rw [List.getD_eq_default _ _ (by simp [defaultSeeds]; omega)]
    norm_num

theorem NewBloomFilter_typed (m k : Nat) (hm : m < 2 ^ 64) (hk : k < 2 ^ 64) :
    (NewBloomFilter m k).typed := by
  unfold NewBloomFilter BloomFilter.typed
  simp only
  refine ⟨by split_ifs <;> omega, by split_ifs <;> omega, by norm_num, by simp, by simp, ?_, ?_⟩
  · intro s hs
    obtain ⟨i, _, rfl⟩ := List.mem_map.mp hs
    split_ifs
    · exact defaultSeeds_lt i
    · exact Nat.mod_lt _ (by norm_num)
  · intro w hw
    rw [List.eq_of_mem_replicate hw]
    norm_num

theorem addLoop_typed (hashes bits bits' : List Nat) (h : addLoop bits hashes = some bits') :
    bits'.length = bits.length ∧ ((∀ w ∈ bits, w < 2 ^ 64) → ∀ w ∈ bits', w < 2 ^ 64) := by
  induction hashes generalizing bits with
  | nil =>
    simp only [addLoop, Option.some.injEq] at h
    subst h
    exact ⟨rfl, fun hw => hw⟩
  | cons x hashes ih =>
    unfold addLoop at h
    cases hget : bits.get? (x / 64) with
    | none => rw [hget] at h; cases h
    | some word =>
      rw [hget] at h
      obtain ⟨hl, hw⟩ := ih _ h
      refine ⟨by rw [hl, List.length_set], fun hb => hw ?_⟩
      intro w hmem
      rcases List.mem_or_eq_of_mem_set hmem with hmem | hmem
      · exact hb w hmem
      · rw [hmem]
        exact word_or_lt _ _ (hb _ (List.get?_mem hget)) (Nat.mod_lt _ (by norm_num))

theorem BloomFilter.Add_typed (env : Env) (bf bf' : BloomFilter) (key : Bytes) (ht : bf.typed)
    (h : bf.Add env key = some bf') : bf'.typed := by
  unfold BloomFilter.Add at h
  cases hh : bf.getHash env key with
  | none => rw [hh] at h; cases h
  | some hashes =>
    rw [hh] at h
    simp only at h
    cases ha : addLoop bf.bits hashes with
    | none => rw [ha] at h; cases h
    | some bits =>
      rw [ha] at h
      simp only [Option.some.injEq] at h
      subst h
      obtain ⟨hm, hk, _, hseeds, hbits, hsw, hbw⟩ := ht
      obtain ⟨hl, hw⟩ := addLoop_typed _ _ _ ha
      exact ⟨hm, hk, Nat.mod_lt _ (by norm_num), hseeds, by simp only; rw [hl]; exact hbits,
        hsw, hw hbw⟩

theorem BloomFilter.Reset_typed (bf : BloomFilter) (ht : bf.typed) : bf.Reset.typed := by
  obtain ⟨hm, hk, _, hseeds, hbits, hsw, _⟩ := ht
  refine ⟨hm, hk, by simp [BloomFilter.Reset], hseeds, by simp [BloomFilter.Reset, hbits], hsw, ?_⟩
  intro w hw
  simp only [BloomFilter.Reset, List.mem_map] at hw
  obtain ⟨_, _, rfl⟩ := hw
  norm_num

theorem runFilterOps_typed (env : Env) (ops : List FilterOp) (bf bf' : BloomFilter)
    (ht : bf.typed) (h : runFilterOps env bf ops = some bf') : bf'.typed := by
  induction ops generalizing bf with
  | nil =>
    simp only [runFilterOps, Option.some.injEq] at h
    subst h
    exact ht
  | cons op ops ih =>
    unfold runFilterOps at h
    cases hop : op.run env bf with
    | none => rw [hop] at h; cases h
    | some bf1 =>
      rw [hop] at h
      refine ih bf1 ?_ h
      cases op with
      | Add key => exact BloomFilter.Add_typed env bf bf1 key ht hop
      | Reset =>
        simp only [FilterOp.run, Option.some.injEq] at hop
        subst hop
        exact BloomFilter.Reset_typed bf ht

theorem NewBloomFilter_k_pos (m k : Nat) : 0 < (NewBloomFilter m k).k := by
  unfold NewBloomFilter
  simp only
  split_ifs <;> omega

/-- C21, amended. For every filter built by `NewBloomFilter` with `m` at most
`2^64 - 64` and every history of `Add` and `Reset` calls, no call panics and
`Contains(key)` returns true for every key added since the construction or
the last `Reset`, whatever was added afterwards. -/
theorem Contains_after_Add (env : Env) (m k : Nat) (ops : List FilterOp)
    (hm : m ≤ 2 ^ 64 - 64) :
    ∃ bf, runFilterOps env (NewBloomFilter m k) ops = some bf
      ∧ ∀ key ∈ addedSinceReset [] ops, bf.Contains env key = some true := by
  obtain ⟨bf, hrun, _, _, _, _, hcont, _⟩ := runFilterOps_spec env ops (NewBloomFilter m k) []
    (NewBloomFilter_shaped m k (by split_ifs <;> omega)) (by simp)
  exact ⟨bf, hrun, hcont⟩

/-- C21, amended, at the default filter and the history `Add("a")`, `Add("b")`,
`Reset`, `Add("c")`, `Add("d")`. -/
theorem Contains_after_Add_witness :
    ∃ bf, runFilterOps sampleEnv (NewBloomFilter 1024 3)
        [.Add (ascii "a"), .Add (ascii "b"), .Reset, .Add (ascii "c"), .Add (ascii "d")] = some bf
      ∧ ∀ key ∈ addedSinceReset [] [FilterOp.Add (ascii "a"), .Add (ascii "b"), .Reset,
          .Add (ascii "c"), .Add (ascii "d")], bf.Contains sampleEnv key = some true :=
  Contains_after_Add sampleEnv 1024 3 _ (by decide)

/-- C21 as stated fails on `NewBloomFilter(2^64 - 1, 1)`: the word count
`(m + 63) / 64` wraps to zero, the bit array is empty, and `Add` panics on
every key, whatever the hash function. -/
theorem Add_panics_on_wrapped_word_count :
    (NewBloomFilter (2 ^ 64 - 1) 1).m = 2 ^ 64 - 1
    ∧ (NewBloomFilter (2 ^ 64 - 1) 1).bits = []
    ∧ ∀ (env : Env) (key : Bytes), (NewBloomFilter (2 ^ 64 - 1) 1).Add env key = none := by
  refine ⟨by decide, by decide, ?_⟩
  intro env key
  have hb : (NewBloomFilter (2 ^ 64 - 1) 1).bits = [] := by decide
  have hs : (NewBloomFilter (2 ^ 64 - 1) 1).seeds = [0x47b6137b] := by decide
  have hk : (NewBloomFilter (2 ^ 64 - 1) 1).k = 1 := by decide
  have hm : (NewBloomFilter (2 ^ 64 - 1) 1).m ≠ 0 := by decide
  simp only [BloomFilter.Add, BloomFilter.getHash, hk, getHashLoop, hs, hb, List.get?_cons_zero,
    if_neg hm, Option.map_some', addLoop, List.get?_nil]

/-- C22. For every filter `f` that `NewBloomFilter(m, k)` and any history of
`Add` and `Reset` calls leave, `Load(f.Save())` on any filter returns nil and
makes the receiver equal to `f` as it was at the `Save`, field by field, so
that `Contains` agrees with `f` on every key; what is added to `f` later does
not reach the loaded filter. -/
theorem Load_of_Save_restores (env : Env) (m k : Nat) (ops : List FilterOp)
    (f g : BloomFilter) (hm : m < 2 ^ 64) (hk : k < 2 ^ 64)
    (hf : runFilterOps env (NewBloomFilter m k) ops = some f) :
    g.Load f.Save = (f, none)
    ∧ (∀ key, (g.Load f.Save).1.Contains env key = f.Contains env key)
    ∧ (∀ key f', f.Add env key = some f' → (g.Load f.Save).1.bits = f.bits) := by
  have hload := BloomFilter.Load_Save f g
    (runFilterOps_typed env ops _ f (NewBloomFilter_typed m k hm hk) hf)
  refine ⟨hload, ?_, ?_⟩
  · intro key
    rw [hload]
  · intro key f' _
    rw [hload]

set_option maxRecDepth 100000 in
/-- C22 at the default filter after `Add("a")` and `Add("b")`, loaded into a
filter of 64 bits and one hash function. -/
theorem Load_of_Save_restores_witness :
    ∃ f, runFilterOps sampleEnv (NewBloomFilter 1024 3)
        [.Add (ascii "a"), .Add (ascii "b")] = some f
      ∧ (NewBloomFilter 64 1).Load f.Save = (f, none)
      ∧ f.Contains sampleEnv (ascii "a") = some true :=
  ⟨_, rfl,
    (Load_of_Save_restores sampleEnv 1024 3 [.Add (ascii "a"), .Add (ascii "b")] _
      (NewBloomFilter 64 1) (by decide) (by decide) rfl).1,
    by decide⟩

/-- C23. For every filter `f` that `NewBloomFilter(m, k)` and any history of
`Add` and `Reset` calls leave, and every strict prefix `p` of `f.Save()`, the
empty one included, `Load(p)` on any filter returns an error. -/
theorem Load_of_truncated_Save_fails (env : Env) (m k : Nat) (ops : List FilterOp)
    (f g : BloomFilter) (p : Bytes) (hm : m < 2 ^ 64) (hk : k < 2 ^ 64)
    (hf : runFilterOps env (NewBloomFilter m k) ops = some f)
    (hp : p <+: f.Save) (hne : p ≠ f.Save) :
    (g.Load p).2 ≠ none :=
  BloomFilter.Load_prefix f g
    (runFilterOps_typed env ops _ f (NewBloomFilter_typed m k hm hk) hf) p hp hne

set_option maxRecDepth 100000 in
/-- C23 at the first 163 of the 164 bytes the default filter saves. -/
theorem Load_of_truncated_Save_fails_witness :
    (NewBloomFilter 1024 3).Save.length = 164
    ∧ ((NewBloomFilter 64 1).Load ((NewBloomFilter 1024 3).Save.take 163)).2 ≠ none :=
  ⟨by decide,
    Load_of_truncated_Save_fails sampleEnv 1024 3 [] (NewBloomFilter 1024 3)
      (NewBloomFilter 64 1) _ (by decide) (by decide) rfl (List.take_prefix _ _) (by decide)⟩

/-- C24, amended. For the filter `bf` that `NewBloomFilter(m, k)` with `m` at
most `2^64 - 64` and any history of calls leave: after `Reset` the count `n`
is 0, every word of the bit array is 0, `Contains` returns false for every
key, and `m`, `k` and the seeds are those of `bf`; `Add` of a key after the
`Reset` makes `Contains` report the key and `n` equal to 1. -/
theorem Reset_clears (env : Env) (m k : Nat) (ops : List FilterOp) (hm : m ≤ 2 ^ 64 - 64) :
    ∃ bf, runFilterOps env (NewBloomFilter m k) ops = some bf
      ∧ bf.Reset.n = 0 ∧ (∀ w ∈ bf.Reset.bits, w = 0)
      ∧ bf.Reset.bits.length = bf.bits.length
      ∧ (∀ key, bf.Reset.Contains env key = some false)
      ∧ bf.Reset.m = bf.m ∧ bf.Reset.k = bf.k ∧ bf.Reset.seeds = bf.seeds
      ∧ ∀ key, ∃ bf', bf.Reset.Add env key = some bf'
          ∧ bf'.Contains env key = some true ∧ bf'.n = 1 := by
  obtain ⟨bf, hrun, hshaped, _, hk, hs, _, _⟩ := runFilterOps_spec env ops (NewBloomFilter m k) []
    (NewBloomFilter_shaped m k (by split_ifs <;> omega)) (by simp)
  have hzero : ∀ w ∈ bf.Reset.bits, w = 0 := by
    intro w hw
    simp only [BloomFilter.Reset, List.mem_map] at hw
    obtain ⟨_, _, rfl⟩ := hw
    rfl
  have hrs := BloomFilter.Reset_shaped bf hshaped
  refine ⟨bf, hrun, rfl, hzero, by simp [BloomFilter.Reset], ?_, rfl, rfl, rfl, ?_⟩
  · intro key
    have hkpos : 0 < bf.seeds.length := by
      rw [hshaped.2.1, hk]
      exact NewBloomFilter_k_pos m k
    unfold BloomFilter.Contains
    rw [BloomFilter.getHash_eq env bf.Reset key hrs.1 hrs.2.1]
    simp only
    have hrange := BloomFilter.hash_in_range env bf.Reset key hrs
    cases hh : bf.Reset.seeds.map (fun seed => (env.murmur64 seed key % 2 ^ 64) % bf.Reset.m) with
    | nil =>
      have := congrArg List.length hh
      simp only [List.length_map, List.length_nil] at this
      have h2 : bf.Reset.seeds = bf.seeds := rfl
      rw [h2] at this
      omega
    | cons x hashes =>
      rw [hh] at hrange
      exact containsLoop_zero _ x hashes (hrange x (List.mem_cons_self _ _)) hzero
  · intro key
    obtain ⟨bf', hadd, hw', _, _, hs', hn', hset, _, _⟩ := BloomFilter.Add_spec env bf.Reset key hrs
    refine ⟨bf', hadd, ?_, ?_⟩
    · apply BloomFilter.Contains_true env bf' key hw'
      intro x hx
      rw [hs'] at hx
      have hm' : bf'.m = bf.Reset.m := by assumption
      rw [hm'] at hx
      exact hset x hx
    · rw [hn']
      rfl

/-- C24, amended, at the default filter after `Add("a")`. -/
theorem Reset_clears_witness :
    ∃ bf, runFilterOps sampleEnv (NewBloomFilter 1024 3) [.Add (ascii "a")] = some bf
      ∧ bf.Reset.n = 0 ∧ (∀ w ∈ bf.Reset.bits, w = 0)
      ∧ bf.Reset.bits.length = bf.bits.length
      ∧ (∀ key, bf.Reset.Contains sampleEnv key = some false)
      ∧ bf.Reset.m = bf.m ∧ bf.Reset.k = bf.k ∧ bf.Reset.seeds = bf.seeds
      ∧ ∀ key, ∃ bf', bf.Reset.Add sampleEnv key = some bf'
          ∧ bf'.Contains sampleEnv key = some true ∧ bf'.n = 1 :=
  Reset_clears sampleEnv 1024 3 [.Add (ascii "a")] (by decide)

/-- C24 as stated fails on `NewBloomFilter(2^64 - 1, 1)`: the word count wraps
to zero, the bit array is empty before and after `Reset`, and `Contains` after
the `Reset` panics on every key instead of returning false. -/
theorem Contains_panics_on_wrapped_word_count :
    (NewBloomFilter (2 ^ 64 - 1) 1).Reset.bits = []
    ∧ ∀ (env : Env) (key : Bytes),
        (NewBloomFilter (2 ^ 64 - 1) 1).Reset.Contains env key = none := by
  refine ⟨by decide, ?_⟩
  intro env key
  have hb : (NewBloomFilter (2 ^ 64 - 1) 1).Reset.bits = [] := by decide
  have hs : (NewBloomFilter (2 ^ 64 - 1) 1).Reset.seeds = [0x47b6137b] := by decide
  have hk : (NewBloomFilter (2 ^ 64 - 1) 1).Reset.k = 1 := by decide
  have hm : (NewBloomFilter (2 ^ 64 - 1) 1).Reset.m ≠ 0 := by decide
  simp only [BloomFilter.Contains, BloomFilter.getHash, hk, getHashLoop, hs, hb,
    List.get?_cons_zero, if_neg hm, Option.map_some', containsLoop, List.get?_nil]

/-! ## Theorems: the layout of a sorted run -/

theorem encodeEntry_length (item : KVItem) :
    (encodeEntry item).length = 8 + item.key.length + item.value.length := by
  simp [encodeEntry, beBytes_length]
  omega

theorem encodeBlock_snoc (cur : List KVItem) (x : KVItem) :
    encodeBlock (cur ++ [x]) = encodeBlock cur ++ encodeEntry x := by
  simp [encodeBlock]

theorem encodeBlock_pos (cur : List KVItem) (h : cur ≠ []) : 0 < (encodeBlock cur).length := by
  cases cur with
  | nil => exact absurd rfl h
  | cons x xs =>
    simp only [encodeBlock, List.map_cons, List.flatten_cons, List.length_append,
      encodeEntry_length]
    omega

theorem runFilterOps_append (env : Env) (bf : BloomFilter) (ops1 ops2 : List FilterOp) :
    runFilterOps env bf (ops1 ++ ops2)
      = (runFilterOps env bf ops1).bind (fun bf' => runFilterOps env bf' ops2) := by
  induction ops1 generalizing bf with
  | nil => rfl
  | cons op ops1 ih =>
    simp only [List.cons_append, runFilterOps]
    cases op.run env bf with
    | none => rfl
    | some bf' => exact ih bf'

theorem NewFilterConstructor_shaped : NewFilterConstructor.shaped :=
  NewBloomFilter_shaped 1024 3 (by decide)

/-- The filter of a block is shaped, has the parameters of the default
filter, and is the default filter again after `Reset`. -/
theorem blockFilter_spec (env : Env) (b : List KVItem) :
    ∃ f, blockFilter env b = some f ∧ f.shaped ∧ f.Reset = NewFilterConstructor
      ∧ ∀ item ∈ b, f.Contains env item.key = some true := by
  obtain ⟨f, hrun, hshaped, hm, hk, hs, hcont, _⟩ := runFilterOps_spec env
    (b.map (fun item => FilterOp.Add item.key)) NewFilterConstructor []
    NewFilterConstructor_shaped (by simp)
  refine ⟨f, hrun, hshaped, ?_, ?_⟩
  · have hlen := hshaped.2.2
    rcases f with ⟨m, k, bits, n, seeds⟩
    simp only at hm hk hs hlen
    subst hm hk hs
    simp only [BloomFilter.Reset]
    rw [List.map_const', hlen]
    rfl
  · intro item hitem
    apply hcont
    have hadded : ∀ (ops : List KVItem) (acc : List Bytes),
        addedSinceReset acc (ops.map (fun item => FilterOp.Add item.key))
          = (ops.map KVItem.key).reverse ++ acc := by
      intro ops
      induction ops with
      | nil => intro acc; rfl
      | cons x xs ih =>
        intro acc
        simp only [List.map_cons, addedSinceReset, ih, List.reverse_cons, List.append_assoc,
          List.singleton_append]
    rw [hadded]
    simp only [List.append_nil, List.mem_reverse, List.mem_map]
    exact ⟨item, hitem, rfl⟩

theorem blockFilter_snoc (env : Env) (cur : List KVItem) (x : KVItem) (f : BloomFilter)
    (h : blockFilter env cur = some f) :
    blockFilter env (cur ++ [x]) = f.Add env x.key := by
  unfold blockFilter at *
  rw [List.map_append, runFilterOps_append, h]
  simp only [Option.some_bind, List.map_cons, List.map_nil, runFilterOps, FilterOp.run]
  cases f.Add env x.key <;> rfl

/-- The loop of `SSTWriter.Write` followed by the flush of the last block, from
a writer whose block in progress holds the entries `cur` and whose filter holds
their keys: the loop does not panic, and the entries `cur ++ items` are cut
into non-empty blocks that are appended to the data, each with an index entry
and a filter entry under its offset. -/
theorem SSTWriter.writeItems_layout (env : Env) (items : List KVItem) (w : SSTWriter)
    (cur : List KVItem) (hblock : w.block.dataBuf = encodeBlock cur)
    (hfilter : blockFilter env cur = some w.filter) :
    ∃ (w' : SSTWriter) (blocks : List (List KVItem)) (blobs : List Bytes),
      SSTWriter.writeItems env w items = some w'
      ∧ blocks.flatten = cur ++ items ∧ (∀ b ∈ blocks, b ≠ [])
      ∧ List.Forall₂ (fun b blob => ∃ f, blockFilter env b = some f ∧ blob = f.Save) blocks blobs
      ∧ w'.lastFlush.dataBuf = w.dataBuf ++ (blocks.map encodeBlock).flatten
      ∧ w'.lastFlush.indexs.map (fun i => (i.offset, i.length))
        = w.indexs.map (fun i => (i.offset, i.length))
          ++ ((blockOffsets w.dataBuf.length blocks).map (· % 2 ^ 64)).zip
              (blocks.map (fun b => (encodeBlock b).length % 2 ^ 64))
      ∧ w'.lastFlush.filterBlock = w.filterBlock
          ++ filterStream ((blockOffsets w.dataBuf.length blocks).map (· % 2 ^ 64)) blobs
      ∧ w'.lastFlush.indexBuf = w.indexBuf ∧ w'.lastFlush.dest = w.dest
      ∧ w'.lastFlush.conf = w.conf := by
  induction items generalizing w cur with
  | nil =>
    refine ⟨w, ?_⟩
    by_cases hcur : cur = []
    · subst hcur
      have hsz : ¬ w.block.Size > 0 := by
        simp [DataBlock.Size, hblock, encodeBlock]
      refine ⟨[], [], rfl, rfl, by simp, List.Forall₂.nil, ?_⟩
      simp only [SSTWriter.lastFlush, if_neg hsz, List.map_nil, List.flatten_nil, List.append_nil,
        blockOffsets, List.zip_nil_left, filterStream, and_self]
    · have hsz : w.block.Size > 0 := by
        rw [DataBlock.Size, hblock]
        exact encodeBlock_pos cur hcur
      refine ⟨[cur], [w.filter.Save], rfl, by simp, by simpa using hcur,
        List.Forall₂.cons ⟨w.filter, hfilter, rfl⟩ List.Forall₂.nil, ?_⟩
      simp only [SSTWriter.lastFlush, if_pos hsz, SSTWriter.mustFlush, hblock, List.map_cons,
        List.map_nil, List.flatten_cons, List.flatten_nil, List.append_nil, blockOffsets,
        List.zip_cons_cons, List.zip_nil_left, List.map_append, filterStream, BloomBlock.Add,
        List.append_assoc, and_self]
  | cons x xs ih =>
    obtain ⟨fcur, hfc, hshaped, _, _⟩ := blockFilter_spec env cur
    rw [hfilter, Option.some.injEq] at hfc
    subst hfc
    obtain ⟨f', hadd, _⟩ := BloomFilter.Add_spec env w.filter x.key hshaped
    have hfilter' : blockFilter env (cur ++ [x]) = some f' := by
      rw [blockFilter_snoc env cur x w.filter hfilter, hadd]
    have hblock' : (w.block.Add x.key x.value).dataBuf = encodeBlock (cur ++ [x]) := by
      rw [encodeBlock_snoc, ← hblock]
      rfl
    have hstep : SSTWriter.writeItems env w (x :: xs)
        = SSTWriter.writeItems env
            ({ w with filter := f', block := w.block.Add x.key x.value }).tryFlush xs := by
      simp only [SSTWriter.writeItems, SSTWriter.writeKV, hadd]
    rw [hstep]
    by_cases hflush : ((w.block.Add x.key x.value).Size : Int) > w.conf.BlockSize
    · obtain ⟨f2, hf2, _, hreset, _⟩ := blockFilter_spec env (cur ++ [x])
      rw [hfilter', Option.some.injEq] at hf2
      subst hf2
      have hnil : blockFilter env [] = some NewFilterConstructor := rfl
      obtain ⟨w', blocks, blobs, hrun, hflat, hne, hall, hdata, hidx, hfs, hib, hdest, hconf⟩ :=
        ih ({ w with filter := f', block := w.block.Add x.key x.value }).tryFlush [] (by
          simp only [SSTWriter.tryFlush, if_pos hflush, SSTWriter.mustFlush, DataBlock.Clear,
            encodeBlock, List.map_nil, List.flatten_nil]) (by
          simp only [SSTWriter.tryFlush, if_pos hflush, SSTWriter.mustFlush, hreset, hnil])
      refine ⟨w', (cur ++ [x]) :: blocks, f'.Save :: blobs, hrun, ?_, ?_, ?_, ?_, ?_, ?_, ?_, ?_,
        ?_⟩
      · simp [hflat]
      · intro b hb
        rcases List.mem_cons.mp hb with hb | hb
        · rw [hb]; simp
        · exact hne b hb
      · exact List.Forall₂.cons ⟨f', hfilter', rfl⟩ hall
      · rw [hdata]
        simp only [SSTWriter.tryFlush, if_pos hflush, SSTWriter.mustFlush, hblock', List.map_cons,
          List.flatten_cons, List.append_assoc]
      · rw [hidx]
        simp only [SSTWriter.tryFlush, if_pos hflush, SSTWriter.mustFlush, hblock',
          List.map_append, List.map_cons, List.map_nil, blockOffsets, List.zip_cons_cons,
          List.length_append, List.append_assoc, List.singleton_append]
      · rw [hfs]
        simp only [SSTWriter.tryFlush, if_pos hflush, SSTWriter.mustFlush, hblock', blockOffsets,
          List.map_cons, filterStream, BloomBlock.Add, List.length_append, List.append_assoc]
      · rw [hib]
        simp only [SSTWriter.tryFlush, if_pos hflush, SSTWriter.mustFlush]
      · rw [hdest]
        simp only [SSTWriter.tryFlush, if_pos hflush, SSTWriter.mustFlush]
      · rw [hconf]
        simp only [SSTWriter.tryFlush, if_pos hflush, SSTWriter.mustFlush]
    · obtain ⟨w', blocks, blobs, hrun, hflat, hne, hall, hdata, hidx, hfs, hib, hdest, hconf⟩ :=
        ih ({ w with filter := f', block := w.block.Add x.key x.value }).tryFlush (cur ++ [x]) (by
          simp only [SSTWriter.tryFlush, if_neg hflush]
          exact hblock') (by
          simp only [SSTWriter.tryFlush, if_neg hflush]
          exact hfilter')
      refine ⟨w', blocks, blobs, hrun, by simp [hflat], hne, hall, ?_, ?_, ?_, ?_, ?_, ?_⟩
      · rw [hdata]; simp only [SSTWriter.tryFlush, if_neg hflush]
      · rw [hidx]; simp only [SSTWriter.tryFlush, if_neg hflush]
      · rw [hfs]; simp only [SSTWriter.tryFlush, if_neg hflush]
      · rw [hib]; simp only [SSTWriter.tryFlush, if_neg hflush]
      · rw [hdest]; simp only [SSTWriter.tryFlush, if_neg hflush]
      · rw [hconf]; simp only [SSTWriter.tryFlush, if_neg hflush]

theorem encodeBlock_flatten (blocks : List (List KVItem)) :
    (blocks.map encodeBlock).flatten = encodeBlock blocks.flatten := by
  induction blocks with
  | nil => rfl
  | cons b bs ih =>
    simp only [List.map_cons, List.flatten_cons, ih, encodeBlock, List.map_append,
      List.flatten_append]

theorem blockOffsets_le (blocks : List (List KVItem)) (start : Nat) :
    ∀ o ∈ blockOffsets start blocks, o ≤ start + (encodeBlock blocks.flatten).length := by
  induction blocks generalizing start with
  | nil => simp [blockOffsets]
  | cons b bs ih =>
    intro o ho
    have hl : (encodeBlock (b :: bs).flatten).length
        = (encodeBlock b).length + (encodeBlock bs.flatten).length := by
      simp [encodeBlock]
    rcases List.mem_cons.mp ho with ho | ho
    · omega
    · have := ih (start + (encodeBlock b).length) o ho
      omega

theorem blockLength_le (blocks : List (List KVItem)) :
    ∀ b ∈ blocks, (encodeBlock b).length ≤ (encodeBlock blocks.flatten).length := by
  induction blocks with
  | nil => simp
  | cons b bs ih =>
    intro c hc
    have hl : (encodeBlock (b :: bs).flatten).length
        = (encodeBlock b).length + (encodeBlock bs.flatten).length := by
      simp [encodeBlock]
    rcases List.mem_cons.mp hc with hc | hc
    · rw [hc]; omega
    · have := ih c hc
      omega

theorem tiles_blockOffsets (blocks : List (List KVItem)) (start : Nat) :
    tiles start ((blockOffsets start blocks).zip (blocks.map (fun b => (encodeBlock b).length)))
      (start + (encodeBlock blocks.flatten).length) := by
  induction blocks generalizing start with
  | nil => simp [blockOffsets, tiles, encodeBlock]
  | cons b bs ih =>
    have hl : (encodeBlock (b :: bs).flatten).length
        = (encodeBlock b).length + (encodeBlock bs.flatten).length := by
      simp [encodeBlock]
    simp only [blockOffsets, List.map_cons, List.zip_cons_cons, tiles, true_and]
    rw [hl, ← Nat.add_assoc]
    exact ih _

theorem map_mod_of_le (xs : List Nat) (bound : Nat) (h : ∀ x ∈ xs, x ≤ bound)
    (hb : bound < 2 ^ 64) : xs.map (· % 2 ^ 64) = xs := by
  induction xs with
  | nil => rfl
  | cons x xs ih =>
    rw [List.map_cons, ih (fun y hy => h y (List.mem_cons_of_mem _ hy)),
      Nat.mod_eq_of_lt (Nat.lt_of_le_of_lt (h x (List.mem_cons_self _ _)) hb)]

theorem SSTWriter.finish_eq (w : SSTWriter) :
    w.finish = { w.lastFlush with
      indexBuf := w.lastFlush.indexBuf ++ (w.lastFlush.indexs.map Index.Encode).flatten
      dest := w.lastFlush.dest ++ w.lastFlush.dataBuf
        ++ (w.lastFlush.indexBuf ++ (w.lastFlush.indexs.map Index.Encode).flatten)
        ++ w.lastFlush.filterBlock
        ++ beBytes 8 w.lastFlush.dataBuf.length
        ++ beBytes 8 (w.lastFlush.indexBuf
            ++ (w.lastFlush.indexs.map Index.Encode).flatten).length
        ++ beBytes 8 w.lastFlush.filterBlock.length } := rfl

/-- `SSTWriter.Write` on a new writer: the call returns, the items of the
memtable are cut into non-empty blocks, and the data, the index entries and
the filter stream of the writer are laid out block by block, with the offsets
and lengths held as `uint64`. -/
theorem SSTWriter.Write_blocks (env : Env) (conf : Config) (mem : BTreeMemTable) :
    ∃ (w : SSTWriter) (blocks : List (List KVItem)) (blobs : List Bytes),
      (NewSSTWriter conf).Write env mem = some w
      ∧ blocks.flatten = mem.tree ∧ (∀ b ∈ blocks, b ≠ [])
      ∧ List.Forall₂ (fun b blob => ∃ f, blockFilter env b = some f ∧ blob = f.Save) blocks blobs
      ∧ w.dataBuf = (blocks.map encodeBlock).flatten
      ∧ w.indexs.map (fun i => (i.offset, i.length))
        = ((blockOffsets 0 blocks).map (· % 2 ^ 64)).zip
            (blocks.map (fun b => (encodeBlock b).length % 2 ^ 64))
      ∧ w.filterBlock = filterStream ((blockOffsets 0 blocks).map (· % 2 ^ 64)) blobs
      ∧ w.indexBuf = (w.indexs.map Index.Encode).flatten
      ∧ w.dest = w.dataBuf ++ w.indexBuf ++ w.filterBlock
          ++ (beBytes 8 w.dataBuf.length ++ beBytes 8 w.indexBuf.length
            ++ beBytes 8 w.filterBlock.length) := by
  obtain ⟨w', blocks, blobs, hrun, hflat, hne, hall, hdata, hidx, hfs, hib, hdest, _⟩ :=
    SSTWriter.writeItems_layout env mem.tree (NewSSTWriter conf) [] rfl rfl
  simp only [NewSSTWriter, List.nil_append, List.map_nil,
    List.length_nil] at hdata hidx hfs hib hdest hflat
  refine ⟨w'.finish, blocks, blobs, ?_, hflat, hne, hall, ?_, ?_, ?_, ?_, ?_⟩
  · simp only [SSTWriter.Write, BTreeMemTable.Iterator, hrun, Option.map_some']
  · rw [SSTWriter.finish_eq]; exact hdata
  · rw [SSTWriter.finish_eq]; exact hidx
  · rw [SSTWriter.finish_eq]; exact hfs
  · rw [SSTWriter.finish_eq]
    simp only [hib, List.nil_append]
  · rw [SSTWriter.finish_eq]
    simp only [hib, hdest, List.nil_append, List.append_assoc]

/-- C27. For every memtable whose entries encode to fewer than `2^64` bytes and
every configuration, `SSTWriter.Write` on a new writer returns, and the file is
`data ‖ index ‖ filter ‖ footer`: the data is the concatenation of non-empty
data blocks that hold the entries of the memtable in order, the index is the
concatenation of the encoded index entries, one per block in block order with
the offset and the length of the block, the filter stream holds one entry
`block_offset(8) ‖ blob_len(4) ‖ blob` per block in the same order, and the
last 24 bytes are the three lengths in 8 bytes each, most significant first.
The file has `data_length + index_length + filter_length + 24` bytes, and the
ranges of the index entries tile `[0, data_length)` from 0 on. -/
theorem Write_file_layout (env : Env) (conf : Config) (mem : BTreeMemTable)
    (hlen : (encodeBlock mem.tree).length < 2 ^ 64) :
    ∃ (w : SSTWriter) (blocks : List (List KVItem)) (blobs : List Bytes),
      (NewSSTWriter conf).Write env mem = some w
      ∧ blocks.flatten = mem.tree ∧ (∀ b ∈ blocks, b ≠ []) ∧ blobs.length = blocks.length
      ∧ w.dest = w.dataBuf ++ w.indexBuf ++ w.filterBlock
          ++ (beBytes 8 w.dataBuf.length ++ beBytes 8 w.indexBuf.length
            ++ beBytes 8 w.filterBlock.length)
      ∧ w.dataBuf = (blocks.map encodeBlock).flatten
      ∧ w.indexBuf = (w.indexs.map Index.Encode).flatten
      ∧ w.indexs.map (fun i => (i.offset, i.length))
        = (blockOffsets 0 blocks).zip (blocks.map (fun b => (encodeBlock b).length))
      ∧ w.filterBlock = filterStream (blockOffsets 0 blocks) blobs
      ∧ w.dest.length = w.dataBuf.length + w.indexBuf.length + w.filterBlock.length + 24
      ∧ tiles 0 (w.indexs.map (fun i => (i.offset, i.length))) w.dataBuf.length := by
  obtain ⟨w, blocks, blobs, hw, hflat, hne, hall, hdata, hidx, hfs, hib, hdest⟩ :=
    SSTWriter.Write_blocks env conf mem
  have hoff : (blockOffsets 0 blocks).map (· % 2 ^ 64) = blockOffsets 0 blocks :=
    map_mod_of_le _ (encodeBlock mem.tree).length (by
      intro o ho
      have := blockOffsets_le blocks 0 o ho
      rw [hflat] at this
      omega) hlen
  have hlens : blocks.map (fun b => (encodeBlock b).length % 2 ^ 64)
      = blocks.map (fun b => (encodeBlock b).length) := by
    apply List.map_congr_left
    intro b hb
    have := blockLength_le blocks b hb
    rw [hflat] at this
    exact Nat.mod_eq_of_lt (by omega)
  rw [hoff, hlens] at hidx
  rw [hoff] at hfs
  refine ⟨w, blocks, blobs, hw, hflat, hne, hall.length_eq.symm, hdest, hdata, hib, hidx, hfs, ?_,
    ?_⟩
  · rw [hdest]
    simp only [List.length_append, beBytes_length]
  · rw [hidx, hdata, encodeBlock_flatten]
    have := tiles_blockOffsets blocks 0
    rwa [Nat.zero_add] at this

/-- C26. For every memtable and every configuration, `SSTWriter.Write` on a new
writer returns; the filter stream holds, in block order, one entry per data
block under the offset of the block (the offset of its index entry), and the
blob of that entry, loaded with `Load` into any filter, returns nil and gives
a filter whose `Contains` is true for every key stored in the block. -/
theorem block_filter_contains_block_keys (env : Env) (conf : Config) (mem : BTreeMemTable) :
    ∃ (w : SSTWriter) (blocks : List (List KVItem)) (blobs : List Bytes),
      (NewSSTWriter conf).Write env mem = some w
      ∧ blocks.flatten = mem.tree
      ∧ w.dataBuf = (blocks.map encodeBlock).flatten
      ∧ w.indexs.map Index.offset = (blockOffsets 0 blocks).map (· % 2 ^ 64)
      ∧ w.filterBlock = filterStream ((blockOffsets 0 blocks).map (· % 2 ^ 64)) blobs
      ∧ List.Forall₂ (fun b blob => ∀ g : BloomFilter, ∃ f, g.Load blob = (f, none)
          ∧ ∀ item ∈ b, f.Contains env item.key = some true) blocks blobs := by
  obtain ⟨w, blocks, blobs, hw, hflat, _, hall, hdata, hidx, hfs, _, _⟩ :=
    SSTWriter.Write_blocks env conf mem
  refine ⟨w, blocks, blobs, hw, hflat, hdata, ?_, hfs, ?_⟩
  · have := congrArg (List.map Prod.fst) hidx
    rw [List.map_map] at this
    rw [show w.indexs.map Index.offset
      = w.indexs.map (Prod.fst ∘ fun i => (i.offset, i.length)) from rfl, this]
    have hl : ((blockOffsets 0 blocks).map (· % 2 ^ 64)).length
        = (blocks.map (fun b => (encodeBlock b).length % 2 ^ 64)).length := by
      have : ∀ (bs : List (List KVItem)) (s : Nat), (blockOffsets s bs).length = bs.length := by
        intro bs
        induction bs with
        | nil => intro s; rfl
        | cons b bs ih => intro s; simp [blockOffsets, ih]
      simp [this]
    exact List.map_fst_zip _ _ hl.le
  · refine List.Forall₂.imp ?_ hall
    rintro b blob ⟨f, hf, rfl⟩ g
    obtain ⟨f2, hf2, _, _, hcont⟩ := blockFilter_spec env b
    rw [hf, Option.some.injEq] at hf2
    subst hf2
    refine ⟨f, ?_, hcont⟩
    exact BloomFilter.Load_Save f g
      (runFilterOps_typed env _ _ f (NewBloomFilter_typed 1024 3 (by decide) (by decide)) hf)

/-- C27 at the memtable of `"a"` and `"b"` with a block size of one byte. -/
theorem Write_file_layout_witness :
    ∃ (w : SSTWriter) (blocks : List (List KVItem)) (blobs : List Bytes),
      (NewSSTWriter tinyBlockConf).Write sampleEnv twoKeyMem = some w
      ∧ blocks.flatten = twoKeyMem.tree ∧ (∀ b ∈ blocks, b ≠ []) ∧ blobs.length = blocks.length
      ∧ w.dest = w.dataBuf ++ w.indexBuf ++ w.filterBlock
          ++ (beBytes 8 w.dataBuf.length ++ beBytes 8 w.indexBuf.length
            ++ beBytes 8 w.filterBlock.length)
      ∧ w.dataBuf = (blocks.map encodeBlock).flatten
      ∧ w.indexBuf = (w.indexs.map Index.Encode).flatten
      ∧ w.indexs.map (fun i => (i.offset, i.length))
        = (blockOffsets 0 blocks).zip (blocks.map (fun b => (encodeBlock b).length))
      ∧ w.filterBlock = filterStream (blockOffsets 0 blocks) blobs
      ∧ w.dest.length = w.dataBuf.length + w.indexBuf.length + w.filterBlock.length + 24
      ∧ tiles 0 (w.indexs.map (fun i => (i.offset, i.length))) w.dataBuf.length :=
  Write_file_layout sampleEnv tinyBlockConf twoKeyMem (by decide)

set_option maxRecDepth 100000 in
/-- C25 fails on the memtable that holds the empty key and the key `"a"`:
`SSTWriter.Write` with the default block size puts both entries in one block,
whose first key is the empty key, and the index entry of the block has the
minimum key `"a"`, because `DataBlock.Add` takes a minimum key of length zero
for one that is not set yet. The reader of the file then finds no index entry
for the empty key. -/
theorem index_min_key_skips_empty_key :
    ∃ w r,
      (NewSSTWriter NewConfig).Write sampleEnv emptyKeyMem = some w
      ∧ w.dataBuf = encodeBlock [KVItem.mk [] (ascii "1"), KVItem.mk (ascii "a") (ascii "2")]
      ∧ w.indexs = [Index.mk (ascii "a") (ascii "a") 0 19]
      ∧ NewSSTReader (some w.dest) NewConfig = some (.ok r)
      ∧ (r.Get sampleEnv []).map Prod.fst = some (none, false, some GoError.indexNotFound)
      ∧ (r.Get sampleEnv (ascii "a")).map Prod.fst = some (some (ascii "2"), true, none) :=
  ⟨_, _, rfl, by decide, by decide, rfl, by decide, by decide⟩

set_option maxRecDepth 100000 in
/-- C28 fails on the file `SSTWriter.Write` produces for the memtable of `"a"`
and `"b"` with a block size of one byte, two blocks of ten bytes each:
`readData(0, 10, "b")` returns the value `"2"`, which is encoded in the byte
range `[10, 20)`, and not not-found, because the loop counts only the key and
value bytes of an entry, not the eight bytes of its header, and so reads on
beyond the range. -/
theorem readData_reads_beyond_the_block :
    ∃ w r,
      (NewSSTWriter tinyBlockConf).Write sampleEnv twoKeyMem = some w
      ∧ w.indexs = [Index.mk (ascii "a") (ascii "a") 0 10, Index.mk (ascii "b") (ascii "b") 10 10]
      ∧ w.dataBuf = encodeBlock [KVItem.mk (ascii "a") (ascii "1")]
          ++ encodeBlock [KVItem.mk (ascii "b") (ascii "2")]
      ∧ NewSSTReader (some w.dest) NewConfig = some (.ok r)
      ∧ (r.readData 0 10 (ascii "b")).map Prod.fst = some (some (ascii "2"), true, none) :=
  ⟨_, _, rfl, by decide, by decide, rfl, by decide⟩

/-! ## Theorems: rotation and the frozen queue -/

/-- The frozen queue after `Put`: one entry more at the tail, the memtable
after the insert with the WAL after the append, when the condition for a
rotation is met, and the same queue otherwise. -/
theorem LSM.Put_queue (env : Env) (l : LSM) (disk : Disk) (key value : Option Bytes) :
    (l.Put env disk key value).1.immutableMemtables
      = if l.rotates env disk key value then
          l.immutableMemtables ++ [l.frozenByPut disk key value]
        else l.immutableMemtables := by
  unfold LSM.rotates
  cases hcw : l.currWal with
  | none =>
    cases key with
    | none => simp [LSM.Put, hcw, BTreeMemTable.Put]
    | some k => simp [LSM.Put, hcw, BTreeMemTable.Put]
  | some w =>
    by_cases hclosed : w.closed = true
    · simp [LSM.Put, hcw, Wal.Write, hclosed]
    · have hopen : w.closed = false := by simpa using hclosed
      cases key with
      | none => simp [LSM.Put, hcw, Wal.Write, hopen, BTreeMemTable.Put]
      | some k =>
        by_cases hsize : (w.offset + (NewRecord (some k) value).Encode.length) % 2 ^ 32
            > l.getUpperMemtableSize env
        · simp [LSM.Put, hcw, Wal.Write, hopen, BTreeMemTable.Put, Wal.Size,
            LSM.getUpperMemtableSize, LSM.switchMemtable, LSM.frozenByPut] at hsize ⊢
          simp only [hsize, if_true, and_self]
        · simp [LSM.Put, hcw, Wal.Write, hopen, BTreeMemTable.Put, Wal.Size,
            LSM.getUpperMemtableSize, LSM.switchMemtable, LSM.frozenByPut] at hsize ⊢
          have hn := not_lt.mpr hsize
          simp only [hn, if_false, and_false]


theorem LSM.rotates_iff (env : Env) (l : LSM) (disk : Disk) (key value : Option Bytes) :
    l.rotates env disk key value = true
      ↔ (l.Put env disk key value).2.2 = none
        ∧ ∃ w, l.currWal = some w
          ∧ (w.Write disk.walDir key value).1.Size > l.getUpperMemtableSize env := by
  unfold LSM.rotates
  cases hcw : l.currWal with
  | none => simp
  | some w => simp

theorem LSM.Put_queue_ne (env : Env) (l : LSM) (disk : Disk) (key value : Option Bytes) :
    (l.Put env disk key value).1.immutableMemtables ≠ l.immutableMemtables
      ↔ l.rotates env disk key value = true := by
  rw [LSM.Put_queue]
  by_cases h : l.rotates env disk key value = true
  · rw [if_pos h]
    simp [h]
  · rw [if_neg h]
    simp [h]

theorem LSM.Put_nodes (env : Env) (l : LSM) (disk : Disk) (key value : Option Bytes) :
    (l.Put env disk key value).1.nodes = l.nodes := by
  cases hcw : l.currWal with
  | none =>
    cases key <;> simp [LSM.Put, hcw, BTreeMemTable.Put]
  | some w =>
    by_cases hclosed : w.closed = true
    · simp [LSM.Put, hcw, Wal.Write, hclosed]
    · have hopen : w.closed = false := by simpa using hclosed
      cases key with
      | none => simp [LSM.Put, hcw, Wal.Write, hopen, BTreeMemTable.Put]
      | some k =>
        simp only [LSM.Put, hcw, Wal.Write, hopen, BTreeMemTable.Put, Bool.false_eq_true,
          if_false, LSM.switchMemtable]
        split_ifs <;> rfl

/-- A run of `compactMemTables` takes entries off the head of the frozen queue
and changes it in no other way. -/
theorem LSM.compactMemTables_queue (env : Env) (fuel : Nat) (l : LSM) (disk : Disk)
    (l' : LSM) (disk' : Disk) (h : l.compactMemTables env fuel disk = some (l', disk')) :
    ∃ k, l'.immutableMemtables = l.immutableMemtables.drop k := by
  induction fuel generalizing l disk with
  | zero => simp [LSM.compactMemTables] at h
  | succ fuel ih =>
    unfold LSM.compactMemTables at h
    cases hq : l.immutableMemtables with
    | nil =>
      simp only [LSM.popImmutable, hq, Option.some.injEq, Prod.mk.injEq] at h
      exact ⟨0, by rw [← h.1, hq]; rfl⟩
    | cons e rest =>
      simp only [LSM.popImmutable, hq] at h
      split_ifs at h with hempty
      · simp only [Option.some.injEq, Prod.mk.injEq] at h
        exact ⟨1, by rw [← h.1]; rfl⟩
      · cases hb : LSM.buildRun env { l with immutableMemtables := rest } disk e with
        | none => rw [hb] at h; cases h
        | some res =>
          obtain ⟨l2, disk2, node⟩ := res
          have hl2 : l2.immutableMemtables = rest := by
            unfold LSM.buildRun at hb
            cases hlev : l.levelId with
            | nil => simp [hlev] at hb
            | cons seq ids =>
              simp only [hlev] at hb
              cases hw : (NewSSTWriter l.conf).Write env e.memtable with
              | none => simp [hw] at hb
              | some writer =>
                simp only [hw] at hb
                cases hn : NewNode (disk.sstDir.write (sstName 0 seq) writer.dest) l.conf 0 seq with
                | none => simp [hn] at hb
                | some r =>
                  cases r with
                  | error err =>
                    simp only [hn, Option.some.injEq, Prod.mk.injEq] at hb
                    rw [← hb.1]
                  | ok nd =>
                    simp only [hn, Option.some.injEq, Prod.mk.injEq] at hb
                    rw [← hb.1]
          rw [hb] at h
          cases node with
          | none =>
            simp only [Option.some.injEq, Prod.mk.injEq] at h
            exact ⟨1, by rw [← h.1, hl2]; rfl⟩
          | some nd =>
            simp only at h
            cases hi : l2.installNode nd with
            | none => rw [hi] at h; cases h
            | some l3 =>
              rw [hi] at h
              have hl3 : l3.immutableMemtables = rest := by
                unfold LSM.installNode at hi
                cases hnodes : l2.nodes with
                | nil => simp [hnodes] at hi
                | cons level0 others =>
                  simp only [hnodes, Option.some.injEq] at hi
                  rw [← hi]
                  exact hl2
              simp only at h
              split_ifs at h with hmore
              · obtain ⟨k, hk⟩ := ih l3 _ h
                exact ⟨k + 1, by rw [hk, hl3]; rfl⟩
              · simp only [Option.some.injEq, Prod.mk.injEq] at h
                exact ⟨1, by rw [← h.1, hl3]; rfl⟩

/-- In every state of a session the frozen queue is the freeze log without a
number of its oldest entries. -/
theorem runSteps_queue (env : Env) (steps : List Step) (s s' : Session)
    (hs : ∃ n, s.l.immutableMemtables = s.frozen.drop n)
    (h : runSteps env s steps = some s') :
    (∃ n, s'.l.immutableMemtables = s'.frozen.drop n) ∧ s.frozen <+: s'.frozen := by
  induction steps generalizing s with
  | nil =>
    simp only [runSteps, Option.some.injEq] at h
    subst h
    exact ⟨hs, List.prefix_refl _⟩
  | cons step steps ih =>
    unfold runSteps at h
    cases hstep : step.run env s with
    | none => rw [hstep] at h; cases h
    | some s1 =>
      rw [hstep] at h
      have key : (∃ n, s1.l.immutableMemtables = s1.frozen.drop n) ∧ s.frozen <+: s1.frozen := by
        obtain ⟨n, hn⟩ := hs
        have hle : n ≤ s.frozen.length ∨ s.l.immutableMemtables = [] := by
          by_cases hc : n ≤ s.frozen.length
          · exact Or.inl hc
          · right
            rw [hn, List.drop_eq_nil_iff]
            omega
        have hput : ∀ key value,
            (∃ m, (s.l.Put env s.disk key value).1.immutableMemtables
              = (if s.l.rotates env s.disk key value
                  then s.frozen ++ [s.l.frozenByPut s.disk key value] else s.frozen).drop m)
            ∧ s.frozen <+: (if s.l.rotates env s.disk key value
                  then s.frozen ++ [s.l.frozenByPut s.disk key value] else s.frozen) := by
          intro key value
          rw [LSM.Put_queue]
          by_cases hr : s.l.rotates env s.disk key value = true
          · rw [if_pos hr, if_pos hr]
            refine ⟨⟨min n s.frozen.length, ?_⟩, List.prefix_append _ _⟩
            rw [List.drop_append_of_le_length (Nat.min_le_right _ _), hn]
            rcases Nat.le_total n s.frozen.length with hc | hc
            · rw [Nat.min_eq_left hc]
            · rw [Nat.min_eq_right hc, List.drop_of_length_le hc, List.drop_length]
          · rw [if_neg hr, if_neg hr]
            exact ⟨⟨n, hn⟩, List.prefix_refl _⟩
        cases step with
        | Put key value =>
          simp only [Step.run, Option.some.injEq] at hstep
          subst hstep
          exact hput key value
        | Delete key =>
          simp only [Step.run, Option.some.injEq] at hstep
          subst hstep
          exact hput key none
        | Pop =>
          simp only [Step.run] at hstep
          cases hq : s.l.immutableMemtables with
          | nil =>
            simp only [LSM.popImmutable, hq, Option.some.injEq] at hstep
            subst hstep
            exact ⟨⟨n, hn⟩, List.prefix_refl _⟩
          | cons e rest =>
            simp only [LSM.popImmutable, hq, Option.some.injEq] at hstep
            subst hstep
            refine ⟨⟨n + 1, ?_⟩, List.prefix_refl _⟩
            simp only
            rw [← List.drop_drop, ← hn, hq]
            rfl
        | Flush =>
          simp only [Step.run] at hstep
          cases hf : s.l.flush env s.disk with
          | none => rw [hf] at hstep; cases hstep
          | some res =>
            obtain ⟨l1, disk1⟩ := res
            rw [hf] at hstep
            simp only [Option.some.injEq] at hstep
            subst hstep
            obtain ⟨k, hk⟩ := LSM.compactMemTables_queue env _ s.l s.disk l1 disk1 hf
            refine ⟨⟨n + k, ?_⟩, List.prefix_refl _⟩
            simp only
            rw [hk, hn, List.drop_drop]
      obtain ⟨h1, h2⟩ := ih s1 key.1 h
      exact ⟨h1, List.IsPrefix.trans key.2 h2⟩

/-- Rotation and the frozen queue within one session. A rotation appends one
entry, the previous mutable memtable with the previous current WAL, at the
tail of the frozen queue, installs an empty
mutable memtable, increments `walId` as a `uint32` and opens the WAL of that
id, and leaves the earlier entries and the node list of every level as they
were; `Put` changes the queue only by such a rotation, a run of
`compactMemTables` only takes entries off its head, and so in every state of a
session of `Put`, `Delete` and flush steps the queue is the freeze log (the
queue at the start followed by the entries frozen since, in freeze order)
without a number of its oldest entries. -/
theorem rotation_appends_in_freeze_order (env : Env) :
    (∀ (l : LSM) (disk : Disk),
      (l.switchMemtable disk).1.immutableMemtables
          = l.immutableMemtables ++ [{ memtable := l.mutableMemtable, wal := l.currWal }]
      ∧ (l.switchMemtable disk).1.mutableMemtable.tree = []
      ∧ (l.switchMemtable disk).1.walId = (l.walId + 1) % 2 ^ 32
      ∧ (l.walId + 1 < 2 ^ 32 → (l.switchMemtable disk).1.walId = l.walId + 1)
      ∧ (l.switchMemtable disk).1.currWal
          = some (Wal.mk (walName ((l.walId + 1) % 2 ^ 32)) 0 false)
      ∧ (l.switchMemtable disk).1.nodes = l.nodes)
    ∧ (∀ (l : LSM) (disk : Disk) (key value : Option Bytes),
      (l.Put env disk key value).1.immutableMemtables
          = (if l.rotates env disk key value then
              l.immutableMemtables ++ [l.frozenByPut disk key value]
            else l.immutableMemtables)
      ∧ (l.Put env disk key value).1.nodes = l.nodes)
    ∧ (∀ (l l1 : LSM) (e : immutableMemtable), l.popImmutable = some (e, l1) →
      l.immutableMemtables = e :: l1.immutableMemtables)
    ∧ (∀ (l l1 : LSM) (disk disk1 : Disk), l.flush env disk = some (l1, disk1) →
      ∃ k, l1.immutableMemtables = l.immutableMemtables.drop k)
    ∧ (∀ (l0 : LSM) (d0 : Disk) (steps : List Step) (s : Session),
      runSteps env (Session.start l0 d0) steps = some s →
      (∃ n, s.l.immutableMemtables = s.frozen.drop n) ∧ l0.immutableMemtables <+: s.frozen) := by
  refine ⟨?_, ?_, ?_, ?_, ?_⟩
  · intro l disk
    refine ⟨rfl, rfl, rfl, ?_, rfl, rfl⟩
    intro h
    exact Nat.mod_eq_of_lt h
  · intro l disk key value
    exact ⟨LSM.Put_queue env l disk key value, LSM.Put_nodes env l disk key value⟩
  · intro l l1 e h
    unfold LSM.popImmutable at h
    cases hq : l.immutableMemtables with
    | nil => simp [hq] at h
    | cons x rest =>
      simp only [hq, Option.some.injEq, Prod.mk.injEq] at h
      rw [← h.1, ← h.2]
  · intro l l1 disk disk1 h
    exact LSM.compactMemTables_queue env _ l disk l1 disk1 h
  · intro l0 d0 steps s h
    exact runSteps_queue env steps (Session.start l0 d0) s ⟨0, rfl⟩ h

/-- C30, amended. `Put` performs a rotation exactly when it returns nil, a
current WAL exists and `Size()` of that WAL after the append of the record
exceeds the threshold; a `Put` that returns an error performs none; and the
entry a rotation appends to the frozen queue holds the memtable after the
insert and a WAL whose size exceeds the threshold. -/
theorem Put_rotates_iff_size_exceeds (env : Env) (l : LSM) (disk : Disk)
    (key value : Option Bytes) :
    ((l.Put env disk key value).1.immutableMemtables ≠ l.immutableMemtables
      ↔ (l.Put env disk key value).2.2 = none
        ∧ ∃ w, l.currWal = some w
          ∧ (w.Write disk.walDir key value).1.Size > l.getUpperMemtableSize env)
    ∧ ((l.Put env disk key value).2.2 ≠ none →
        (l.Put env disk key value).1.immutableMemtables = l.immutableMemtables)
    ∧ ((l.Put env disk key value).1.immutableMemtables ≠ l.immutableMemtables →
        ∃ w', (l.Put env disk key value).1.immutableMemtables
            = l.immutableMemtables
              ++ [{ memtable := (l.mutableMemtable.Put key value).1, wal := some w' }]
          ∧ w'.Size > l.getUpperMemtableSize env) := by
  refine ⟨?_, ?_, ?_⟩
  · rw [LSM.Put_queue_ne, LSM.rotates_iff]
  · intro herr
    by_contra hne
    have hrot := (LSM.Put_queue_ne env l disk key value).mp hne
    exact herr ((LSM.rotates_iff env l disk key value).mp hrot).1
  · intro hne
    rw [LSM.Put_queue_ne] at hne
    obtain ⟨_, w, hw, hsize⟩ := (LSM.rotates_iff env l disk key value).mp hne
    refine ⟨(w.Write disk.walDir key value).1, ?_, hsize⟩
    rw [LSM.Put_queue, if_pos hne]
    simp [LSM.frozenByPut, hw]

set_option maxRecDepth 100000 in
/-- C30 as stated fails on `Put(nil, "v")` on an engine opened on an empty
directory with a threshold of 8 bytes: a current WAL exists and its size
after the append of the record is 14, but the call returns the error of the
memtable and performs no rotation. -/
theorem failed_Put_does_not_rotate :
    ∃ l0 d0 w l d,
      NewLSM { NewConfig with MemTableCapSize := 8 } emptyDisk = some (l0, d0)
      ∧ l0.getUpperMemtableSize sampleEnv = 8
      ∧ l0.currWal = some w
      ∧ (w.Write d0.walDir none (some (ascii "v"))).1.Size = 14
      ∧ l0.Put sampleEnv d0 none (some (ascii "v")) = (l, d, some GoError.memtablePutFailed)
      ∧ l.immutableMemtables = l0.immutableMemtables
      ∧ l.currWal = some (w.Write d0.walDir none (some (ascii "v"))).1
      ∧ l.walId = l0.walId :=
  ⟨_, _, _, _, _, rfl, by decide, rfl, by decide, rfl, by decide, by decide, by decide⟩

/-! ## Theorems: file names -/

theorem digitChar_spec (d : Nat) (h : d < 10) :
    (Nat.digitChar d).isDigit = true ∧ (Nat.digitChar d).toNat - 48 = d
      ∧ Nat.digitChar d ≠ '_' ∧ Nat.digitChar d ≠ '/' ∧ Nat.digitChar d ≠ '-'
      ∧ Nat.digitChar d ≠ '+' := by
  interval_cases d <;> decide

/-- The decimal digits of `n`, most significant first: digits only, not empty,
and of value `n`. -/
theorem toDigitsCore_spec (fuel : Nat) : ∀ (n : Nat) (ds : List Char), n < fuel →
    ∃ pre, Nat.toDigitsCore 10 fuel n ds = pre ++ ds ∧ pre ≠ []
      ∧ (∀ c ∈ pre, c.isDigit = true ∧ c ≠ '_' ∧ c ≠ '/' ∧ c ≠ '-' ∧ c ≠ '+')
      ∧ pre.foldl (fun acc c => acc * 10 + (c.toNat - 48)) 0 = n := by
  induction fuel with
  | zero => intro n ds h; omega
  | succ fuel ih =>
    intro n ds h
    have hd := digitChar_spec (n % 10) (Nat.mod_lt _ (by decide))
    unfold Nat.toDigitsCore
    by_cases h0 : n / 10 = 0
    · simp only [h0, if_true]
      refine ⟨[Nat.digitChar (n % 10)], rfl, by simp, ?_, ?_⟩
      · intro c hc
        rw [List.mem_singleton] at hc
        subst hc
        exact ⟨hd.1, hd.2.2⟩
      · simp only [List.foldl_cons, List.foldl_nil, hd.2.1]
        omega
    · simp only [h0, if_false]
      obtain ⟨pre, hpre, _, hall, hval⟩ := ih (n / 10) (Nat.digitChar (n % 10) :: ds) (by omega)
      refine ⟨pre ++ [Nat.digitChar (n % 10)], by rw [hpre]; simp, by simp, ?_, ?_⟩
      · intro c hc
        rcases List.mem_append.mp hc with hc | hc
        · exact hall c hc
        · rw [List.mem_singleton] at hc
          subst hc
          exact ⟨hd.1, hd.2.2⟩
      · rw [List.foldl_append, hval]
        simp only [List.foldl_cons, List.foldl_nil, hd.2.1]
        omega

theorem toDigits_spec (n : Nat) :
    (Nat.toDigits 10 n) ≠ []
      ∧ (∀ c ∈ Nat.toDigits 10 n, c.isDigit = true ∧ c ≠ '_' ∧ c ≠ '/' ∧ c ≠ '-' ∧ c ≠ '+')
      ∧ (Nat.toDigits 10 n).foldl (fun acc c => acc * 10 + (c.toNat - 48)) 0 = n := by
  obtain ⟨pre, hpre, hne, hall, hval⟩ := toDigitsCore_spec (n + 1) n [] (by omega)
  rw [List.append_nil] at hpre
  unfold Nat.toDigits
  rw [hpre]
  exact ⟨hne, hall, hval⟩

theorem parseDigits_toDigits (n : Nat) : parseDigits (Nat.toDigits 10 n) = some n := by
  obtain ⟨hne, hall, hval⟩ := toDigits_spec n
  unfold parseDigits
  rw [if_neg, hval]
  rintro (h | h)
  · exact hne h
  · apply h
    rw [List.all_eq_true]
    intro c hc
    exact (hall c hc).1

theorem strconvAtoi_toDigits (n : Nat) (h : n < 2 ^ 63) :
    strconvAtoi (Nat.toDigits 10 n) = some (n : Int) := by
  obtain ⟨hne, hall, _⟩ := toDigits_spec n
  have hp := parseDigits_toDigits n
  unfold strconvAtoi
  split
  · rename_i rest heq
    have := (hall '-' (by rw [heq]; exact List.mem_cons_self _ _)).2.2.2.1
    exact absurd rfl this
  · rename_i rest heq
    have := (hall '+' (by rw [heq]; exact List.mem_cons_self _ _)).2.2.2.2
    exact absurd rfl this
  · rw [hp]
    simp only [Option.some_bind, if_pos h]

theorem stringsSplit_of_not_mem (sep : Char) (b : List Char) (h : sep ∉ b) :
    stringsSplit sep b = [b] := by
  induction b with
  | nil => rfl
  | cons c cs ih =>
    have hc : ¬ c = sep := fun e => h (by rw [e]; exact List.mem_cons_self _ _)
    simp only [stringsSplit, if_neg hc, ih (fun hm => h (List.mem_cons_of_mem _ hm))]

theorem stringsSplit_two (sep : Char) (a b : List Char) (ha : sep ∉ a) (hb : sep ∉ b) :
    stringsSplit sep (a ++ sep :: b) = [a, b] := by
  induction a with
  | nil => simp only [List.nil_append, stringsSplit, if_true, stringsSplit_of_not_mem sep b hb]
  | cons c cs ih =>
    have hc : ¬ c = sep := fun e => ha (by rw [e]; exact List.mem_cons_self _ _)
    have h := ih (fun hm => ha (List.mem_cons_of_mem _ hm))
    rw [List.cons_append]
    simp only [stringsSplit, if_neg hc]
    rw [h]

theorem stringsTrimSuffix_append (x suffix : List Char) :
    stringsTrimSuffix (x ++ suffix) suffix = x := by
  unfold stringsTrimSuffix
  have hs : suffix.isSuffixOf (x ++ suffix) = true := by
    rw [List.isSuffixOf_iff_suffix]
    exact List.suffix_append _ _
  rw [if_pos hs, List.length_append, Nat.add_sub_cancel, List.take_left']
  rfl

theorem filepathBase_join (dir name : List Char) (hne : name ≠ [])
    (hname : '/' ∉ name) : filepathBase (dir ++ '/' :: name) = name := by
  have hrev : (dir ++ '/' :: name).reverse = name.reverse ++ '/' :: dir.reverse := by simp
  have hrne : name.reverse ≠ [] := by simpa using hne
  obtain ⟨c, cs, hcs⟩ := List.exists_cons_of_ne_nil hrne
  have hc : c ≠ '/' := by
    intro e
    apply hname
    rw [← List.mem_reverse, hcs, e]
    exact List.mem_cons_self _ _
  have hdrop : (name.reverse ++ '/' :: dir.reverse).dropWhile (· = '/')
      = name.reverse ++ '/' :: dir.reverse := by
    rw [hcs, List.cons_append, List.dropWhile_cons]
    simp [hc]
  have htake : (name.reverse ++ '/' :: dir.reverse).takeWhile (· ≠ '/') = name.reverse := by
    rw [List.takeWhile_append_of_pos]
    · simp
    · intro x hx
      have : x ≠ '/' := fun e => hname (by rw [← e]; exact List.mem_reverse.mp hx)
      simpa using this
  unfold filepathBase
  rw [if_neg (by simp)]
  simp only [hrev, hdrop, List.reverse_reverse, htake]
  rw [if_neg hne]

theorem toString_nat_data (n : Nat) : (toString n).toList = Nat.toDigits 10 n := rfl

theorem sstName_data (m seq : Nat) :
    (sstName (Int.ofNat m) seq).toList
      = Nat.toDigits 10 m ++ '_' :: (Nat.toDigits 10 seq ++ ".sst".toList) := by
  unfold sstName
  simp only [String.toList, String.data_append]
  have h1 : (toString (Int.ofNat m)).data = Nat.toDigits 10 m := rfl
  have h2 : (toString seq).data = Nat.toDigits 10 seq := rfl
  rw [h1, h2]
  simp

theorem filepathBase_name (name : List Char) (hne : name ≠ []) (hname : '/' ∉ name) :
    filepathBase name = name := by
  have hrne : name.reverse ≠ [] := by simpa using hne
  obtain ⟨c, cs, hcs⟩ := List.exists_cons_of_ne_nil hrne
  have hc : c ≠ '/' := by
    intro e
    apply hname
    rw [← List.mem_reverse, hcs, e]
    exact List.mem_cons_self _ _
  have hdrop : name.reverse.dropWhile (· = '/') = name.reverse := by
    rw [hcs, List.dropWhile_cons]
    simp [hc]
  have htake : name.reverse.takeWhile (· ≠ '/') = name.reverse := by
    rw [List.takeWhile_eq_self_iff]
    intro x hx
    have : x ≠ '/' := fun e => hname (by rw [← e]; exact List.mem_reverse.mp hx)
    simpa using this
  unfold filepathBase
  rw [if_neg hne]
  simp only [hdrop, List.reverse_reverse, htake]
  rw [if_neg hne]

theorem sstName_no_slash (m seq : Nat) :
    (sstName (Int.ofNat m) seq).toList ≠ [] ∧ '/' ∉ (sstName (Int.ofNat m) seq).toList := by
  rw [sstName_data]
  refine ⟨by simp, ?_⟩
  intro h
  rcases List.mem_append.mp h with h | h
  · exact (((toDigits_spec m).2.1 _ h).2.2.1) rfl
  · rcases List.mem_cons.mp h with h | h
    · exact absurd h (by decide)
    · rcases List.mem_append.mp h with h | h
      · exact (((toDigits_spec seq).2.1 _ h).2.2.1) rfl
      · revert h; decide

theorem ParseSSTPath_of_base (path : String) (m seq : Nat)
    (hbase : filepathBase path.toList = (sstName (Int.ofNat m) seq).toList)
    (hm : m < 2 ^ 63) (hseq : seq < 2 ^ 32) :
    ParseSSTPath path = .ok (Int.ofNat m, seq) := by
  have hsplit : stringsSplit '_' (stringsTrimSuffix (filepathBase path.toList) ".sst".toList)
      = [Nat.toDigits 10 m, Nat.toDigits 10 seq] := by
    rw [hbase, sstName_data,
      show Nat.toDigits 10 m ++ '_' :: (Nat.toDigits 10 seq ++ ".sst".toList)
        = (Nat.toDigits 10 m ++ '_' :: Nat.toDigits 10 seq) ++ ".sst".toList by simp,
      stringsTrimSuffix_append]
    exact stringsSplit_two '_' _ _
      (fun h => (((toDigits_spec m).2.1 _ h).2.1) rfl)
      (fun h => (((toDigits_spec seq).2.1 _ h).2.1) rfl)
  have h63 : seq < 2 ^ 63 := by
    have : (2 : Nat) ^ 32 < 2 ^ 63 := by decide
    omega
  unfold ParseSSTPath
  rw [hsplit]
  simp only [strconvAtoi_toDigits m hm, strconvAtoi_toDigits seq h63]
  congr 2
  have h32 : (2 : Int) ^ 32 = 4294967296 := by norm_num
  have h32n : (2 : Nat) ^ 32 = 4294967296 := by norm_num
  rw [h32]
  omega

/-- C34. For every directory, every level from 0 up in the range of `int` and
every seq in the range of `uint32`, `ParseSSTPath` applied to the path the
engine generates for the run, the directory followed by `/`, the level, `_`,
the seq and `.sst`, returns the level and the seq without error; so it does on
the bare file name, which is what `loadSST` passes. -/
theorem ParseSSTPath_of_generated_name (dir : String) (level : Int) (seq : Nat)
    (h0 : 0 ≤ level) (hlevel : level < 2 ^ 63) (hseq : seq < 2 ^ 32) :
    ParseSSTPath (sstPath dir level seq) = .ok (level, seq)
      ∧ ParseSSTPath (sstName level seq) = .ok (level, seq) := by
  obtain ⟨m, rfl⟩ := Int.eq_ofNat_of_zero_le h0
  have hm : m < 2 ^ 63 := by exact_mod_cast hlevel
  obtain ⟨hne, hns⟩ := sstName_no_slash m seq
  change ParseSSTPath (sstPath dir (Int.ofNat m) seq) = .ok (Int.ofNat m, seq)
    ∧ ParseSSTPath (sstName (Int.ofNat m) seq) = .ok (Int.ofNat m, seq)
  constructor
  · apply ParseSSTPath_of_base _ m seq _ hm hseq
    have : (sstPath dir (Int.ofNat m) seq).toList
        = dir.toList ++ '/' :: (sstName (Int.ofNat m) seq).toList := by
      unfold sstPath
      simp only [String.toList, String.data_append]
      simp
    rw [this]
    exact filepathBase_join _ _ hne hns
  · exact ParseSSTPath_of_base _ m seq (filepathBase_name _ hne hns) hm hseq

/-- C34 at the path `data/sst/0_1.sst` of the test of the parser. -/
theorem ParseSSTPath_of_generated_name_witness :
    ParseSSTPath (sstPath "data/sst" 0 1) = .ok (0, 1)
      ∧ ParseSSTPath (sstName 0 1) = .ok (0, 1) :=
  ParseSSTPath_of_generated_name "data/sst" 0 1 (by decide) (by decide) (by decide)

/-- C38 fails: `ParseSSTPath` accepts names that are not of the form
`<level>_<seq>.sst` with a seq in the range of `uint32`. The seq is parsed with
`strconv.Atoi` and then converted to `uint32`, so a negative seq and a seq
above 4294967295 are reduced modulo `2^32`; a sign before the level or the seq
is accepted; and `strings.TrimSuffix` leaves a name without the suffix `.sst`
as it is. `ParseWalPath`, which parses with `strconv.ParseUint(s, 10, 32)`,
rejects a negative id and an id above 4294967295. -/
theorem ParseSSTPath_accepts_malformed_names :
    ParseSSTPath "0_-1.sst" = .ok (0, 4294967295)
      ∧ ParseSSTPath "0_4294967296.sst" = .ok (0, 0)
      ∧ ParseSSTPath "0_1" = .ok (0, 1)
      ∧ ParseSSTPath "+0_+1.sst" = .ok (0, 1)
      ∧ ParseSSTPath "0_1.sst.sst" = .error .invalidPath
      ∧ ParseWalPath "-1.wal" = .error .invalidPath
      ∧ ParseWalPath "4294967296.wal" = .error .invalidPath := by
  decide

/-! ## Theorems: `Load` of arbitrary bytes -/

/-- C40 fails: `Load` returns nil on the 28 bytes `m = 0`, `k = 1`, `n = 0`
and one seed, whatever the filter it is called on, and on the loaded filter
`Contains` and `Add` panic for every key and every hash function with the
division by `bf.m = 0` in `getHash`. It also returns nil on the 28 bytes with
`m = 2^64 - 1`, for which it computes zero words, and then `Contains` and
`Add` panic with an index out of range. `NewBloomFilter` replaces `m = 0` by
1024; `Load` stores the `m` it reads unchecked. A sorted-run file that holds
the first blob for its block is opened without error, and `Get` on it panics
in `Contains`. -/
theorem Load_accepts_filter_that_panics (g : BloomFilter) (env : Env) (key : Bytes) :
    (g.Load zeroBitsBlob).2 = none
      ∧ (g.Load zeroBitsBlob).1 = { m := 0, k := 1, bits := [], n := 0, seeds := [0] }
      ∧ (g.Load zeroBitsBlob).1.Contains env key = none
      ∧ (g.Load zeroBitsBlob).1.Add env key = none
      ∧ (g.Load wrappedBitsBlob).2 = none
      ∧ (g.Load wrappedBitsBlob).1
          = { m := 2 ^ 64 - 1, k := 1, bits := [], n := 0, seeds := [0] }
      ∧ (g.Load wrappedBitsBlob).1.Contains env key = none
      ∧ (g.Load wrappedBitsBlob).1.Add env key = none
      ∧ (NewBloomFilter 0 1).m = 1024
      ∧ ∃ r, NewSSTReader (some zeroBitsRun) NewConfig = some (.ok r)
          ∧ r.Get env (ascii "a") = none := by
  have h1 : g.Load zeroBitsBlob
      = ({ m := 0, k := 1, bits := [], n := 0, seeds := [0] }, none) := by
    rfl
  have h2 : g.Load wrappedBitsBlob
      = ({ m := 2 ^ 64 - 1, k := 1, bits := [], n := 0, seeds := [0] }, none) := by
    rfl
  rw [h1, h2]
  refine ⟨rfl, rfl, rfl, rfl, rfl, rfl, ?_, ?_, rfl, _, rfl, ?_⟩
  · simp [BloomFilter.Contains, BloomFilter.getHash, getHashLoop, containsLoop]
  · simp [BloomFilter.Add, BloomFilter.getHash, getHashLoop, addLoop]
  · rfl

/-! ## Theorems: the decoders of index entries and of records -/

theorem beValue_beBytes_4 (n : Nat) (h : n < 2 ^ 32) : beValue (beBytes 4 n) = n := by
  rw [beValue_beBytes, pow_256_4, Nat.mod_eq_of_lt h]

theorem beValue_beBytes_8 (n : Nat) (h : n < 2 ^ 64) : beValue (beBytes 8 n) = n := by
  rw [beValue_beBytes, pow_256_8, Nat.mod_eq_of_lt h]

theorem take_beBytes_append (w n : Nat) (rest : Bytes) :
    (beBytes w n ++ rest).take w = beBytes w n :=
  List.take_left' (beBytes_length w n)

theorem drop_beBytes_append (w n : Nat) (rest : Bytes) :
    (beBytes w n ++ rest).drop w = rest :=
  List.drop_left' (beBytes_length w n)

theorem bufferReadUint_beBytes (w n : Nat) (rest : Bytes) :
    bufferReadUint (beBytes w n ++ rest) w = (.ok (beValue (beBytes w n)), rest) := by
  unfold bufferReadUint
  rw [if_neg (by simp [beBytes_length]), take_beBytes_append, drop_beBytes_append]

theorem Index.Encode_eq (e : Index) (rest : Bytes) :
    e.Encode ++ rest = beBytes 4 e.minKey.length ++ (beBytes 4 e.maxKey.length
      ++ (beBytes 8 e.offset ++ (beBytes 8 e.length ++ (e.minKey ++ (e.maxKey ++ rest))))) := by
  simp [Index.Encode]

theorem sstable.Decode_Encode (e : Index) (hmin : e.minKey.length < 2 ^ 32)
    (hmax : e.maxKey.length < 2 ^ 32) (hoff : e.offset < 2 ^ 64) (hlen : e.length < 2 ^ 64) :
    sstable.Decode e.Encode = .ok e := by
  have h := Index.Encode_eq e []
  rw [List.append_nil] at h
  unfold sstable.Decode
  rw [h]
  simp only [bufferReadUint_beBytes, beValue_beBytes_4 _ hmin, beValue_beBytes_4 _ hmax,
    beValue_beBytes_8 _ hoff, beValue_beBytes_8 _ hlen, bufferNext, List.append_nil,
    List.take_left', List.drop_left', List.take_length]

theorem beUint64_beBytes (n : Nat) (h : n < 2 ^ 64) : beUint64 (beBytes 8 n) = some n := by
  unfold beUint64
  rw [if_neg (by simp [beBytes_length]), List.take_of_length_le (by simp [beBytes_length]),
    beValue_beBytes_8 n h]

theorem sstable.decodeStreamLoop_step (fuel : Nat) (e : Index) (rest : Bytes) (acc : List Index)
    (hmin : e.minKey.length < 2 ^ 32) (hmax : e.maxKey.length < 2 ^ 32)
    (hoff : e.offset < 2 ^ 64) (hlen : e.length < 2 ^ 64) :
    sstable.decodeStreamLoop (fuel + 1) (e.Encode ++ rest) acc
      = sstable.decodeStreamLoop fuel rest (acc ++ [e]) := by
  have hpos : (e.Encode ++ rest).length > 0 := by
    simp only [Index.Encode, List.length_append, beBytes_length]
    omega
  rw [sstable.decodeStreamLoop, if_neg (by omega), Index.Encode_eq]
  simp only [bufferNext, take_beBytes_append, drop_beBytes_append,
    beUint32_beBytes _ hmin, beUint32_beBytes _ hmax, beUint64_beBytes _ hoff,
    beUint64_beBytes _ hlen, List.take_left', List.drop_left']

theorem sstable.decodeStreamLoop_Encode (es : List Index) (fuel : Nat) (acc : List Index)
    (hfuel : es.length < fuel)
    (h : ∀ e ∈ es, e.minKey.length < 2 ^ 32 ∧ e.maxKey.length < 2 ^ 32
      ∧ e.offset < 2 ^ 64 ∧ e.length < 2 ^ 64) :
    sstable.decodeStreamLoop fuel (es.map Index.Encode).flatten acc = some (acc ++ es) := by
  induction es generalizing fuel acc with
  | nil =>
    cases fuel with
    | zero => simp at hfuel
    | succ fuel => simp [sstable.decodeStreamLoop]
  | cons e es ih =>
    cases fuel with
    | zero => simp at hfuel
    | succ fuel =>
      obtain ⟨hmin, hmax, hoff, hlen⟩ := h e (List.mem_cons_self _ _)
      rw [List.map_cons, List.flatten_cons,
        sstable.decodeStreamLoop_step fuel e _ acc hmin hmax hoff hlen,
        ih fuel (acc ++ [e]) (by simpa using hfuel)
          (fun x hx => h x (List.mem_cons_of_mem _ hx))]
      simp

theorem Index.encoding_length (e : Index) :
    e.Encode.length = 24 + e.minKey.length + e.maxKey.length := by
  simp only [Index.Encode, List.length_append, beBytes_length]

theorem Index.flatten_Encode_length (es : List Index) :
    es.length ≤ (es.map Index.Encode).flatten.length := by
  induction es with
  | nil => simp
  | cons e es ih =>
    simp only [List.map_cons, List.flatten_cons, List.length_append, List.length_cons,
      Index.encoding_length]
    omega

/-- C37. For index entries whose key lengths are below `2^32` (and whose
offset and length are values of `uint64`), `Decode` of the encoding of an
entry returns the entry, with the same minimum key, maximum key, offset and
length, and `DecodeStream` over the concatenation of the encodings of a list
of entries returns exactly the list, in order, and nil. -/
theorem Decode_undoes_Encode (es : List Index)
    (h : ∀ e ∈ es, e.minKey.length < 2 ^ 32 ∧ e.maxKey.length < 2 ^ 32
      ∧ e.offset < 2 ^ 64 ∧ e.length < 2 ^ 64) :
    (∀ e ∈ es, sstable.Decode e.Encode = .ok e)
      ∧ sstable.DecodeStream (es.map Index.Encode).flatten = some (es, none) := by
  constructor
  · intro e he
    obtain ⟨hmin, hmax, hoff, hlen⟩ := h e he
    exact sstable.Decode_Encode e hmin hmax hoff hlen
  · unfold sstable.DecodeStream
    rw [sstable.decodeStreamLoop_Encode es _ [] (by
      have := Index.flatten_Encode_length es
      omega) h]
    rfl

/-- C37 at the two entries of the test of the package. -/
theorem Decode_undoes_Encode_witness :
    (∀ e ∈ [Index.mk (ascii "a") (ascii "b") 1 2, Index.mk (ascii "c") (ascii "d") 3 4],
        sstable.Decode e.Encode = .ok e)
      ∧ sstable.DecodeStream
          ([Index.mk (ascii "a") (ascii "b") 1 2, Index.mk (ascii "c") (ascii "d") 3 4].map
            Index.Encode).flatten
        = some ([Index.mk (ascii "a") (ascii "b") 1 2, Index.mk (ascii "c") (ascii "d") 3 4],
            none) :=
  Decode_undoes_Encode _ (by decide)

/-- The first round of `wal.DecodeStream` on a stream that starts with a
header of nine bytes: with a key length other than zero the slice expression
`buf[9:9+keyLength]` panics, with the key length zero the function returns
`io.EOF`; the callback is not called. -/
theorem wal.decodeStreamLoop_header (callback : Bytes → Bytes → Option GoError)
    (t : Byte) (kl vl : Nat) (tail : Bytes) (fuel : Nat) (buf : Bytes) (hbuf : buf.length = 9)
    (calls : List (Bytes × Bytes)) :
    wal.decodeStreamLoop callback (t :: (beBytes 4 kl ++ (beBytes 4 vl ++ tail))) (fuel + 1) 0 buf
        calls
      = if kl % 2 ^ 32 = 0 then (calls, some (some .eof)) else (calls, none) := by
  have h32 : (2 : Nat) ^ 32 = 4294967296 := by norm_num
  have hkl : kl % 2 ^ 32 < 2 ^ 32 := Nat.mod_lt _ (by norm_num)
  have hread : readerRead (t :: (beBytes 4 kl ++ (beBytes 4 vl ++ tail))) 0 buf
      = (t :: (beBytes 4 kl ++ beBytes 4 vl), 9, none, 9) := by
    unfold readerRead
    rw [if_neg (by simp)]
    have htake : ((t :: (beBytes 4 kl ++ (beBytes 4 vl ++ tail))).drop 0).take buf.length
        = t :: (beBytes 4 kl ++ beBytes 4 vl) := by
      rw [hbuf, List.drop_zero,
        show t :: (beBytes 4 kl ++ (beBytes 4 vl ++ tail))
          = (t :: (beBytes 4 kl ++ beBytes 4 vl)) ++ tail by simp]
      exact List.take_left' (by simp [beBytes_length])
    simp only [htake]
    have hl : (t :: (beBytes 4 kl ++ beBytes 4 vl)).length = 9 := by simp [beBytes_length]
    rw [hl, List.drop_of_length_le (by omega), List.append_nil, Nat.zero_add]
  have hl : (t :: (beBytes 4 kl ++ beBytes 4 vl)).length = 9 := by simp [beBytes_length]
  have h15 : goSlice (t :: (beBytes 4 kl ++ beBytes 4 vl)) 1 5 = some (beBytes 4 kl) := by
    unfold goSlice
    rw [if_pos (by rw [hl]; omega)]
    simp only [List.drop_succ_cons, List.drop_zero]
    rw [show 5 - 1 = 4 from rfl, take_beBytes_append]
  have h59 : goSlice (t :: (beBytes 4 kl ++ beBytes 4 vl)) 5 9 = some (beBytes 4 vl) := by
    unfold goSlice
    rw [if_pos (by rw [hl]; omega)]
    simp only [List.drop_succ_cons]
    rw [drop_beBytes_append, show 9 - 5 = 4 from rfl,
      List.take_of_length_le (by simp [beBytes_length])]
  have hrd : ∀ n, bufferReadUint (beBytes 4 n) 4 = (.ok (n % 2 ^ 32), []) := by
    intro n
    have := bufferReadUint_beBytes 4 n []
    rw [List.append_nil, beValue_beBytes, pow_256_4] at this
    exact this
  rw [wal.decodeStreamLoop, hread]
  simp only [h15, h59, hrd]
  by_cases hz : kl % 2 ^ 32 = 0
  · have hdrop9 : (t :: (beBytes 4 kl ++ beBytes 4 vl)).drop 9 = [] :=
      List.drop_of_length_le (by omega)
    have hs9 : goSlice (t :: (beBytes 4 kl ++ beBytes 4 vl)) 9 9 = some [] := by
      unfold goSlice
      rw [if_pos (by rw [hl]; omega), hdrop9]
      rfl
    have h9 : 9 % 2 ^ 32 = 9 := by norm_num
    rw [if_pos hz, hz]
    simp only [Nat.add_zero, h9, hs9, hl]
    by_cases hv : vl % 2 ^ 32 = 0
    · rw [hv]
      simp only [readFullBuffer, if_true, Nat.add_zero, h9, hs9, bufferReadUint,
        List.length_nil]
      rfl
    · simp only [readFullBuffer, if_true, hv, if_false, List.length_nil]
  · rw [if_neg hz]
    have hs : goSlice (t :: (beBytes 4 kl ++ beBytes 4 vl)) 9 ((9 + kl % 2 ^ 32) % 2 ^ 32)
        = none := by
      unfold goSlice
      rw [if_neg]
      rw [hl]
      omega
    simp only [hs]

/-- C39 fails on every stream that starts with the encoding of a record: the
callback is never called and `DecodeStream` does not return nil. The function
reads the nine bytes of the header into `buf` and then takes the key, the
value and the checksum from slices of `buf` beyond its ninth byte and not
from the reader: with a key that is not empty `buf[9:9+keyLength]` panics
(slice bounds out of range), with an empty key the function returns `io.EOF`
from the read of the value or of the checksum. Only on the empty stream does
it return nil. -/
theorem DecodeStream_fails_on_every_record (callback : Bytes → Bytes → Option GoError)
    (r : Record) (rest : Bytes) :
    (wal.DecodeStream callback (r.Encode ++ rest)).1 = []
      ∧ (wal.DecodeStream callback (r.Encode ++ rest)).2 ≠ some none
      ∧ ((r.Key.getD []).length % 2 ^ 32 ≠ 0 →
          (wal.DecodeStream callback (r.Encode ++ rest)).2 = none)
      ∧ ((r.Key.getD []).length % 2 ^ 32 = 0 →
          (wal.DecodeStream callback (r.Encode ++ rest)).2 = some (some .eof))
      ∧ wal.DecodeStream callback (NewRecord (some (ascii "a")) (some (ascii "1"))).Encode
          = ([], none)
      ∧ wal.DecodeStream callback (NewRecord (some []) (some (ascii "1"))).Encode
          = ([], some (some .eof))
      ∧ wal.DecodeStream callback [] = ([], some none) := by
  have hgen : ∀ (r : Record) (rest : Bytes), wal.DecodeStream callback (r.Encode ++ rest)
      = if (r.Key.getD []).length % 2 ^ 32 = 0 then ([], some (some .eof)) else ([], none) := by
    intro r rest
    unfold wal.DecodeStream
    rw [Record.Encode_header r]
    simp only [List.cons_append, List.singleton_append, List.append_assoc]
    exact wal.decodeStreamLoop_header callback _ _ _ _ _ _ (by simp) []
  refine ⟨?_, ?_, ?_, ?_, ?_, ?_, ?_⟩
  · rw [hgen]; split <;> rfl
  · rw [hgen]; split <;> simp
  · intro h; rw [hgen, if_neg h]
  · intro h; rw [hgen, if_pos h]
  · have := hgen (NewRecord (some (ascii "a")) (some (ascii "1"))) []
    rw [List.append_nil] at this
    rw [this]
    rfl
  · have := hgen (NewRecord (some []) (some (ascii "1"))) []
    rw [List.append_nil] at this
    rw [this]
    rfl
  · rfl

/-! ## Theorems: counters after a restart -/

set_option maxRecDepth 100000 in
/-- C31 fails after a restart. A first session on the empty data directory
puts `"a"`, rotates and flushes: the run `0_0.sst` is written and the level-0
counter becomes 1. The engine is closed and opened again: `loadSST` loads the
run `0_0.sst` into level 0 and leaves every seq counter at 0, where the claim
has 1 for level 0. The second session puts `"b"`, rotates and flushes: the
flush draws the seq 0, so the new run has the pair (0, 0) and the file name
`0_0.sst` of the existing run, and `NewSSTWriter` replaces the contents of
that file. Level 0 then holds two nodes with the pair (0, 0), and after one
more restart the key `"a"` is not found. -/
theorem restart_reuses_seq_of_loaded_run :
    ∃ l0 d0 l1 d1 l2 d2 l3 d3 l4 d4,
      NewLSM smallConf emptyDisk = some (l0, d0)
      ∧ (l0.Put sampleEnv d0 (some (ascii "a")) (some (ascii "1"))).1.flush sampleEnv
          (l0.Put sampleEnv d0 (some (ascii "a")) (some (ascii "1"))).2.1 = some (l1, d1)
      ∧ (l1.levelId, d1.sstDir.map Prod.fst) = ([1, 0, 0, 0, 0, 0, 0], ["0_0.sst"])
      ∧ reopen l1 d1 = some (l2, d2)
      ∧ l2.levelId = [0, 0, 0, 0, 0, 0, 0]
      ∧ l2.nodes.map (fun nodes => nodes.map (fun n => (n.level, n.seq)))
          = [[(0, 0)], [], [], [], [], [], []]
      ∧ (l2.Get sampleEnv (some (ascii "a"))).map Prod.fst = some (some (ascii "1"), true, none)
      ∧ (l2.Put sampleEnv d2 (some (ascii "b")) (some (ascii "2"))).1.flush sampleEnv
          (l2.Put sampleEnv d2 (some (ascii "b")) (some (ascii "2"))).2.1 = some (l3, d3)
      ∧ l3.nodes.map (fun nodes => nodes.map (fun n => (n.level, n.seq)))
          = [[(0, 0), (0, 0)], [], [], [], [], [], []]
      ∧ d3.sstDir.map Prod.fst = ["0_0.sst"]
      ∧ d2.sstDir.read "0_0.sst"
          = ((NewSSTWriter smallConf).Write sampleEnv
              (runMemOps [.Put (some (ascii "a")) (some (ascii "1"))])).map (·.dest)
      ∧ d3.sstDir.read "0_0.sst"
          = ((NewSSTWriter smallConf).Write sampleEnv
              (runMemOps [.Put (some (ascii "b")) (some (ascii "2"))])).map (·.dest)
      ∧ d3.sstDir.read "0_0.sst" ≠ d2.sstDir.read "0_0.sst"
      ∧ reopen l3 d3 = some (l4, d4)
      ∧ (l4.Get sampleEnv (some (ascii "a"))).map Prod.fst = some (none, false, none) :=
  ⟨_, _, _, _, _, _, _, _, _, _, rfl, rfl, by decide, rfl, by decide, by decide, by decide, rfl,
    by decide, by decide, by decide, by decide, by decide, rfl, by decide⟩

set_option maxRecDepth 100000 in
/-- C32 fails after a restart. With a threshold of 20 bytes, a first session
on the empty data directory rotates twice, flushes the two frozen memtables
and puts `"k" ↦ "old"` into the current WAL `2.wal`; its `walId` is 2. The
engine is closed and opened again: `loadWal` makes `2.wal` the current WAL
and leaves `walId` at 0, below the id 2 of the file found. The rotation of
the second session therefore opens `1.wal`, a new file whose id is below that
of the existing `2.wal`, and `Put("k", "new")` is logged there. In ascending
id order `1.wal` now comes before the older `2.wal`: after one more restart
the records of `2.wal` are replayed last, into the mutable memtable, and
`Get("k")` returns `"old"`, where it returned `"new"` before the restart. -/
theorem restart_reopens_lower_wal_id :
    ∃ l0 d0 la da lb db l1 d1 l2 d2 l3 d3 l4 d4,
      NewLSM { NewConfig with MemTableCapSize := 20 } emptyDisk = some (l0, d0)
      ∧ runOps sampleEnv (l0, d0)
          [putOp (ascii "a", ascii "1"), putOp (ascii "b", ascii "2"),
            putOp (ascii "c", ascii "3"), putOp (ascii "d", ascii "4")] = some (la, da)
      ∧ la.flush sampleEnv da = some (lb, db)
      ∧ runOps sampleEnv (lb, db) [putOp (ascii "k", ascii "old")] = some (l1, d1)
      ∧ (l1.walId, d1.walDir.map Prod.fst) = (2, ["2.wal"])
      ∧ reopen l1 d1 = some (l2, d2)
      ∧ l2.walId = 0
      ∧ l2.currWal.map Wal.filePath = some "2.wal"
      ∧ runOps sampleEnv (l2, d2)
          [putOp (ascii "e", ascii "5"), putOp (ascii "k", ascii "new")] = some (l3, d3)
      ∧ l3.walId = 1
      ∧ l3.currWal.map Wal.filePath = some "1.wal"
      ∧ l3.immutableMemtables.map (fun im => im.wal.map Wal.filePath) = [some "2.wal"]
      ∧ d3.walDir.map Prod.fst = ["2.wal", "1.wal"]
      ∧ d3.walDir.read "1.wal" = some (walBytes [putRecord (ascii "k", ascii "new")])
      ∧ (l3.Get sampleEnv (some (ascii "k"))).map Prod.fst = some (some (ascii "new"), true, none)
      ∧ reopen l3 d3 = some (l4, d4)
      ∧ l4.currWal.map Wal.filePath = some "2.wal"
      ∧ l4.immutableMemtables.map (fun im => im.wal.map Wal.filePath) = [some "1.wal"]
      ∧ (l4.Get sampleEnv (some (ascii "k"))).map Prod.fst
          = some (some (ascii "old"), true, none) :=
  ⟨_, _, _, _, _, _, _, _, _, _, _, _, _, _, rfl, rfl, rfl, rfl, by decide, rfl, by decide,
    by decide, rfl, by decide, by decide, by decide, by decide, by decide, by decide, rfl,
    by decide, by decide, by decide⟩

set_option maxRecDepth 100000 in
/-- C29 fails in the state a restart builds. With a threshold of 20 bytes, a
first session on the empty data directory rotates twice, flushes the two
frozen memtables, and then logs `"k" ↦ "old"` and `"e" ↦ "5"` in `2.wal`,
which the third rotation freezes; it stops before the flush with `2.wal` and
the empty `3.wal`. The second session starts with `walId` 0, the entry of
`2.wal` in the queue and `3.wal` as the current WAL; its rotation appends the
entry of `3.wal` behind that of `2.wal` and opens `1.wal`, where
`"k" ↦ "new"` is logged, and `Get("k")` returns `"new"`. It stops before any
flush. The third session finds `1.wal`, `2.wal` and `3.wal`: `loadWal` builds
the queue in ascending id order, the entry of `1.wal` first and that of the
older `2.wal` behind it, so the queue is not in freeze order, and `Get("k")`,
which probes the queue from its tail, returns `"old"`. -/
theorem restart_queue_not_in_freeze_order :
    ∃ l0 d0 la da lb db l1 d1 l2 d2 l3 d3 l4 d4,
      NewLSM { NewConfig with MemTableCapSize := 20 } emptyDisk = some (l0, d0)
      ∧ runOps sampleEnv (l0, d0)
          [putOp (ascii "a", ascii "1"), putOp (ascii "b", ascii "2"),
            putOp (ascii "c", ascii "3"), putOp (ascii "d", ascii "4")] = some (la, da)
      ∧ la.flush sampleEnv da = some (lb, db)
      ∧ runOps sampleEnv (lb, db)
          [putOp (ascii "k", ascii "old"), putOp (ascii "e", ascii "5")] = some (l1, d1)
      ∧ l1.walId = 3
      ∧ l1.immutableMemtables.map (fun im => im.wal.map Wal.filePath) = [some "2.wal"]
      ∧ d1.walDir.map Prod.fst = ["2.wal", "3.wal"]
      ∧ reopen l1 d1 = some (l2, d2)
      ∧ l2.walId = 0
      ∧ l2.immutableMemtables.map (fun im => im.wal.map Wal.filePath) = [some "2.wal"]
      ∧ l2.currWal.map Wal.filePath = some "3.wal"
      ∧ runOps sampleEnv (l2, d2)
          [putOp (ascii "f", ascii "6"), putOp (ascii "g", ascii "7"),
            putOp (ascii "k", ascii "new")] = some (l3, d3)
      ∧ l3.immutableMemtables.map (fun im => im.wal.map Wal.filePath)
          = [some "2.wal", some "3.wal"]
      ∧ l3.currWal.map Wal.filePath = some "1.wal"
      ∧ d3.walDir.read "1.wal" = some (walBytes [putRecord (ascii "k", ascii "new")])
      ∧ d3.walDir.read "2.wal"
          = some (walBytes [putRecord (ascii "k", ascii "old"), putRecord (ascii "e", ascii "5")])
      ∧ (l3.Get sampleEnv (some (ascii "k"))).map Prod.fst = some (some (ascii "new"), true, none)
      ∧ reopen l3 d3 = some (l4, d4)
      ∧ l4.immutableMemtables.map (fun im => im.wal.map Wal.filePath)
          = [some "1.wal", some "2.wal"]
      ∧ l4.immutableMemtables.map (fun im => im.memtable.Get (some (ascii "k")))
          = [.ok (ascii "new"), .ok (ascii "old")]
      ∧ l4.currWal.map Wal.filePath = some "3.wal"
      ∧ (l4.Get sampleEnv (some (ascii "k"))).map Prod.fst
          = some (some (ascii "old"), true, none) :=
  ⟨_, _, _, _, _, _, _, _, _, _, _, _, _, _, rfl, rfl, rfl, rfl, by decide, by decide, by decide,
    rfl, by decide, by decide, by decide, rfl, by decide, by decide, by decide, by decide,
    by decide, rfl, by decide, by decide, by decide, by decide⟩

/-! ## Theorems: the WAL files a flush removes -/

theorem busyCount_set (engines : List EngineThreads) (e : Nat) (old new : EngineThreads)
    (h : engines.get? e = some old) :
    busyCount (engines.set e new) + busyCount [old] = busyCount engines + busyCount [new] := by
  induction engines generalizing e with
  | nil => simp at h
  | cons x xs ih =>
    cases e with
    | zero =>
      simp only [List.get?_cons_zero, Option.some.injEq] at h
      subst h
      simp only [List.set_cons_zero, busyCount]
      omega
    | succ e =>
      simp only [List.get?_cons_succ] at h
      have := ih e h
      simp only [List.set_cons_succ, busyCount] at this ⊢
      omega

theorem busyCount_append (xs ys : List EngineThreads) :
    busyCount (xs ++ ys) = busyCount xs + busyCount ys := by
  induction xs with
  | nil => simp [busyCount]
  | cons x xs ih =>
    rw [List.cons_append]
    simp only [busyCount]
    rw [ih]
    omega

theorem busyCount_replicate (n : Nat) :
    busyCount (List.replicate n { immCount := 0, worker := .idle, helper := .idle }) = 0 := by
  induction n with
  | zero => rfl
  | succ n ih => simp [List.replicate_succ, busyCount, ih]

theorem busyCount_of_overlap (engines : List EngineThreads) (eng : EngineThreads)
    (hmem : eng ∈ engines) (hw : eng.worker = .compacting) (hh : eng.helper = .compacting) :
    2 ≤ busyCount engines := by
  induction engines with
  | nil => simp at hmem
  | cons x xs ih =>
    rcases List.mem_cons.mp hmem with h | h
    · subst h
      simp only [busyCount, hw, hh]
      simp
    · have := ih h
      simp only [busyCount]
      omega

theorem busyCount_setPc (eng : EngineThreads) (t : Thread) (pc : WorkerPc) :
    busyCount [eng.setPc t pc] + (if eng.pc t = .idle then 0 else 1)
      = busyCount [eng] + (if pc = .idle then 0 else 1) := by
  cases t <;> simp only [EngineThreads.setPc, EngineThreads.pc, busyCount] <;> omega

theorem busyCount_immCount (eng : EngineThreads) (n : Nat) :
    busyCount [{ eng with immCount := n }] = busyCount [eng] := rfl

theorem Process.tryEnter_exclusive (p : Process) (e : Nat) (t : Thread) (b : Bool)
    (h : p.exclusive) : (p.tryEnter e t b).exclusive := by
  unfold Process.tryEnter
  cases hget : p.engines.get? e with
  | none => exact h
  | some eng =>
    simp only
    split
    · rename_i hc
      obtain ⟨hidle, _, hflag⟩ := hc
      have hset := busyCount_set p.engines e eng (eng.setPc t .compacting) hget
      have hpc := busyCount_setPc eng t .compacting
      rw [hidle] at hpc
      simp only [if_true] at hpc
      have hne : ¬ (WorkerPc.compacting = WorkerPc.idle) := by decide
      rw [if_neg hne] at hpc
      obtain ⟨h1, h2⟩ := h
      have h0 : busyCount p.engines = 0 := by
        by_contra hn
        have : busyCount p.engines = 1 := by omega
        rw [h2 this] at hflag
        exact absurd hflag (by decide)
      constructor
      · show busyCount (p.engines.set e (eng.setPc t .compacting)) ≤ 1
        omega
      · intro _
        rfl
    · exact h

theorem SchedStep.run_exclusive (p : Process) (s : SchedStep) (hs : s ≠ .newLSM)
    (h : p.exclusive) : (s.run p).exclusive := by
  cases s with
  | newLSM => exact absurd rfl hs
  | rotate e =>
    simp only [SchedStep.run]
    cases hget : p.engines.get? e with
    | none => exact h
    | some eng =>
      have hset := busyCount_set p.engines e eng { eng with immCount := eng.immCount + 1 } hget
      have himm := busyCount_immCount eng (eng.immCount + 1)
      obtain ⟨h1, h2⟩ := h
      have heq : busyCount (p.engines.set e { eng with immCount := eng.immCount + 1 })
          = busyCount p.engines := by omega
      exact ⟨by show busyCount (p.engines.set e _) ≤ 1; omega,
        fun hb => h2 (by rw [← heq]; exact hb)⟩
  | signal e => exact Process.tryEnter_exclusive p e .worker false h
  | poll e t => exact Process.tryEnter_exclusive p e t true h
  | pop e t =>
    simp only [SchedStep.run]
    cases hget : p.engines.get? e with
    | none => exact h
    | some eng =>
      simp only
      split
      · have hset := busyCount_set p.engines e eng { eng with immCount := eng.immCount - 1 } hget
        have himm := busyCount_immCount eng (eng.immCount - 1)
        obtain ⟨h1, h2⟩ := h
        have heq : busyCount (p.engines.set e { eng with immCount := eng.immCount - 1 })
            = busyCount p.engines := by omega
        exact ⟨by show busyCount (p.engines.set e _) ≤ 1; omega,
          fun hb => h2 (by rw [← heq]; exact hb)⟩
      · exact h
  | ret e t =>
    simp only [SchedStep.run]
    cases hget : p.engines.get? e with
    | none => exact h
    | some eng =>
      simp only
      split
      · rename_i hc
        have hset := busyCount_set p.engines e eng (eng.setPc t .returned) hget
        have hpc := busyCount_setPc eng t .returned
        rw [hc] at hpc
        have hne1 : ¬ (WorkerPc.compacting = WorkerPc.idle) := by decide
        have hne2 : ¬ (WorkerPc.returned = WorkerPc.idle) := by decide
        rw [if_neg hne1, if_neg hne2] at hpc
        obtain ⟨h1, h2⟩ := h
        have heq : busyCount (p.engines.set e (eng.setPc t .returned))
            = busyCount p.engines := by omega
        exact ⟨by show busyCount (p.engines.set e _) ≤ 1; omega,
          fun hb => h2 (by rw [← heq]; exact hb)⟩
      · exact h
  | store e t =>
    simp only [SchedStep.run]
    cases hget : p.engines.get? e with
    | none => exact h
    | some eng =>
      simp only
      split
      · rename_i hc
        have hset := busyCount_set p.engines e eng (eng.setPc t .idle) hget
        have hpc := busyCount_setPc eng t .idle
        rw [hc] at hpc
        have hne2 : ¬ (WorkerPc.returned = WorkerPc.idle) := by decide
        rw [if_neg hne2] at hpc
        simp only [if_true] at hpc
        obtain ⟨h1, h2⟩ := h
        have h0 : busyCount (p.engines.set e (eng.setPc t .idle)) = 0 := by omega
        constructor
        · show busyCount (p.engines.set e (eng.setPc t .idle)) ≤ 1
          omega
        · intro hb
          have hb' : busyCount (p.engines.set e (eng.setPc t .idle)) = 1 := hb
          omega
      · exact h

theorem runSchedule_exclusive (steps : List SchedStep) (p : Process)
    (hs : ∀ s ∈ steps, s ≠ .newLSM) (h : p.exclusive) : (runSchedule p steps).exclusive := by
  induction steps generalizing p with
  | nil => exact h
  | cons s steps ih =>
    simp only [runSchedule, List.foldl_cons]
    exact ih (s.run p) (fun x hx => hs x (List.mem_cons_of_mem _ hx))
      (SchedStep.run_exclusive p s (hs s (List.mem_cons_self _ _)) h)

theorem Process.not_overlap_of_exclusive (p : Process) (h : p.exclusive) : ¬ p.overlap := by
  rintro ⟨eng, hmem, hw, hh⟩
  have := busyCount_of_overlap p.engines eng hmem hw hh
  have := h.1
  omega

/-- C35 fails when `NewLSM` is called while a flush is running. The flag
`compactionInProgress` is a variable of the package, shared by the engines of
the process, and `NewLSM` stores false into it. Engine 0 has two frozen
entries; its worker receives a signal, wins the compare-and-swap and is inside
`compactMemTables`, where it has taken one entry off the queue. A second
engine is then constructed, which resets the flag. The helper of engine 0
finds a frozen entry and the flag false, wins the compare-and-swap and enters
`compactMemTables` on engine 0 while the worker is still inside. In a process
in which `NewLSM` is not called again, no schedule makes two executions
overlap. -/
theorem NewLSM_lets_two_flushes_overlap :
    (runSchedule (Process.fresh 0)
        [.newLSM, .rotate 0, .rotate 0, .signal 0, .pop 0 .worker, .newLSM, .poll 0 .helper]
      = { compactionInProgress := true
          engines := [{ immCount := 1, worker := .compacting, helper := .compacting },
                      { immCount := 0, worker := .idle, helper := .idle }] })
      ∧ (runSchedule (Process.fresh 0)
          [.newLSM, .rotate 0, .rotate 0, .signal 0, .pop 0 .worker, .newLSM,
            .poll 0 .helper]).overlap
      ∧ (runSchedule (Process.fresh 0)
          [.newLSM, .rotate 0, .rotate 0, .signal 0, .pop 0 .worker, .poll 0 .helper]
        = { compactionInProgress := true
            engines := [{ immCount := 1, worker := .compacting, helper := .idle }] })
      ∧ ∀ (n : Nat) (steps : List SchedStep), (∀ s ∈ steps, s ≠ .newLSM) →
          ¬ (runSchedule (Process.fresh n) steps).overlap := by
  refine ⟨by decide, ?_, by decide, ?_⟩
  · exact ⟨{ immCount := 1, worker := .compacting, helper := .compacting }, by decide, rfl, rfl⟩
  · intro n steps hs
    apply Process.not_overlap_of_exclusive
    apply runSchedule_exclusive steps _ hs
    unfold Process.exclusive Process.fresh
    simp only [busyCount_replicate]
    exact ⟨by omega, by intro h; omega⟩

/-! ## Theorems: the reader on the files of the writer -/

end Sqldb
